import Mathlib

/-!
# go-pvss: publicly verifiable secret sharing over secp256k1

A shallow embedding of the package `pvss` (files `params.go`, `types.go`, `util.go`,
`polynomial.go`, `dleq.go`, `participant.go`) and theorems about it.

* `*big.Int` values are `Int`; `x.Bytes()` is `Bytes x` and `SetBytes` is its inverse on
  non-negative values. The coordinates of a `Point` are pointers that may be nil.
* The curve (`theCurve`, package `crypto/secp256k1`) and the hash (`sha3.New256`) are
  not part of the package sources: they are parameters (`Curve`, `Hasher`), and the
  contract the package relies on is the structure `Curve.Laws`. A call of the curve
  returns coordinates, which may be nil, or panics.
* A call `theCurve.ScalarMult(P.X, P.Y, k.Bytes())` is `E.ScalarMult P (Bytes k)`.
* `crypto/rand` is a tape of draws.
* A Go call that can fail returns `Res`: a value, an `error`, or a run-time panic.
-/

namespace Pvss

/-! ## Results, integers and byte strings -/

/-- Outcome of a Go call: a returned value, a returned `error`, or a run-time panic
(index out of range, nil dereference, negative `make` length). -/
inductive Res (α : Type) where
  | ok (val : α)
  | error (msg : String)
  | panic
deriving DecidableEq, Repr

/-- Sequencing of two steps: an error or a panic of the first step ends the run. -/
def Res.bind {α β : Type} : Res α → (α → Res β) → Res β
  | .ok a, f => f a
  | .error e, _ => .error e
  | .panic, _ => .panic

/-- Go `int` arithmetic on a 64-bit platform: the result wraps into `[-2^63, 2^63)`. -/
def wrap64 (x : Int) : Int := (x + 2 ^ 63) % 2 ^ 64 - 2 ^ 63

/-- Method `(*big.Int).Bytes`: the minimal big-endian bytes of `|x|`; zero gives no bytes. -/
def Bytes (x : Int) : List Nat := (Nat.digits 256 x.natAbs).reverse

/-- Method `(*big.Int).SetBytes`: the big-endian unsigned integer of a byte string. -/
def SetBytes (bs : List Nat) : Nat := Nat.ofDigits 256 bs.reverse

/-- Method `(*big.Int).ModInverse(g, n)` for `n > 0`: the inverse of `g` in `[0, n)` when
`g` and `n` are coprime, and `nil` (here `none`) otherwise. -/
def ModInverse (g n : Int) : Option Int :=
  if Int.gcd g n = 1 then some (Int.gcdA g n % n) else none

/-- Method `(*big.Int).Exp(x, y, m)` for an exponent `y ≥ 1` and `m > 0`: `x ^ y` reduced
into `[0, m)`. -/
def Exp (x : Int) (y : Nat) (m : Int) : Int := x ^ y % m

/-- One call `rand.Int(rand.Reader, max)`: panics for `max ≤ 0`, fails when the reader
fails (the tape is exhausted), and otherwise returns the next draw, in `[0, max)`. -/
def randInt (max : Int) (rnd : List Nat) : Res (Int × List Nat) :=
  if max ≤ 0 then .panic
  else match rnd with
    | [] => .error "rand: reader failed"
    | v :: rest => .ok ((v : Int) % max, rest)

/-! ## types.go, params.go -/

/-- Struct `Point` of types.go: two `*big.Int`, each of which may be nil (`none`). -/
structure Point where
  X : Option Int
  Y : Option Int
deriving DecidableEq, Repr

/-- The interface `elliptic.Curve` as the package uses it (`theCurve`), with the order
`secp256k1N` and the base point of `theCurve.Params()`. A scalar is passed as bytes; a call
returns two coordinates, which may be nil, or panics. -/
structure Curve where
  N : Nat
  Gx : Int
  Gy : Int
  Add : Point → Point → Res Point
  ScalarMult : Point → List Nat → Res Point
  ScalarBaseMult : List Nat → Res Point

/-- A `hash.Hash` used as `Reset`, `Write`..., `Sum(nil)`: the digest of the written bytes. -/
abbrev Hasher := List Nat → List Nat

/-- Constant `Hx` of params.go. -/
def Hx : Int := 0x50929b74c1a04954b78b4b6035e97a5e078a5a0f28ec96d547bfee9ace803ac0

/-- Constant `Hy` of params.go. -/
def Hy : Int := 0x31d3c6863973926e049e637cb1b5f40a36dac28af1766968c30c2313f3a38904

/-- Variable `G1` of params.go: the base point of the curve. -/
def G1 (E : Curve) : Point := ⟨some E.Gx, some E.Gy⟩

/-- Variable `G2` of params.go: the second generator `(Hx, Hy)`. -/
def G2 : Point := ⟨some Hx, some Hy⟩

/-- An `ecdsa.PublicKey`: its two coordinates, neither of them nil. -/
structure PublicKey where
  X : Int
  Y : Int
deriving DecidableEq, Repr

/-- The Go expression `&Point{pk.X, pk.Y}` for a public key `pk`. -/
def PublicKey.point (pk : PublicKey) : Point := ⟨some pk.X, some pk.Y⟩

/-- Struct `Share`. `S`, `challenge` and `response` are nil until `distribute` sets them. -/
structure Share where
  PK : PublicKey
  Position : Int
  S : Option Point
  challenge : Option Int
  response : Option Int
deriving DecidableEq, Repr

/-- Struct `DecryptedShare`. -/
structure DecryptedShare where
  PK : PublicKey
  Position : Int
  S : Point
  Y : Point
  challenge : Int
  response : Int
deriving DecidableEq, Repr

/-- Struct `DistributionSharesBox`. -/
structure DistributionSharesBox where
  Commitments : List Point
  Shares : List Share
  U : Int
deriving DecidableEq, Repr

/-- An `ecdsa.PrivateKey`: the embedded public key `(X, Y)` and the scalar `D`. -/
structure PrivateKey where
  X : Int
  Y : Int
  D : Int
deriving DecidableEq, Repr

/-- Struct `Dealer`: the participant's public key `PK` and its private key. -/
structure Dealer where
  PK : PublicKey
  privateKey : PrivateKey
deriving DecidableEq, Repr

/-- Function `NewDealer`. -/
def NewDealer (privateKey : PrivateKey) : Dealer :=
  { PK := ⟨privateKey.X, privateKey.Y⟩, privateKey := privateKey }

/-! ## util.go -/

/-- Function `Hash` on values that are not nil: the digest of their concatenated `Bytes`. -/
def Hash (hasher : Hasher) (values : List Int) : List Nat :=
  hasher (values.flatMap Bytes)

/-- Function `HashMod`: the digest as an integer, reduced modulo `n` (`n ≠ 0`). -/
def HashMod (n : Int) (hasher : Hasher) (values : List Int) : Int :=
  (SetBytes (Hash hasher values) : Int) % n

/-- The arguments of a call of `Hash` or `HashMod` that passes the coordinates of the
given points in order: `Hash` calls `x.Bytes()` on each, and a nil `x` is a nil
dereference. -/
def values : List Point → Res (List Int)
  | [] => .ok []
  | P :: rest =>
    match P.X, P.Y with
    | some x, some y => (values rest).bind (fun vs => .ok (x :: y :: vs))
    | _, _ => .panic

/-! ## polynomial.go -/

/-- Struct `Polynomial`. -/
structure Polynomial where
  coefficients : List Int
deriving DecidableEq, Repr

/-- The loop of `InitPolynomial`: `count` successive draws below `n`. -/
def drawCoefficients (n : Int) : Nat → List Nat → Res (List Int × List Nat)
  | 0, rnd => .ok ([], rnd)
  | count + 1, rnd =>
    match randInt n rnd with
    | .ok (a, rnd1) =>
      match drawCoefficients n count rnd1 with
      | .ok (as, rnd2) => .ok (a :: as, rnd2)
      | .error e => .error e
      | .panic => .panic
    | .error e => .error e
    | .panic => .panic

/-- Function `InitPolynomial`: `make([]*big.Int, degree+1)` panics on a negative length. -/
def InitPolynomial (degree : Int) (n : Int) (rnd : List Nat) :
    Res (Polynomial × List Nat) :=
  let len := wrap64 (degree + 1)
  if len < 0 then .panic
  else match drawCoefficients n len.toNat rnd with
    | .ok (as, rnd1) => .ok (⟨as⟩, rnd1)
    | .error e => .error e
    | .panic => .panic

/-- One round of the loop of `GetValue` on the state `(sum, xi)`. -/
def getValueStep (x n : Int) (st : Int × Int) (ai : Int) : Int × Int :=
  ((st.1 + ai * st.2) % n, st.2 * x % n)

/-- Method `Polynomial.GetValue`. Reading `coefficients[0]` of an empty list panics, and so
does `Mod` by a zero modulus, which is reached when there are two coefficients or more. -/
def Polynomial.GetValue (poly : Polynomial) (x n : Int) : Res Int :=
  match poly.coefficients with
  | [] => .panic
  | a0 :: rest =>
    if n = 0 ∧ rest ≠ [] then .panic
    else .ok (rest.foldl (getValueStep x n) (0 + a0, x)).1

/-! ## dleq.go -/

/-- Struct `DLEQ`. -/
structure DLEQ where
  G1 : Point
  H1 : Point
  G2 : Point
  H2 : Point
  w : Int
  alpha : Int
  r : Option Int
deriving DecidableEq, Repr

/-- Function `NewDLEQ`: a nil `H1` (`H2`) is computed as `alpha · G1` (`alpha · G2`) and
stored with the coordinates the curve returns. -/
def NewDLEQ (E : Curve) (G1 : Point) (H1 : Option Point) (G2 : Point) (H2 : Option Point)
    (w alpha : Int) : Res DLEQ :=
  (match H1 with
    | none => E.ScalarMult G1 (Bytes alpha)
    | some p => .ok p).bind fun H1 =>
  (match H2 with
    | none => E.ScalarMult G2 (Bytes alpha)
    | some p => .ok p).bind fun H2 =>
  .ok { G1 := G1, H1 := H1, G2 := G2, H2 := H2, w := w, alpha := alpha, r := none }

/-- Function `Response`: `r := (w - alpha*c) mod n` (`n ≠ 0`). -/
def Response (w alpha c n : Int) : Int :=
  (w - alpha * c % n) % n

/-- Method `DLEQ.ChallengeAndResponse`, with its own `sha3.New256()` hasher `sha3`. -/
def DLEQ.ChallengeAndResponse (E : Curve) (sha3 : Hasher) (d : DLEQ) : Res (Int × Int) :=
  (E.ScalarMult d.G1 (Bytes d.w)).bind fun a1 =>
  (E.ScalarMult d.G2 (Bytes d.w)).bind fun a2 =>
  (values [d.H1, d.H2, a1, a2]).bind fun vs =>
  .ok (HashMod E.N sha3 vs, Response d.w d.alpha (HashMod E.N sha3 vs) E.N)

/-- Function `DLEQVerify`. -/
def DLEQVerify (E : Curve) (hasher : Hasher) (G1 H1 G2 H2 : Point) (c r : Int) : Res Bool :=
  (E.ScalarMult G1 (Bytes r)).bind fun a1 =>
  (E.ScalarMult H1 (Bytes c)).bind fun h1c =>
  (E.Add a1 h1c).bind fun a1 =>
  (E.ScalarMult G2 (Bytes r)).bind fun a2 =>
  (E.ScalarMult H2 (Bytes c)).bind fun h2c =>
  (E.Add a2 h2c).bind fun a2 =>
  (values [H1, H2, a1, a2]).bind fun vs =>
  .ok (decide (HashMod E.N hasher vs = c))

/-- The commitment `r · G + c · H` by the three calls with which `DLEQVerify` computes it:
two of `ScalarMult` and one of `Add`. -/
def recomputed (E : Curve) (G H : Point) (c r : Int) : Res Point :=
  (E.ScalarMult G (Bytes r)).bind fun a =>
  (E.ScalarMult H (Bytes c)).bind fun hc => E.Add a hc

/-! ## participant.go -/

/-- The first loop of `DistributeSecret`: the share at index `i` gets `Position` `i + 1`. -/
def initShares : Nat → List PublicKey → List Share
  | _, [] => []
  | i, pk :: rest =>
    { PK := pk, Position := (i : Int) + 1, S := none, challenge := none, response := none }
      :: initShares (i + 1) rest

/-- The first loop of `distribute`: the commitments `C_j := a_j · H`. -/
def commitments (E : Curve) : List Int → Res (List Point)
  | [] => .ok []
  | a_j :: rest =>
    (E.ScalarMult ⟨some Hx, some Hy⟩ (Bytes a_j)).bind fun C =>
    (commitments E rest).bind fun Cs => .ok (C :: Cs)

/-- The loop of `distribute` over the shares: each share gets `Y_i` and its proof. -/
def distributeShares (E : Curve) (sha3 : Hasher) (poly : Polynomial) :
    List Share → List Nat → Res (List Share)
  | [], _ => .ok []
  | share :: rest, rnd =>
    (poly.GetValue share.Position E.N).bind fun pi =>
    (randInt E.N rnd).bind fun wr =>
    (NewDLEQ E ⟨some Hx, some Hy⟩ none share.PK.point none wr.1 pi).bind fun dleq =>
    (dleq.ChallengeAndResponse E sha3).bind fun cr =>
    (distributeShares E sha3 poly rest wr.2).bind fun rest1 =>
    .ok ({ share with S := some dleq.H2, challenge := some cr.1,
                      response := some cr.2 } :: rest1)

/-- Method `Dealer.distribute`. `make([]*Point, 0, threshold)` panics on a negative
capacity and `poly.coefficients[0]` panics on an empty coefficient list. -/
def Dealer.distribute (E : Curve) (sha3 : Hasher) (_d : Dealer) (secret : Int)
    (shares : List Share) (threshold : Int) (poly : Polynomial) (rnd : List Nat) :
    Res DistributionSharesBox :=
  if threshold < 0 then .panic
  else
    (commitments E poly.coefficients).bind fun Cs =>
    (distributeShares E sha3 poly shares rnd).bind fun shares1 =>
    match poly.coefficients with
    | [] => .panic
    | a0 :: _ =>
      (E.ScalarBaseMult (Bytes a0)).bind fun sG =>
      (values [sG]).bind fun vs =>
      .ok { Commitments := Cs, Shares := shares1,
            U := Int.xor secret (SetBytes (Hash sha3 vs)) }

/-- Method `Dealer.DistributeSecret`. The tape `rnd` feeds first the coefficients of the
polynomial and then the nonces of the shares. -/
def Dealer.DistributeSecret (E : Curve) (sha3 : Hasher) (d : Dealer) (secret : Int)
    (pks : List PublicKey) (threshold : Int) (rnd : List Nat) : Res DistributionSharesBox :=
  if (pks.length : Int) < threshold then
    .error ("len of pubkeys(" ++ toString pks.length ++ ") < threshold("
      ++ toString threshold ++ "). ")
  else
    match InitPolynomial (wrap64 (threshold - 1)) E.N rnd with
    | .ok (poly, rnd1) => d.distribute E sha3 secret (initShares 0 pks) threshold poly rnd1
    | .error e => .error e
    | .panic => .panic

/-- Method `Dealer.extractSecretShare`. A nil `ModInverse` result or a nil `share.S` is
dereferenced, which panics. -/
def Dealer.extractSecretShare (E : Curve) (sha3 : Hasher) (d : Dealer) (share : Share)
    (rnd : List Nat) : Res DecryptedShare :=
  match ModInverse d.privateKey.D E.N, share.S with
  | some privateInverse, some S =>
    (E.ScalarMult S (Bytes privateInverse)).bind fun si =>
    (randInt E.N rnd).bind fun wr =>
    (NewDLEQ E (G1 E) (some d.PK.point) si none wr.1 d.privateKey.D).bind fun dleq =>
    (dleq.ChallengeAndResponse E sha3).bind fun cr =>
    .ok { PK := d.PK, Position := share.Position, S := dleq.G2, Y := dleq.H2,
          challenge := cr.1, response := cr.2 }
  | _, _ => .panic

/-- Method `Dealer.ExtractSecretShare`: the first share whose `PK` is the dealer's key. -/
def Dealer.ExtractSecretShare (E : Curve) (sha3 : Hasher) (d : Dealer)
    (sharesBox : DistributionSharesBox) (rnd : List Nat) : Res DecryptedShare :=
  match sharesBox.Shares.find?
      (fun s => decide (s.PK.X = d.privateKey.X) && decide (s.PK.Y = d.privateKey.Y)) with
  | none => .error "no share for me"
  | some share => d.extractSecretShare E sha3 share rnd

/-- The inner loop of `VerifyDistributionShares` from index `j` on: adds `C_j · i^j`. -/
def sumCommitments (E : Curve) (position : Int) : Nat → List Point → Point → Res Point
  | _, [], Xi => .ok Xi
  | j, Cj :: rest, Xi =>
    (E.ScalarMult Cj (Bytes (Exp position j E.N))).bind fun Cij =>
    (E.Add Xi Cij).bind fun Xi1 => sumCommitments E position (j + 1) rest Xi1

/-- The loop of `VerifyDistributionShares` over the shares. Reading `Cj[0]` of an empty
commitment list panics, and so does `Set` on a nil coordinate of `Cj[0]` and a share
whose `S`, challenge or response is nil. -/
def verifyShares (E : Curve) (hasher : Hasher) (Cj : List Point) : List Share → Res Bool
  | [] => .ok true
  | share :: rest =>
    match Cj with
    | [] => .panic
    | C0 :: Cs =>
      match C0.X, C0.Y with
      | some x, some y =>
        (sumCommitments E share.Position 1 Cs ⟨some x, some y⟩).bind fun Xi =>
        match share.S, share.challenge, share.response with
        | some S, some c, some r =>
          (DLEQVerify E hasher ⟨some Hx, some Hy⟩ Xi share.PK.point S c r).bind fun ok =>
          if ok then verifyShares E hasher Cj rest else .ok false
        | _, _, _ => .panic
      | _, _ => .panic

/-- Function `VerifyDistributionShares`; `none` is the nil box. -/
def VerifyDistributionShares (E : Curve) (sha3 : Hasher)
    (sharesBox : Option DistributionSharesBox) : Res Bool :=
  match sharesBox with
  | none => .ok false
  | some box =>
    if box.Shares.length < box.Commitments.length then .ok false
    else verifyShares E sha3 box.Commitments box.Shares

/-- Function `VerifyDecryptedShare`. -/
def VerifyDecryptedShare (E : Curve) (sha3 : Hasher) (decShare : DecryptedShare) :
    Res Bool :=
  DLEQVerify E sha3 (G1 E) decShare.PK.point decShare.S decShare.Y decShare.challenge
    decShare.response

/-- One round of the loop of `lagrangeCoefficient` on `(numerator, denominator)`. -/
def lagrangeStep (i : Int) (st : Int × Int) (j : Int) : Int × Int :=
  if j ≠ i then (st.1 * j, st.2 * (j - i)) else st

/-- Function `lagrangeCoefficient`; `bigjs` lists the keys of the map. A nil `ModInverse`
result is dereferenced by `Mul`, which panics. -/
def lagrangeCoefficient (E : Curve) (i : Int) (bigjs : List Int) : Res Int :=
  let st := bigjs.foldl (lagrangeStep i) (1, 1)
  let numerator := st.1 % E.N
  match ModInverse st.2 E.N with
  | none => .panic
  | some inverseDenom => .ok (numerator * inverseDenom % E.N)

/-- The second loop of `ReconstructSecret`: accumulates `λ_i · S_i`. -/
def reconstructLoop (E : Curve) (bigjs : List Int) : List DecryptedShare → Point → Res Point
  | [], sG => .ok sG
  | ds :: rest, sG =>
    (lagrangeCoefficient E ds.Position bigjs).bind fun lambda =>
    (E.ScalarMult ds.S (Bytes lambda)).bind fun lambdaSi =>
    (E.Add sG lambdaSi).bind fun sG1 => reconstructLoop E bigjs rest sG1

/-- Function `ReconstructSecret`. The map `bigjs` keeps one key per distinct position. -/
def ReconstructSecret (E : Curve) (sha3 : Hasher) (decShares : List DecryptedShare)
    (u : Int) : Res Int :=
  (reconstructLoop E (decShares.map (fun ds => ds.Position)).dedup decShares
    ⟨some 0, some 0⟩).bind fun sG =>
  (values [sG]).bind fun vs => .ok (Int.xor u (SetBytes (Hash sha3 vs)))

/-! ## The contract of the curve -/

/-- The pair of nil coordinates that the curve returns when it rejects a scalar. -/
def nilPoint : Point := ⟨none, none⟩

/-- What the package assumes of `theCurve`: the prime order `N` lies in `[2^64, 2^256)`;
the points are the coordinates `xy` of a commutative group of order `N`, with `(0, 0)`
for the identity, the base point and `(Hx, Hy)` among them; `Add` is the group
operation; `ScalarMult` panics on a scalar of more than 32 bytes, returns nil
coordinates for a scalar that is zero or not below `N`, and is the group multiple
otherwise; `ScalarBaseMult` is `ScalarMult` on the base point; `Add` on nil
coordinates panics or returns nil coordinates; and the methods, which have no `error`
result, return none. -/
structure Curve.Laws (E : Curve) where
  Grp : Type
  [grp : AddCommGroup Grp]
  xy : Grp → Int × Int
  g : Grp
  h : Grp
  prime : Nat.Prime E.N
  large : 2 ^ 64 ≤ E.N
  small : E.N < 2 ^ 256
  order : ∀ a : Grp, E.N • a = 0
  xy_zero : xy 0 = (0, 0)
  xy_g : xy g = (E.Gx, E.Gy)
  xy_h : xy h = (Hx, Hy)
  add_xy : ∀ a b : Grp,
    E.Add ⟨some (xy a).1, some (xy a).2⟩ ⟨some (xy b).1, some (xy b).2⟩
      = .ok ⟨some (xy (a + b)).1, some (xy (a + b)).2⟩
  mul_xy : ∀ (a : Grp) (k : List Nat), k.length ≤ 32 → 0 < SetBytes k → SetBytes k < E.N →
    E.ScalarMult ⟨some (xy a).1, some (xy a).2⟩ k
      = .ok ⟨some (xy (SetBytes k • a)).1, some (xy (SetBytes k • a)).2⟩
  mul_nil : ∀ (a : Grp) (k : List Nat), k.length ≤ 32 → (SetBytes k = 0 ∨ E.N ≤ SetBytes k) →
    E.ScalarMult ⟨some (xy a).1, some (xy a).2⟩ k = .ok nilPoint
  mul_long : ∀ (a : Grp) (k : List Nat), 32 < k.length →
    E.ScalarMult ⟨some (xy a).1, some (xy a).2⟩ k = .panic
  base_mul : ∀ k : List Nat, E.ScalarBaseMult k = E.ScalarMult ⟨some E.Gx, some E.Gy⟩ k
  add_nil_left : ∀ Q : Point, E.Add nilPoint Q = .panic ∨ E.Add nilPoint Q = .ok nilPoint
  add_nil_right : ∀ P : Point, E.Add P nilPoint = .panic ∨ E.Add P nilPoint = .ok nilPoint
  mul_err : ∀ (P : Point) (k : List Nat) (e : String), E.ScalarMult P k ≠ .error e
  add_err : ∀ (P Q : Point) (e : String), E.Add P Q ≠ .error e

instance (E : Curve) (L : E.Laws) : AddCommGroup L.Grp := L.grp

/-- The point of a group element: its two coordinates, not nil. -/
def Curve.Laws.enc {E : Curve} (L : E.Laws) (a : L.Grp) : Point :=
  ⟨some (L.xy a).1, some (L.xy a).2⟩

/-- A point of the curve: the coordinates of a group element. -/
def Curve.Laws.OnCurve {E : Curve} (L : E.Laws) (P : Point) : Prop := ∃ a : L.Grp, L.enc a = P

/-- What the package assumes of `sha3.New256()`: a digest is 32 bytes. -/
def Hasher.Laws (hasher : Hasher) : Prop :=
  ∀ m : List Nat, (hasher m).length = 32 ∧ ∀ b ∈ hasher m, b < 256

/-! ## Definitions that follow the specification -/

/-- The sum `Σ_j a_j x^j` of the specification, over the coefficients from index `j` on
(`polySum x 0 cs` is the value `P(x)` before reduction). -/
def polySum (x : Int) : Nat → List Int → Int
  | _, [] => 0
  | j, a :: rest => a * x ^ j + polySum x (j + 1) rest

/-! ## A model of the parameters

A group of prime order above `2^64` with coordinates, and a 32-byte digest: an instance of
the contract on which the definitions can be evaluated. -/

/-- Square-and-multiply `acc * a ^ e mod m` with `fuel` rounds. -/
def powModAux (m : Nat) : Nat → Nat → Nat → Nat → Nat
  | 0, _, _, acc => acc
  | fuel + 1, a, e, acc =>
    if e = 0 then acc
    else powModAux m fuel (a * a % m) (e / 2) (if e % 2 = 1 then acc * a % m else acc)

/-- The order of the model group: the prime `3 * 2^66 + 1`. -/
def modelN : Nat := 221360928884514619393

/-- Coordinates of an element of the model group `ZMod modelN`. -/
def modelXY (k : ZMod modelN) : Int × Int :=
  if k = 2 then (Hx, Hy) else ((k.val : Int), (k.val : Int))

/-- The element of the model group with the given coordinates. -/
def modelDec (x y : Int) : ZMod modelN :=
  if (x, y) = (Hx, Hy) then 2 else (x : ZMod modelN)

/-- The point of an element of the model group. -/
def modelEnc (k : ZMod modelN) : Point := ⟨some (modelXY k).1, some (modelXY k).2⟩

/-- The model curve: the additive group `ZMod modelN` with base point `modelEnc 1`. A
nil coordinate makes `Add` and `ScalarMult` panic. -/
def modelCurve : Curve where
  N := modelN
  Gx := 1
  Gy := 1
  Add P Q :=
    match P.X, P.Y, Q.X, Q.Y with
    | some x1, some y1, some x2, some y2 => .ok (modelEnc (modelDec x1 y1 + modelDec x2 y2))
    | _, _, _, _ => .panic
  ScalarMult P k :=
    if 32 < k.length then .panic
    else match P.X, P.Y with
      | some x, some y =>
        if SetBytes k = 0 ∨ modelN ≤ SetBytes k then .ok nilPoint
        else .ok (modelEnc (SetBytes k • modelDec x y))
      | _, _ => .panic
  ScalarBaseMult k :=
    if 32 < k.length then .panic
    else if SetBytes k = 0 ∨ modelN ≤ SetBytes k then .ok nilPoint
    else .ok (modelEnc (SetBytes k • modelDec 1 1))

/-- The model digest: 31 zero bytes and a non-zero checksum of the input. -/
def modelHasher : Hasher :=
  fun bs => List.replicate 31 0 ++ [(bs.sum + bs.length) % 255 + 1]

/-! ## The shares of a box and their inputs -/

/-- The relation between a share with its nonce before `distribute` and the share after:
the encrypted share is `(P(i) mod q) · pk`, the challenge is a `HashMod` value, the
response is `Response(w, P(i) mod q, c, q)`, and `DLEQVerify` on the statement
`(H, (P(i) mod q) · H, pk, Y_i)` accepts the pair when both are non-zero and panics when
one of them is zero. -/
def Distributed {E : Curve} (L : E.Laws) (sha3 : Hasher) (cs : List Int) (sw : Share × Nat)
    (s1 : Share) : Prop :=
  s1.PK = sw.1.PK ∧ s1.Position = sw.1.Position
    ∧ ∃ (k : L.Grp) (c r : Int), sw.1.PK.point = L.enc k
      ∧ s1.S = some (L.enc ((polySum sw.1.Position 0 cs % E.N) • k))
      ∧ s1.challenge = some c ∧ s1.response = some r
      ∧ (∃ vs, c = HashMod E.N sha3 vs)
      ∧ r = Response ((sw.2 : Int) % E.N) (polySum sw.1.Position 0 cs % E.N) c E.N
      ∧ (c ≠ 0 → r ≠ 0 →
          DLEQVerify E sha3 ⟨some Hx, some Hy⟩
            (L.enc ((polySum sw.1.Position 0 cs % E.N) • L.h)) (L.enc k)
            (L.enc ((polySum sw.1.Position 0 cs % E.N) • k)) c r = .ok true)
      ∧ (c = 0 ∨ r = 0 →
          DLEQVerify E sha3 ⟨some Hx, some Hy⟩
            (L.enc ((polySum sw.1.Position 0 cs % E.N) • L.h)) (L.enc k)
            (L.enc ((polySum sw.1.Position 0 cs % E.N) • k)) c r = .panic)

/-- A share and its nonce for which `distribute` computes a proof: neither `P(i) mod q`
nor the nonce is zero. -/
def Good (E : Curve) (cs : List Int) (sw : Share × Nat) : Prop :=
  polySum sw.1.Position 0 cs % E.N ≠ 0 ∧ (sw.2 : Int) % E.N ≠ 0

instance (E : Curve) (cs : List Int) (sw : Share × Nat) : Decidable (Good E cs sw) := by
  unfold Good
  infer_instance

/-- A key pair on the model curve: the private key `3` and its public key `3 · G`. -/
def modelKey : PrivateKey where
  X := 3
  Y := 3
  D := 3

/-- A second key pair: the private key `4` and its public key `4 · G`. -/
def modelKey4 : PrivateKey where
  X := 4
  Y := 4
  D := 4

/-- A third key pair: the private key `5` and its public key `5 · G`. -/
def modelKey5 : PrivateKey where
  X := 5
  Y := 5
  D := 5

/-- A share addressed to `modelKey` whose `S` is the point `(Hx, Hy)`. -/
def modelShare : Share where
  PK := ⟨3, 3⟩
  Position := 1
  S := some G2
  challenge := some 0
  response := some 0

/-- A share addressed to `modelKey` that encrypts the value `11`: its `S` is `11 · pk`. -/
def modelShare11 : Share where
  PK := ⟨3, 3⟩
  Position := 2
  S := some ⟨some 33, some 33⟩
  challenge := some 0
  response := some 0

/-- Three recipient keys on the model curve: the public keys of the three model keys. -/
def modelPks : List PublicKey := [⟨3, 3⟩, ⟨4, 4⟩, ⟨5, 5⟩]

/-- A share to fill in `distribute`, addressed to `modelKey` at `Position` 0. -/
def modelShare0 : Share where
  PK := ⟨3, 3⟩
  Position := 0
  S := none
  challenge := none
  response := none

/-- A share to fill in `distribute`, addressed to `modelKey` at `Position` 1. -/
def modelShare1 : Share where
  PK := ⟨3, 3⟩
  Position := 1
  S := none
  challenge := none
  response := none

/-- A decrypted share at `Position` 1 whose `S` is the base point. -/
def modelDs1 : DecryptedShare where
  PK := ⟨3, 3⟩
  Position := 1
  S := G1 modelCurve
  Y := G2
  challenge := 0
  response := 0

/-- A decrypted share at `Position` 2 whose `S` is `(Hx, Hy)`. -/
def modelDs2 : DecryptedShare where
  PK := ⟨3, 3⟩
  Position := 2
  S := G2
  Y := G2
  challenge := 0
  response := 0

/-! ## The model satisfies the contract -/

theorem powModAux_spec (m : Nat) : ∀ (fuel a e acc : Nat), e < 2 ^ fuel →
    powModAux m fuel a e acc % m = acc * a ^ e % m := by
  intro fuel
  induction fuel with
  | zero =>
    intro a e acc he
    have : e = 0 := by simpa using he
    subst this
    simp [powModAux]
  | succ fuel ih =>
    intro a e acc he
    unfold powModAux
    split_ifs with h0 h1
    · subst h0; simp
    · have hlt : e / 2 < 2 ^ fuel := by
        rw [Nat.div_lt_iff_lt_mul (by norm_num)]; rw [pow_succ] at he; exact he
      rw [ih _ _ _ hlt]
      have he2 : e = 2 * (e / 2) + 1 := by omega
      conv_rhs => rw [he2, pow_succ, pow_mul]
      have : (acc * a % m * (a * a % m) ^ (e / 2)) ≡ acc * ((a ^ 2) ^ (e / 2) * a) [MOD m] := by
        have h1 : acc * a % m ≡ acc * a [MOD m] := Nat.mod_modEq _ _
        have h2 : (a * a % m) ^ (e / 2) ≡ (a ^ 2) ^ (e / 2) [MOD m] := by
          apply Nat.ModEq.pow
          rw [pow_two]; exact Nat.mod_modEq _ _
        calc acc * a % m * (a * a % m) ^ (e / 2) ≡ acc * a * (a ^ 2) ^ (e / 2) [MOD m] :=
              Nat.ModEq.mul h1 h2
          _ = acc * ((a ^ 2) ^ (e / 2) * a) := by ring
      exact this
    · have hlt : e / 2 < 2 ^ fuel := by
        rw [Nat.div_lt_iff_lt_mul (by norm_num)]; rw [pow_succ] at he; exact he
      rw [ih _ _ _ hlt]
      have he2 : e = 2 * (e / 2) := by omega
      conv_rhs => rw [he2, pow_mul]
      have h2 : (a * a % m) ^ (e / 2) ≡ (a ^ 2) ^ (e / 2) [MOD m] := by
        apply Nat.ModEq.pow
        rw [pow_two]; exact Nat.mod_modEq _ _
      exact Nat.ModEq.mul_left acc h2

theorem powModAux_zmod (m fuel a e : Nat) (he : e < 2 ^ fuel) :
    ((a : ZMod m) ^ e) = ((powModAux m fuel a e 1 : Nat) : ZMod m) := by
  rw [← Nat.cast_pow, ZMod.natCast_eq_natCast_iff', powModAux_spec m fuel a e 1 he, one_mul]

set_option maxRecDepth 100000 in
theorem modelN_prime : Nat.Prime modelN := by
  have hcast : ((10 : Nat) : ZMod modelN) = 10 := by norm_cast
  refine lucas_primality modelN (10 : ZMod modelN) ?_ ?_
  · rw [← hcast, powModAux_zmod modelN 70 10 _ (by decide)]
    have : powModAux modelN 70 10 (modelN - 1) 1 = 1 := by decide
    rw [this]; simp
  · intro q hq hdvd
    have h : modelN - 1 = 3 * 2 ^ 66 := by decide
    rw [h] at hdvd
    have hne : ∀ e : Nat, powModAux modelN 70 10 e 1 % modelN ≠ 1 % modelN → e < 2 ^ 70 →
        (10 : ZMod modelN) ^ e ≠ 1 := by
      intro e h1 h2 h3
      rw [← hcast, powModAux_zmod modelN 70 10 e h2] at h3
      have h4 : ((powModAux modelN 70 10 e 1 : Nat) : ZMod modelN) = ((1 : Nat) : ZMod modelN) := by
        rw [h3]; simp
      rw [ZMod.natCast_eq_natCast_iff'] at h4
      exact h1 h4
    rcases (Nat.Prime.dvd_mul hq).1 hdvd with h3 | h2
    · have : q = 3 := (Nat.prime_dvd_prime_iff_eq hq (by norm_num)).1 h3
      subst this
      rw [h]
      exact hne _ (by decide) (by decide)
    · have : q = 2 := (Nat.prime_dvd_prime_iff_eq hq (by norm_num)).1 (hq.dvd_of_dvd_pow h2)
      subst this
      rw [h]
      exact hne _ (by decide) (by decide)

instance modelN_neZero : NeZero modelN := ⟨by decide⟩

theorem modelDec_modelXY (k : ZMod modelN) : modelDec (modelXY k).1 (modelXY k).2 = k := by
  unfold modelXY modelDec
  by_cases hk : k = 2
  · simp [hk]
  · have hne : (((k.val : Int), (k.val : Int)) : Int × Int) ≠ (Hx, Hy) := by
      intro h
      have h1 := congrArg Prod.fst h
      have h2 := congrArg Prod.snd h
      simp only at h1 h2
      have : Hx = Hy := by rw [← h1, ← h2]
      exact absurd this (by decide)
    rw [if_neg hk, if_neg hne]
    simp

/-- The model curve is an instance of the contract `Curve.Laws`. -/
def modelLaws : modelCurve.Laws where
  Grp := ZMod modelN
  xy := modelXY
  g := 1
  h := 2
  prime := modelN_prime
  large := by decide
  small := by decide
  order := by
    intro a
    show modelN • a = 0
    simp
  xy_zero := by
    have h : (0 : ZMod modelN) ≠ 2 := by decide
    simp [modelXY, h]
  xy_g := by
    have h : (1 : ZMod modelN) ≠ 2 := by decide
    have h1 : (1 : ZMod modelN).val = 1 := by decide
    simp [modelXY, h, h1, modelCurve]
  xy_h := by simp [modelXY]
  add_xy := by
    intro a b
    show Res.ok (modelEnc (modelDec (modelXY a).1 (modelXY a).2
      + modelDec (modelXY b).1 (modelXY b).2)) = _
    rw [modelDec_modelXY, modelDec_modelXY]
    rfl
  mul_xy := by
    intro a k h32 h0 hN
    have h1 : ¬ (32 < k.length) := by omega
    have h2 : ¬ (SetBytes k = 0 ∨ modelN ≤ SetBytes k) := by
      have : SetBytes k < modelN := hN
      omega
    show (if 32 < k.length then Res.panic
      else if SetBytes k = 0 ∨ modelN ≤ SetBytes k then Res.ok nilPoint
      else Res.ok (modelEnc (SetBytes k • modelDec (modelXY a).1 (modelXY a).2))) = _
    rw [if_neg h1, if_neg h2, modelDec_modelXY]
    rfl
  mul_nil := by
    intro a k h32 h0
    have h1 : ¬ (32 < k.length) := by omega
    show (if 32 < k.length then Res.panic
      else if SetBytes k = 0 ∨ modelN ≤ SetBytes k then Res.ok nilPoint
      else Res.ok (modelEnc (SetBytes k • modelDec (modelXY a).1 (modelXY a).2))) = _
    have h0' : SetBytes k = 0 ∨ modelN ≤ SetBytes k := h0
    rw [if_neg h1, if_pos h0']
  mul_long := by
    intro a k h32
    show (if 32 < k.length then Res.panic
      else if SetBytes k = 0 ∨ modelN ≤ SetBytes k then Res.ok nilPoint
      else Res.ok (modelEnc (SetBytes k • modelDec (modelXY a).1 (modelXY a).2))) = _
    rw [if_pos h32]
  base_mul := by
    intro k
    rfl
  add_nil_left := by
    intro Q
    left
    rfl
  add_nil_right := by
    intro P
    left
    cases P with
    | mk X Y => cases X <;> cases Y <;> rfl
  mul_err := by
    intro P k e
    show (if 32 < k.length then Res.panic
      else match P.X, P.Y with
        | some x, some y =>
          if SetBytes k = 0 ∨ modelN ≤ SetBytes k then Res.ok nilPoint
          else Res.ok (modelEnc (SetBytes k • modelDec x y))
        | _, _ => Res.panic) ≠ _
    split_ifs <;> first
      | exact fun h => Res.noConfusion h
      | (split <;> exact fun h => Res.noConfusion h)
  add_err := by
    intro P Q e
    show (match P.X, P.Y, Q.X, Q.Y with
      | some x1, some y1, some x2, some y2 =>
        Res.ok (modelEnc (modelDec x1 y1 + modelDec x2 y2))
      | _, _, _, _ => Res.panic) ≠ _
    split <;> exact fun h => Res.noConfusion h

/-! ## Sequencing -/

@[simp] theorem bind_ok {α β : Type} (a : α) (f : α → Res β) : (Res.ok a).bind f = f a := rfl

@[simp] theorem bind_panic {α β : Type} (f : α → Res β) :
    (Res.panic : Res α).bind f = .panic := rfl

@[simp] theorem bind_error {α β : Type} (e : String) (f : α → Res β) :
    (Res.error e : Res α).bind f = .error e := rfl

theorem bind_eq_ok {α β : Type} {x : Res α} {f : α → Res β} {b : β}
    (h : x.bind f = .ok b) : ∃ a, x = .ok a ∧ f a = .ok b := by
  cases x with
  | ok a => exact ⟨a, rfl, h⟩
  | error e => exact Res.noConfusion h
  | panic => exact Res.noConfusion h

/-- A step that returns or panics, followed by steps that panic, panics. -/
theorem bind_panic_of {α β : Type} {x : Res α} {f : α → Res β}
    (hx : ∀ e, x ≠ .error e) (hf : ∀ a, x = .ok a → f a = .panic) : x.bind f = .panic := by
  cases x with
  | ok a => exact hf a rfl
  | error e => exact absurd rfl (hx e)
  | panic => rfl

theorem values_enc4 {E : Curve} (L : E.Laws) (a b c d : L.Grp) :
    values [L.enc a, L.enc b, L.enc c, L.enc d]
      = .ok [(L.xy a).1, (L.xy a).2, (L.xy b).1, (L.xy b).2, (L.xy c).1, (L.xy c).2,
          (L.xy d).1, (L.xy d).2] := rfl

theorem values_enc1 {E : Curve} (L : E.Laws) (a : L.Grp) :
    values [L.enc a] = .ok [(L.xy a).1, (L.xy a).2] := rfl

theorem values_nil_mem : ∀ (ps : List Point), nilPoint ∈ ps → values ps = .panic := by
  intro ps
  induction ps with
  | nil => intro h; simp at h
  | cons P rest ih =>
    intro h
    rcases List.mem_cons.1 h with h1 | h1
    · subst h1; rfl
    · cases P with
      | mk X Y =>
        cases X <;> cases Y <;> simp [values, ih h1]

/-! ## Scalars and the group -/

theorem SetBytes_Bytes (x : Int) : SetBytes (Bytes x) = x.natAbs := by
  unfold SetBytes Bytes
  rw [List.reverse_reverse, Nat.ofDigits_digits]

theorem Bytes_neg (x : Int) : Bytes (-x) = Bytes x := by
  unfold Bytes
  rw [Int.natAbs_neg]

theorem bytes_length_le (x : Int) (h : x.natAbs < 2 ^ 256) : (Bytes x).length ≤ 32 := by
  unfold Bytes
  rw [List.length_reverse]
  by_contra hlen
  have h33 : 33 ≤ (Nat.digits 256 x.natAbs).length := by omega
  have hne : x.natAbs ≠ 0 := by
    intro h0
    rw [h0] at h33
    simp at h33
  have h1 := Nat.base_pow_length_digits_le 256 x.natAbs (by norm_num) hne
  have h2 : 256 ^ 33 ≤ 256 ^ (Nat.digits 256 x.natAbs).length :=
    Nat.pow_le_pow_right (by norm_num) h33
  have h3 : (256 : Nat) ^ 33 = 256 * 2 ^ 256 := by norm_num
  omega

theorem bytes_length_gt (x : Int) (h : 2 ^ 256 ≤ x.natAbs) : 32 < (Bytes x).length := by
  unfold Bytes
  rw [List.length_reverse]
  by_contra hlen
  have h32 : (Nat.digits 256 x.natAbs).length ≤ 32 := by omega
  have h1 := Nat.lt_base_pow_length_digits (b := 256) (m := x.natAbs) (by norm_num)
  have h2 : 256 ^ (Nat.digits 256 x.natAbs).length ≤ 256 ^ 32 :=
    Nat.pow_le_pow_right (by norm_num) h32
  have h3 : (256 : Nat) ^ 32 = 2 ^ 256 := by norm_num
  omega

theorem zsmul_order {E : Curve} (L : E.Laws) (a : L.Grp) : (E.N : Int) • a = 0 := by
  rw [natCast_zsmul]; exact L.order a

theorem zsmul_congr {E : Curve} (L : E.Laws) (a : L.Grp) {x y : Int}
    (h : x ≡ y [ZMOD (E.N : Int)]) : x • a = y • a := by
  obtain ⟨k, hk⟩ := (Int.modEq_iff_dvd.1 h)
  have hy : y = x + (E.N : Int) * k := by omega
  rw [hy, add_zsmul, mul_comm, mul_zsmul, zsmul_order, smul_zero, add_zero]

theorem order_pos {E : Curve} (L : E.Laws) : (0 : Int) < (E.N : Int) := by
  exact_mod_cast L.prime.pos

theorem enc_zero {E : Curve} (L : E.Laws) : L.enc 0 = ⟨some 0, some 0⟩ := by
  unfold Curve.Laws.enc
  rw [L.xy_zero]

theorem enc_g {E : Curve} (L : E.Laws) : L.enc L.g = G1 E := by
  unfold Curve.Laws.enc G1
  rw [L.xy_g]

theorem enc_h {E : Curve} (L : E.Laws) : L.enc L.h = G2 := by
  unfold Curve.Laws.enc G2
  rw [L.xy_h]

theorem add_enc {E : Curve} (L : E.Laws) (a b : L.Grp) :
    E.Add (L.enc a) (L.enc b) = .ok (L.enc (a + b)) := L.add_xy a b

/-- A scalar in `[1, q)` multiplies a point of the curve. -/
theorem scalarMult_enc {E : Curve} (L : E.Laws) (a : L.Grp) (x : Int) (h1 : 1 ≤ x)
    (h2 : x < E.N) : E.ScalarMult (L.enc a) (Bytes x) = .ok (L.enc (x • a)) := by
  have hs := L.small
  have habs : (x.natAbs : Int) = x := Int.natAbs_of_nonneg (by omega)
  have hlt : x.natAbs < E.N := by omega
  have h := L.mul_xy a (Bytes x) (bytes_length_le x (by omega))
    (by rw [SetBytes_Bytes]; omega) (by rw [SetBytes_Bytes]; exact hlt)
  rw [SetBytes_Bytes, ← natCast_zsmul, habs] at h
  exact h

/-- The zero scalar and a scalar in `[q, 2^256)` give nil coordinates. -/
theorem scalarMult_nil {E : Curve} (L : E.Laws) (a : L.Grp) (x : Int)
    (h : x = 0 ∨ ((E.N : Int) ≤ x ∧ x < 2 ^ 256)) :
    E.ScalarMult (L.enc a) (Bytes x) = .ok nilPoint := by
  refine L.mul_nil a (Bytes x) (bytes_length_le x ?_) ?_
  · rcases h with h | h
    · subst h; simp
    · have : (x.natAbs : Int) = x := Int.natAbs_of_nonneg (by have := order_pos L; omega)
      have h3 : ((2 ^ 256 : Nat) : Int) = 2 ^ 256 := by norm_num
      omega
  · rw [SetBytes_Bytes]
    rcases h with h | h
    · left; subst h; rfl
    · right
      have : (x.natAbs : Int) = x := Int.natAbs_of_nonneg (by have := order_pos L; omega)
      omega

/-- A scalar of more than 32 bytes makes `ScalarMult` panic. -/
theorem scalarMult_long {E : Curve} (L : E.Laws) (a : L.Grp) (x : Int) (h : 2 ^ 256 ≤ x) :
    E.ScalarMult (L.enc a) (Bytes x) = .panic := by
  refine L.mul_long a (Bytes x) (bytes_length_gt x ?_)
  have : (x.natAbs : Int) = x := Int.natAbs_of_nonneg (le_trans (by norm_num) h)
  have h3 : ((2 ^ 256 : Nat) : Int) = 2 ^ 256 := by norm_num
  omega

/-! ## Polynomial evaluation -/

theorem polySum_succ (x : Int) : ∀ (cs : List Int) (j : Nat),
    polySum x (j + 1) cs = x * polySum x j cs := by
  intro cs
  induction cs with
  | nil => intro j; simp [polySum]
  | cons a rest ih =>
    intro j
    simp only [polySum]
    rw [ih (j + 1)]
    ring

theorem getValue_fold (x n : Int) : ∀ (rest : List Int) (s xi : Int),
    (rest.foldl (getValueStep x n) (s, xi)).1 ≡ s + xi * polySum x 0 rest [ZMOD n] := by
  intro rest
  induction rest with
  | nil => intro s xi; simp [polySum]
  | cons a rest ih =>
    intro s xi
    simp only [List.foldl_cons, getValueStep]
    refine (ih _ _).trans ?_
    have h1 : (s + a * xi) % n ≡ s + a * xi [ZMOD n] := Int.mod_modEq _ _
    have h2 : xi * x % n ≡ xi * x [ZMOD n] := Int.mod_modEq _ _
    have h3 := Int.ModEq.add h1 (Int.ModEq.mul_right (polySum x 0 rest) h2)
    refine h3.trans ?_
    simp only [polySum, polySum_succ]
    have : s + a * xi + xi * x * polySum x 0 rest
        = s + xi * (a * x ^ 0 + x * polySum x 0 rest) := by ring
    rw [this]

theorem getValue_fold_reduced (x n : Int) : ∀ (rest : List Int) (a : Int) (st : Int × Int),
    ((a :: rest).foldl (getValueStep x n) st).1 % n
      = ((a :: rest).foldl (getValueStep x n) st).1 := by
  intro rest
  induction rest with
  | nil => intro a st; simp [getValueStep]
  | cons b rest ih =>
    intro a st
    rw [List.foldl_cons]
    exact ih b _

theorem getValue_eq (q : Int) (hq : 0 < q) (cs : List Int) (hcs : cs ≠ [])
    (hrange : ∀ a ∈ cs, 0 ≤ a ∧ a < q) (x : Int) :
    Polynomial.GetValue ⟨cs⟩ x q = .ok (polySum x 0 cs % q) := by
  cases cs with
  | nil => exact absurd rfl hcs
  | cons a0 rest =>
    have hq0 : ¬ (q = 0 ∧ rest ≠ []) := fun h => absurd h.1 (ne_of_gt hq)
    simp only [Polynomial.GetValue, if_neg hq0]
    congr 1
    cases rest with
    | nil =>
      have h := hrange a0 (by simp)
      simp [polySum, Int.emod_eq_of_lt h.1 h.2]
    | cons a1 rest =>
      rw [← getValue_fold_reduced]
      have h := getValue_fold x q (a1 :: rest) (0 + a0) x
      refine h.trans ?_
      have e : 0 + a0 + x * polySum x 0 (a1 :: rest) = polySum x 0 (a0 :: a1 :: rest) := by
        simp only [polySum, polySum_succ]; ring
      rw [e]

/-- C6. Polynomial correctness: for `t ≥ 1` coefficients in `[0, q)` and `x` in `[0, q)`,
`GetValue(x, q)` returns `(Σ_j a_j x^j) mod q`; `GetValue(0, q)` returns `a_0` exactly
(degree 0 included); and for the coefficients `[3, 2, 2, 4]` and any modulus above 135
it gives `P(0) = 3`, `P(1) = 11`, `P(2) = 47`, `P(3) = 135`. -/
theorem C6_getValue_correct (q : Int) (hq : 0 < q) (t : Nat) (ht : 1 ≤ t) (cs : List Int)
    (hlen : cs.length = t) (hrange : ∀ a ∈ cs, 0 ≤ a ∧ a < q) (x : Int)
    (_hx : 0 ≤ x ∧ x < q) :
    Polynomial.GetValue ⟨cs⟩ x q = .ok (polySum x 0 cs % q)
    ∧ (∀ a0, cs.head? = some a0 → Polynomial.GetValue ⟨cs⟩ 0 q = .ok a0)
    ∧ (135 < q →
        Polynomial.GetValue ⟨[3, 2, 2, 4]⟩ 0 q = .ok 3
        ∧ Polynomial.GetValue ⟨[3, 2, 2, 4]⟩ 1 q = .ok 11
        ∧ Polynomial.GetValue ⟨[3, 2, 2, 4]⟩ 2 q = .ok 47
        ∧ Polynomial.GetValue ⟨[3, 2, 2, 4]⟩ 3 q = .ok 135) := by
  have hcs : cs ≠ [] := by
    intro h; rw [h] at hlen; simp at hlen; omega
  refine ⟨getValue_eq q hq cs hcs hrange x, ?_, ?_⟩
  · intro a0 ha0
    rw [getValue_eq q hq cs hcs hrange 0]
    cases cs with
    | nil => simp at ha0
    | cons a rest =>
      simp only [List.head?_cons, Option.some.injEq] at ha0
      subst ha0
      have h := hrange a (by simp)
      simp [polySum, polySum_succ, Int.emod_eq_of_lt h.1 h.2]
  · intro h135
    have hm : ∀ v : Int, 0 ≤ v → v ≤ 135 → v % q = v :=
      fun v h0 h1 => Int.emod_eq_of_lt h0 (by omega)
    have hq0 : q ≠ 0 := ne_of_gt hq
    refine ⟨?_, ?_, ?_, ?_⟩
    · simp [Polynomial.GetValue, getValueStep, hq0, hm 3 (by norm_num) (by norm_num),
        hm 0 (by norm_num) (by norm_num)]
    · simp [Polynomial.GetValue, getValueStep, hq0, hm 5 (by norm_num) (by norm_num),
        hm 7 (by norm_num) (by norm_num), hm 11 (by norm_num) (by norm_num),
        hm 1 (by norm_num) (by norm_num)]
    · simp [Polynomial.GetValue, getValueStep, hq0, hm 7 (by norm_num) (by norm_num),
        hm 15 (by norm_num) (by norm_num), hm 47 (by norm_num) (by norm_num),
        hm 4 (by norm_num) (by norm_num), hm 8 (by norm_num) (by norm_num),
        hm 2 (by norm_num) (by norm_num)]
    · simp [Polynomial.GetValue, getValueStep, hq0, hm 9 (by norm_num) (by norm_num),
        hm 27 (by norm_num) (by norm_num), hm 135 (by norm_num) (by norm_num),
        hm 3 (by norm_num) (by norm_num)]

theorem C6_getValue_correct_witness :
    Polynomial.GetValue ⟨[3, 2, 2, 4]⟩ 3 (modelCurve.N : Int)
      = .ok (polySum 3 0 [3, 2, 2, 4] % (modelCurve.N : Int)) :=
  (C6_getValue_correct (modelCurve.N : Int) (by decide) 4 (by decide) [3, 2, 2, 4] rfl
    (by decide) 3 (by decide)).1


/-! ## The verifier on points of the curve -/

theorem hashMod_nonneg {E : Curve} (L : E.Laws) (hasher : Hasher) (vs : List Int) :
    0 ≤ HashMod E.N hasher vs :=
  Int.emod_nonneg _ (ne_of_gt (order_pos L))

theorem hashMod_lt {E : Curve} (L : E.Laws) (hasher : Hasher) (vs : List Int) :
    HashMod E.N hasher vs < E.N :=
  Int.emod_lt_of_pos _ (order_pos L)

theorem response_nonneg {E : Curve} (L : E.Laws) (w alpha c : Int) :
    0 ≤ Response w alpha c E.N :=
  Int.emod_nonneg _ (ne_of_gt (order_pos L))

theorem response_lt {E : Curve} (L : E.Laws) (w alpha c : Int) :
    Response w alpha c E.N < E.N :=
  Int.emod_lt_of_pos _ (order_pos L)

theorem response_modEq (w alpha c n : Int) :
    Response w alpha c n + c * alpha ≡ w [ZMOD n] := by
  unfold Response
  have h1 : (w - alpha * c % n) % n ≡ w - alpha * c % n [ZMOD n] := Int.mod_modEq _ _
  have h2 : alpha * c % n ≡ alpha * c [ZMOD n] := Int.mod_modEq _ _
  have h3 : w - alpha * c % n ≡ w - alpha * c [ZMOD n] := Int.ModEq.sub (Int.ModEq.refl w) h2
  have h4 := Int.ModEq.add_right (c * alpha) (h1.trans h3)
  have : w - alpha * c + c * alpha = w := by ring
  rw [this] at h4
  exact h4

/-- The verifier recomputes the prover's commitment: `r · g + c · (alpha · g) = w · g`. -/
theorem honest_recompute {E : Curve} (L : E.Laws) (g : L.Grp) (w alpha c : Int) :
    Response w alpha c E.N • g + c • alpha • g = w • g := by
  rw [← mul_zsmul, ← add_zsmul]
  exact zsmul_congr L g (response_modEq _ _ _ _)

/-- On a point of the curve `ScalarMult` returns the multiple, returns nil coordinates,
or panics, according to the size of the scalar. -/
theorem scalarMult_cases {E : Curve} (L : E.Laws) (a : L.Grp) (x : Int) (hx : 0 ≤ x) :
    (1 ≤ x ∧ x < E.N ∧ E.ScalarMult (L.enc a) (Bytes x) = .ok (L.enc (x • a)))
    ∨ ((x = 0 ∨ (E.N : Int) ≤ x) ∧ (E.ScalarMult (L.enc a) (Bytes x) = .ok nilPoint
        ∨ E.ScalarMult (L.enc a) (Bytes x) = .panic)) := by
  by_cases h1 : 1 ≤ x ∧ x < E.N
  · exact Or.inl ⟨h1.1, h1.2, scalarMult_enc L a x h1.1 h1.2⟩
  · right
    by_cases h2 : x < 2 ^ 256
    · have h3 : x = 0 ∨ ((E.N : Int) ≤ x ∧ x < 2 ^ 256) := by omega
      exact ⟨by omega, Or.inl (scalarMult_nil L a x h3)⟩
    · have hs : ((E.N : Nat) : Int) < 2 ^ 256 := by exact_mod_cast L.small
      exact ⟨by omega, Or.inr (scalarMult_long L a x (by omega))⟩

/-- With both scalars in `[1, q)` the recomputed commitment is the group element
`r · g + c · h`. -/
theorem recomputed_ok {E : Curve} (L : E.Laws) (g h : L.Grp) (c r : Int)
    (hc : 1 ≤ c ∧ c < E.N) (hr : 1 ≤ r ∧ r < E.N) :
    recomputed E (L.enc g) (L.enc h) c r = .ok (L.enc (r • g + c • h)) := by
  simp only [recomputed, scalarMult_enc L g r hr.1 hr.2, scalarMult_enc L h c hc.1 hc.2,
    bind_ok, add_enc]

/-- With a scalar that is zero or not below `q` the recomputed commitment is never a
point: the calls panic or end with nil coordinates. -/
theorem recomputed_bad {E : Curve} (L : E.Laws) (g h : L.Grp) (c r : Int)
    (hc : 0 ≤ c) (hr : 0 ≤ r) (hbad : ¬ ((1 ≤ c ∧ c < E.N) ∧ (1 ≤ r ∧ r < E.N))) :
    recomputed E (L.enc g) (L.enc h) c r = .panic
      ∨ recomputed E (L.enc g) (L.enc h) c r = .ok nilPoint := by
  unfold recomputed
  rcases scalarMult_cases L g r hr with ⟨hr1, hr2, hrm⟩ | ⟨hr0, hrm | hrm⟩
  · rcases scalarMult_cases L h c hc with ⟨hc1, hc2, _⟩ | ⟨_, hcm | hcm⟩
    · exact absurd ⟨⟨hc1, hc2⟩, ⟨hr1, hr2⟩⟩ hbad
    · rw [hrm, hcm]
      simp only [bind_ok]
      exact L.add_nil_right _
    · rw [hrm, hcm]
      left; rfl
  · rw [hrm]
    rcases scalarMult_cases L h c hc with ⟨_, _, hcm⟩ | ⟨_, hcm | hcm⟩
    · rw [hcm]
      simp only [bind_ok]
      exact L.add_nil_left _
    · rw [hcm]
      simp only [bind_ok]
      exact L.add_nil_left _
    · rw [hcm]
      left; rfl
  · rw [hrm]
    left; rfl

/-- The recomputed commitment is never an `error`. -/
theorem recomputed_cases {E : Curve} (L : E.Laws) (g h : L.Grp) (c r : Int)
    (hc : 0 ≤ c) (hr : 0 ≤ r) :
    recomputed E (L.enc g) (L.enc h) c r = .ok (L.enc (r • g + c • h))
      ∨ recomputed E (L.enc g) (L.enc h) c r = .panic
      ∨ recomputed E (L.enc g) (L.enc h) c r = .ok nilPoint := by
  by_cases hv : (1 ≤ c ∧ c < E.N) ∧ (1 ≤ r ∧ r < E.N)
  · exact Or.inl (recomputed_ok L g h c r hv.1 hv.2)
  · exact Or.inr (recomputed_bad L g h c r hc hr hv)

theorem DLEQVerify_eq (E : Curve) (hasher : Hasher) (P1 Q1 P2 Q2 : Point) (c r : Int) :
    DLEQVerify E hasher P1 Q1 P2 Q2 c r
      = (recomputed E P1 Q1 c r).bind fun a1 =>
        (recomputed E P2 Q2 c r).bind fun a2 =>
        (values [Q1, Q2, a1, a2]).bind fun vs =>
        .ok (decide (HashMod E.N hasher vs = c)) := by
  unfold DLEQVerify recomputed
  cases E.ScalarMult P1 (Bytes r) <;> simp only [bind_ok, bind_panic, bind_error]
  cases E.ScalarMult Q1 (Bytes c) <;> simp only [bind_ok, bind_panic, bind_error]
  cases E.Add _ _ <;> simp only [bind_ok, bind_panic, bind_error]
  cases E.ScalarMult P2 (Bytes r) <;> simp only [bind_ok, bind_panic, bind_error]
  cases E.ScalarMult Q2 (Bytes c) <;> simp only [bind_ok, bind_panic, bind_error]

/-- The verdict of `DLEQVerify` on points of the curve and scalars in `[1, q)`. -/
theorem verify_ok {E : Curve} (L : E.Laws) (hasher : Hasher) (g1 h1 g2 h2 : L.Grp)
    (c r : Int) (hc : 1 ≤ c ∧ c < E.N) (hr : 1 ≤ r ∧ r < E.N) :
    DLEQVerify E hasher (L.enc g1) (L.enc h1) (L.enc g2) (L.enc h2) c r
      = .ok (decide (HashMod E.N hasher
          [(L.xy h1).1, (L.xy h1).2, (L.xy h2).1, (L.xy h2).2,
            (L.xy (r • g1 + c • h1)).1, (L.xy (r • g1 + c • h1)).2,
            (L.xy (r • g2 + c • h2)).1, (L.xy (r • g2 + c • h2)).2] = c)) := by
  rw [DLEQVerify_eq, recomputed_ok L g1 h1 c r hc hr, recomputed_ok L g2 h2 c r hc hr]
  simp only [bind_ok, values_enc4]

/-- On points of the curve `DLEQVerify` panics when a proof scalar is zero or not below
`q`. -/
theorem verify_panic {E : Curve} (L : E.Laws) (hasher : Hasher) (g1 h1 g2 h2 : L.Grp)
    (c r : Int) (hc : 0 ≤ c) (hr : 0 ≤ r)
    (hbad : ¬ ((1 ≤ c ∧ c < E.N) ∧ (1 ≤ r ∧ r < E.N))) :
    DLEQVerify E hasher (L.enc g1) (L.enc h1) (L.enc g2) (L.enc h2) c r = .panic := by
  rw [DLEQVerify_eq]
  rcases recomputed_bad L g1 h1 c r hc hr hbad with h | h
  · rw [h]; rfl
  · rw [h]
    simp only [bind_ok]
    rcases recomputed_bad L g2 h2 c r hc hr hbad with h' | h'
    · rw [h']; rfl
    · rw [h']
      simp only [bind_ok]
      rw [values_nil_mem _ (by simp)]
      rfl

/-- The transcript of `ChallengeAndResponse` for a statement on the curve and a nonce
in `[1, q)`. -/
theorem car_ok {E : Curve} (L : E.Laws) (sha3 : Hasher) (g1 h1 g2 h2 : L.Grp)
    (d : DLEQ) (hG1 : d.G1 = L.enc g1) (hH1 : d.H1 = L.enc h1) (hG2 : d.G2 = L.enc g2)
    (hH2 : d.H2 = L.enc h2) (hw : 1 ≤ d.w ∧ d.w < E.N) :
    d.ChallengeAndResponse E sha3
      = .ok (HashMod E.N sha3 [(L.xy h1).1, (L.xy h1).2, (L.xy h2).1, (L.xy h2).2,
              (L.xy (d.w • g1)).1, (L.xy (d.w • g1)).2,
              (L.xy (d.w • g2)).1, (L.xy (d.w • g2)).2],
            Response d.w d.alpha (HashMod E.N sha3
              [(L.xy h1).1, (L.xy h1).2, (L.xy h2).1, (L.xy h2).2,
                (L.xy (d.w • g1)).1, (L.xy (d.w • g1)).2,
                (L.xy (d.w • g2)).1, (L.xy (d.w • g2)).2]) E.N) := by
  simp only [DLEQ.ChallengeAndResponse, hG1, hH1, hG2, hH2,
    scalarMult_enc L g1 d.w hw.1 hw.2, scalarMult_enc L g2 d.w hw.1 hw.2, bind_ok,
    values_enc4]

/-- With the nonce zero `ChallengeAndResponse` panics: the curve returns nil coordinates
for `w · G1`, and `Hash` dereferences them. -/
theorem car_zero_nonce {E : Curve} (L : E.Laws) (sha3 : Hasher) (g1 g2 : L.Grp)
    (d : DLEQ) (hG1 : d.G1 = L.enc g1) (hG2 : d.G2 = L.enc g2) (hw : d.w = 0) :
    d.ChallengeAndResponse E sha3 = .panic := by
  simp only [DLEQ.ChallengeAndResponse, hG1, hG2, hw,
    scalarMult_nil L g1 0 (Or.inl rfl), scalarMult_nil L g2 0 (Or.inl rfl), bind_ok]
  rw [values_nil_mem _ (by simp)]
  rfl

/-- With nil coordinates in `H1` `ChallengeAndResponse` panics or returns an error, and
the curve returns no error. -/
theorem car_nil_H1 (E : Curve) (sha3 : Hasher) (d : DLEQ) (hH1 : d.H1 = nilPoint)
    (hne : ∀ e, E.ScalarMult d.G1 (Bytes d.w) ≠ .error e)
    (hne2 : ∀ e, E.ScalarMult d.G2 (Bytes d.w) ≠ .error e) :
    d.ChallengeAndResponse E sha3 = .panic := by
  unfold DLEQ.ChallengeAndResponse
  refine bind_panic_of hne (fun a1 _ => bind_panic_of hne2 (fun a2 _ => ?_))
  rw [hH1, values_nil_mem _ (by simp)]
  rfl

/-- An honest transcript for the statement `(g1, alpha · g1, g2, alpha · g2)` and a nonce
in `[1, q)`: the scalars are in `[0, q)`; it is accepted when both are non-zero, and the
verifier panics when one of them is zero. -/
theorem dleq_complete {E : Curve} (L : E.Laws) (sha3 : Hasher) (g1 g2 : L.Grp)
    (d : DLEQ) (hG1 : d.G1 = L.enc g1) (hH1 : d.H1 = L.enc (d.alpha • g1))
    (hG2 : d.G2 = L.enc g2) (hH2 : d.H2 = L.enc (d.alpha • g2))
    (hw : 1 ≤ d.w ∧ d.w < E.N) :
    ∃ c r, d.ChallengeAndResponse E sha3 = .ok (c, r)
      ∧ (∃ vs, c = HashMod E.N sha3 vs) ∧ r = Response d.w d.alpha c E.N
      ∧ (0 ≤ c ∧ c < E.N) ∧ (0 ≤ r ∧ r < E.N)
      ∧ (c ≠ 0 → r ≠ 0 → DLEQVerify E sha3 d.G1 d.H1 d.G2 d.H2 c r = .ok true)
      ∧ (c = 0 ∨ r = 0 → DLEQVerify E sha3 d.G1 d.H1 d.G2 d.H2 c r = .panic) := by
  refine ⟨_, _, car_ok L sha3 g1 (d.alpha • g1) g2 (d.alpha • g2) d hG1 hH1 hG2 hH2 hw,
    ⟨_, rfl⟩, rfl, ⟨hashMod_nonneg L _ _, hashMod_lt L _ _⟩, ⟨response_nonneg L _ _ _, response_lt L _ _ _⟩,
    ?_, ?_⟩
  · intro hc hr
    have hc1 := hashMod_nonneg L sha3 [(L.xy (d.alpha • g1)).1, (L.xy (d.alpha • g1)).2,
      (L.xy (d.alpha • g2)).1, (L.xy (d.alpha • g2)).2,
      (L.xy (d.w • g1)).1, (L.xy (d.w • g1)).2, (L.xy (d.w • g2)).1, (L.xy (d.w • g2)).2]
    have hr1 := response_nonneg L d.w d.alpha (HashMod E.N sha3
      [(L.xy (d.alpha • g1)).1, (L.xy (d.alpha • g1)).2,
      (L.xy (d.alpha • g2)).1, (L.xy (d.alpha • g2)).2,
      (L.xy (d.w • g1)).1, (L.xy (d.w • g1)).2, (L.xy (d.w • g2)).1, (L.xy (d.w • g2)).2])
    rw [hG1, hH1, hG2, hH2, verify_ok L sha3 g1 _ g2 _ _ _
      ⟨by omega, hashMod_lt L _ _⟩ ⟨by omega, response_lt L _ _ _⟩]
    rw [honest_recompute L g1, honest_recompute L g2]
    simp
  · intro h
    rw [hG1, hH1, hG2, hH2]
    exact verify_panic L sha3 g1 _ g2 _ _ _ (hashMod_nonneg L _ _) (response_nonneg L _ _ _)
      (by
        intro hv
        rcases h with h | h
        · omega
        · omega)

theorem ofDigits_zeros (b n : Nat) : Nat.ofDigits b (List.replicate n 0) = 0 := by
  induction n with
  | zero => rfl
  | succ n ih => rw [List.replicate_succ, Nat.ofDigits_cons, ih]; simp

/-- The model digest read as an integer is its checksum, in `[1, 255]`. -/
theorem modelHasher_range (n : Int) (hn : 256 ≤ n) (vs : List Int) :
    1 ≤ HashMod n modelHasher vs ∧ HashMod n modelHasher vs ≤ 255 := by
  have h : ∀ bs : List Nat, SetBytes (modelHasher bs) = (bs.sum + bs.length) % 255 + 1 := by
    intro bs
    simp only [SetBytes, modelHasher, List.reverse_append, List.reverse_cons, List.reverse_nil,
      List.nil_append, List.reverse_replicate, List.singleton_append, Nat.ofDigits_cons,
      ofDigits_zeros, mul_zero, add_zero]
  unfold HashMod Hash
  rw [h]
  have h2 := Nat.mod_lt ((vs.flatMap Bytes).sum + (vs.flatMap Bytes).length)
    (show 0 < 255 by norm_num)
  have h3 : (((((vs.flatMap Bytes).sum + (vs.flatMap Bytes).length) % 255 + 1 : Nat) : Int))
      % n = ((((vs.flatMap Bytes).sum + (vs.flatMap Bytes).length) % 255 + 1 : Nat) : Int) :=
    Int.emod_eq_of_lt (by positivity) (by omega)
  rw [h3]
  omega

/-- A response is non-zero when `w` and `alpha * c` are distinct and small. -/
theorem response_ne_zero (n w alpha c : Int) (h1 : 0 ≤ alpha * c) (h2 : alpha * c < n)
    (h3 : w ≠ alpha * c) (h4 : |w - alpha * c| < n) : Response w alpha c n ≠ 0 := by
  unfold Response
  rw [Int.emod_eq_of_lt h1 h2]
  intro h
  have hd : n ∣ w - alpha * c := Int.dvd_of_emod_eq_zero h
  have := Int.eq_zero_of_abs_lt_dvd hd h4
  exact h3 (by omega)

/-! ## DLEQ completeness -/

theorem newDLEQ_ok {E : Curve} (L : E.Laws) (g1 g2 : L.Grp) (w alpha : Int)
    (hα : 1 ≤ alpha ∧ alpha < E.N) :
    NewDLEQ E (L.enc g1) none (L.enc g2) none w alpha
      = .ok { G1 := L.enc g1, H1 := L.enc (alpha • g1), G2 := L.enc g2,
              H2 := L.enc (alpha • g2), w := w, alpha := alpha, r := none } := by
  simp only [NewDLEQ, scalarMult_enc L g1 alpha hα.1 hα.2, scalarMult_enc L g2 alpha hα.1 hα.2,
    bind_ok]

theorem newDLEQ_zero {E : Curve} (L : E.Laws) (g1 g2 : L.Grp) (w : Int) :
    NewDLEQ E (L.enc g1) none (L.enc g2) none w 0
      = .ok { G1 := L.enc g1, H1 := nilPoint, G2 := L.enc g2, H2 := nilPoint, w := w,
              alpha := 0, r := none } := by
  simp only [NewDLEQ, scalarMult_nil L g1 0 (Or.inl rfl), scalarMult_nil L g2 0 (Or.inl rfl),
    bind_ok]

theorem scalarMult_ne_error {E : Curve} (L : E.Laws) (a : L.Grp) (x : Int) (hx : 0 ≤ x)
    (e : String) : E.ScalarMult (L.enc a) (Bytes x) ≠ .error e := by
  rcases scalarMult_cases L a x hx with ⟨_, _, h⟩ | ⟨_, h | h⟩ <;> rw [h] <;>
    exact fun h' => Res.noConfusion h'

/-- A zero witness or a zero nonce: `NewDLEQ` returns and `ChallengeAndResponse` panics. -/
theorem dleq_zero_panics {E : Curve} (L : E.Laws) (sha3 : Hasher) (g1 g2 : L.Grp)
    (w alpha : Int) (hα : 0 ≤ alpha ∧ alpha < E.N) (hw : 0 ≤ w ∧ w < E.N)
    (h0 : alpha = 0 ∨ w = 0) :
    ∃ d, NewDLEQ E (L.enc g1) none (L.enc g2) none w alpha = .ok d
      ∧ d.ChallengeAndResponse E sha3 = .panic := by
  by_cases ha : alpha = 0
  · subst ha
    exact ⟨_, newDLEQ_zero L g1 g2 w,
      car_nil_H1 E sha3 _ rfl (scalarMult_ne_error L g1 w hw.1)
        (scalarMult_ne_error L g2 w hw.1)⟩
  · have hw0 : w = 0 := by
      rcases h0 with h | h
      · exact absurd h ha
      · exact h
    exact ⟨_, newDLEQ_ok L g1 g2 w alpha ⟨by omega, hα.2⟩,
      car_zero_nonce L sha3 g1 g2 _ rfl rfl hw0⟩

/-- C3, as stated, fails: with the witness `alpha = 0` (nonce 7), and with the nonce
`w = 0` (witness 5), `NewDLEQ` returns a statement and `ChallengeAndResponse` panics, so
no transcript is verified. -/
theorem C3_counterexample :
    (∃ d, NewDLEQ modelCurve (G1 modelCurve) none G2 none 7 0 = .ok d
      ∧ d.ChallengeAndResponse modelCurve modelHasher = .panic)
    ∧ (∃ d, NewDLEQ modelCurve (G1 modelCurve) none G2 none 0 5 = .ok d
      ∧ d.ChallengeAndResponse modelCurve modelHasher = .panic) := by
  have h1 := dleq_zero_panics modelLaws modelHasher modelLaws.g modelLaws.h 7 0
    (by decide) (by decide) (Or.inl rfl)
  have h2 := dleq_zero_panics modelLaws modelHasher modelLaws.g modelLaws.h 0 5
    (by decide) (by decide) (Or.inr rfl)
  rw [enc_g, enc_h] at h1 h2
  exact ⟨h1, h2⟩

/-- C3, amended. DLEQ completeness: for scalars `alpha`, `w` in `[1, q)` and non-identity
points `G1`, `G2` of the curve, `NewDLEQ(G1, nil, G2, nil, w, alpha)` returns a
statement `d` and `d.ChallengeAndResponse()` returns `(c, r)` with `c` a `HashMod` value
and `r = Response(w, alpha, c, q)`, both in `[0, q)`; `DLEQVerify` on
`(d.G1, d.H1, d.G2, d.H2, c, r)` returns true when `c` and `r` are non-zero, and panics
when one of them is zero. -/
theorem C3_dleq_completeness (E : Curve) (L : E.Laws) (sha3 : Hasher) (alpha w : Int)
    (hα : 1 ≤ alpha ∧ alpha < E.N) (hw : 1 ≤ w ∧ w < E.N) (P1 P2 : Point)
    (h1 : L.OnCurve P1) (h2 : L.OnCurve P2) (_hn1 : P1 ≠ ⟨some 0, some 0⟩)
    (_hn2 : P2 ≠ ⟨some 0, some 0⟩) :
    ∃ d c r, NewDLEQ E P1 none P2 none w alpha = .ok d
      ∧ d.ChallengeAndResponse E sha3 = .ok (c, r)
      ∧ (∃ vs, c = HashMod E.N sha3 vs) ∧ r = Response w alpha c E.N
      ∧ (0 ≤ c ∧ c < E.N) ∧ (0 ≤ r ∧ r < E.N)
      ∧ (c ≠ 0 → r ≠ 0 → DLEQVerify E sha3 d.G1 d.H1 d.G2 d.H2 c r = .ok true)
      ∧ (c = 0 ∨ r = 0 → DLEQVerify E sha3 d.G1 d.H1 d.G2 d.H2 c r = .panic) := by
  obtain ⟨g1, rfl⟩ := h1
  obtain ⟨g2, rfl⟩ := h2
  obtain ⟨c, r, hcr, hvs, hr, hc1, hr1, hacc, hpan⟩ := dleq_complete L sha3 g1 g2
    { G1 := L.enc g1, H1 := L.enc (alpha • g1), G2 := L.enc g2, H2 := L.enc (alpha • g2),
      w := w, alpha := alpha, r := none } rfl rfl rfl rfl hw
  exact ⟨_, c, r, newDLEQ_ok L g1 g2 w alpha hα, hcr, hvs, hr, hc1, hr1, hacc, hpan⟩

theorem C3_dleq_completeness_witness :
    ∃ d c r, NewDLEQ modelCurve (G1 modelCurve) none G2 none 7 5 = .ok d
      ∧ d.ChallengeAndResponse modelCurve modelHasher = .ok (c, r)
      ∧ DLEQVerify modelCurve modelHasher d.G1 d.H1 d.G2 d.H2 c r = .ok true := by
  obtain ⟨d, c, r, hd, hcr, ⟨vs, hc⟩, hr, _, _, hacc, _⟩ :=
    C3_dleq_completeness modelCurve modelLaws modelHasher 5 7 (by decide) (by decide)
      (G1 modelCurve) G2 ⟨modelLaws.g, enc_g modelLaws⟩ ⟨modelLaws.h, enc_h modelLaws⟩
      (by decide) (by decide)
  have hrange := modelHasher_range (modelCurve.N : Int) (by decide) vs
  rw [← hc] at hrange
  have hN : (2000 : Int) < modelCurve.N := by decide
  refine ⟨d, c, r, hd, hcr, hacc (by omega) ?_⟩
  rw [hr]
  exact response_ne_zero _ 7 5 c (by omega) (by omega) (by omega)
    (by rw [abs_lt]; constructor <;> omega)

/-! ## Decryption of a share -/

theorem modInverse_spec {E : Curve} (L : E.Laws) (d : Int) (hd : ¬ (E.N : Int) ∣ d) :
    ∃ inv : Int, ModInverse d E.N = some inv ∧ 1 ≤ inv ∧ inv < E.N
      ∧ inv * d ≡ 1 [ZMOD (E.N : Int)] := by
  have hcop : Int.gcd d E.N = 1 := by
    have h1 : Nat.Coprime E.N d.natAbs := by
      rw [Nat.Prime.coprime_iff_not_dvd L.prime]
      intro h
      exact hd (Int.natCast_dvd.2 h)
    rw [Int.gcd, Int.natAbs_ofNat]
    exact Nat.Coprime.symm h1
  have hmod : Int.gcdA d E.N % E.N * d ≡ 1 [ZMOD (E.N : Int)] := by
    have hb := Int.gcd_eq_gcd_ab d E.N
    rw [hcop] at hb
    have h1 : Int.gcdA d E.N % E.N * d ≡ Int.gcdA d E.N * d [ZMOD (E.N : Int)] :=
      Int.ModEq.mul_right d (Int.mod_modEq _ _)
    refine h1.trans ?_
    rw [Int.modEq_iff_dvd]
    refine ⟨Int.gcdB d E.N, ?_⟩
    push_cast at hb
    linarith
  have h0 := Int.emod_nonneg (Int.gcdA d E.N) (ne_of_gt (order_pos L))
  refine ⟨Int.gcdA d E.N % E.N, ?_, ?_, Int.emod_lt_of_pos _ (order_pos L), hmod⟩
  · simp [ModInverse, hcop]
  · by_contra hlt
    have hz : Int.gcdA d E.N % E.N = 0 := by omega
    rw [hz, zero_mul] at hmod
    have hdvd : (E.N : Int) ∣ 1 - 0 := Int.modEq_iff_dvd.1 hmod
    have h2 : (2 : Int) ^ 64 ≤ (E.N : Int) := by exact_mod_cast L.large
    have := Int.le_of_dvd (by norm_num) hdvd
    omega

theorem not_dvd_of_range {n x : Int} (h1 : 1 ≤ x) (h2 : x < n) : ¬ n ∣ x := by
  intro h
  have := Int.le_of_dvd (by omega) h
  omega

theorem randInt_cons {E : Curve} (L : E.Laws) (w : Nat) (rnd : List Nat) :
    randInt E.N (w :: rnd) = .ok ((w : Int) % E.N, rnd) := by
  have hN : ¬ ((E.N : Int) ≤ 0) := not_le.2 (order_pos L)
  simp only [randInt, if_neg hN]

theorem randInt_nil {E : Curve} (L : E.Laws) :
    randInt E.N [] = .error "rand: reader failed" := by
  have hN : ¬ ((E.N : Int) ≤ 0) := not_le.2 (order_pos L)
  simp only [randInt, if_neg hN]

/-- What `extractSecretShare` computes before it draws the nonce: the inverse of the
private key and the decrypted point `x⁻¹ · Y`. -/
theorem extract_unfold {E : Curve} (L : E.Laws) (sha3 : Hasher) (d : Dealer)
    (hx : 1 ≤ d.privateKey.D ∧ d.privateKey.D < E.N)
    (hpk : d.PK.point = L.enc (d.privateKey.D • L.g)) (share : Share) (y : L.Grp)
    (hS : share.S = some (L.enc y)) (rnd : List Nat) :
    ∃ inv : Int, ModInverse d.privateKey.D E.N = some inv ∧ 1 ≤ inv ∧ inv < E.N
      ∧ inv * d.privateKey.D ≡ 1 [ZMOD (E.N : Int)]
      ∧ E.ScalarMult (L.enc y) (Bytes inv) = .ok (L.enc (inv • y))
      ∧ d.privateKey.D • inv • y = y
      ∧ d.extractSecretShare E sha3 share rnd
        = (randInt E.N rnd).bind fun wr =>
          (DLEQ.ChallengeAndResponse E sha3
            { G1 := L.enc L.g, H1 := L.enc (d.privateKey.D • L.g), G2 := L.enc (inv • y),
              H2 := L.enc (d.privateKey.D • inv • y), w := wr.1, alpha := d.privateKey.D,
              r := none }).bind fun cr =>
          .ok { PK := d.PK, Position := share.Position, S := L.enc (inv • y),
                Y := L.enc (d.privateKey.D • inv • y), challenge := cr.1,
                response := cr.2 } := by
  obtain ⟨inv, hinv, hinv1, hinvN, hmod⟩ := modInverse_spec L d.privateKey.D
    (not_dvd_of_range hx.1 hx.2)
  have hsi := scalarMult_enc L y inv hinv1 hinvN
  have hH2 := scalarMult_enc L (inv • y) d.privateKey.D hx.1 hx.2
  have hback : d.privateKey.D • inv • y = y := by
    rw [← mul_zsmul]
    have h1 : d.privateKey.D * inv ≡ 1 [ZMOD (E.N : Int)] := by
      rw [mul_comm]; exact hmod
    rw [zsmul_congr L y h1, one_zsmul]
  refine ⟨inv, hinv, hinv1, hinvN, hmod, hsi, hback, ?_⟩
  simp only [Dealer.extractSecretShare, hinv, hS, hsi, bind_ok, NewDLEQ, hH2, hpk, ← enc_g L]

theorem extract_spec {E : Curve} (L : E.Laws) (sha3 : Hasher) (d : Dealer)
    (hx : 1 ≤ d.privateKey.D ∧ d.privateKey.D < E.N)
    (hpk : d.PK.point = L.enc (d.privateKey.D • L.g)) (share : Share) (y : L.Grp)
    (hS : share.S = some (L.enc y)) (w : Nat) (rnd : List Nat)
    (hw : (w : Int) % E.N ≠ 0) :
    ∃ (ds : DecryptedShare) (inv : Int),
      d.extractSecretShare E sha3 share (w :: rnd) = .ok ds
      ∧ ModInverse d.privateKey.D E.N = some inv
      ∧ (1 ≤ inv ∧ inv < E.N) ∧ inv * d.privateKey.D ≡ 1 [ZMOD (E.N : Int)]
      ∧ ds.PK = d.PK ∧ ds.Position = share.Position
      ∧ ds.S = L.enc (inv • y) ∧ ds.Y = L.enc y
      ∧ (∃ vs, ds.challenge = HashMod E.N sha3 vs)
      ∧ ds.response = Response ((w : Int) % E.N) d.privateKey.D ds.challenge E.N
      ∧ (ds.challenge ≠ 0 → ds.response ≠ 0 → VerifyDecryptedShare E sha3 ds = .ok true)
      ∧ (ds.challenge = 0 ∨ ds.response = 0 → VerifyDecryptedShare E sha3 ds = .panic) := by
  obtain ⟨inv, hinv, hinv1, hinvN, hmod, _, hback, hrun⟩ :=
    extract_unfold L sha3 d hx hpk share y hS (w :: rnd)
  have hw1 : 1 ≤ (w : Int) % E.N ∧ (w : Int) % E.N < E.N :=
    ⟨by have := Int.emod_nonneg (w : Int) (ne_of_gt (order_pos L)); omega,
      Int.emod_lt_of_pos _ (order_pos L)⟩
  obtain ⟨c, r, hcr, hvs, hr, _, _, hacc, hpan⟩ := dleq_complete L sha3 L.g (inv • y)
    { G1 := L.enc L.g, H1 := L.enc (d.privateKey.D • L.g), G2 := L.enc (inv • y),
      H2 := L.enc (d.privateKey.D • inv • y), w := (w : Int) % E.N,
      alpha := d.privateKey.D, r := none } rfl rfl rfl rfl hw1
  refine ⟨{ PK := d.PK, Position := share.Position, S := L.enc (inv • y),
            Y := L.enc (d.privateKey.D • inv • y), challenge := c, response := r },
    inv, ?_, hinv, ⟨hinv1, hinvN⟩, hmod, rfl, rfl, rfl, by rw [hback], hvs, hr, ?_, ?_⟩
  · rw [hrun, randInt_cons L]
    simp only [bind_ok, hcr]
  · intro h1 h2
    simp only [VerifyDecryptedShare, hpk, ← enc_g L]
    exact hacc h1 h2
  · intro h
    simp only [VerifyDecryptedShare, hpk, ← enc_g L]
    exact hpan h

/-- With a draw that is zero modulo `q` `extractSecretShare` panics, and with an exhausted
reader it returns the reader's error. -/
theorem extract_fails {E : Curve} (L : E.Laws) (sha3 : Hasher) (d : Dealer)
    (hx : 1 ≤ d.privateKey.D ∧ d.privateKey.D < E.N)
    (hpk : d.PK.point = L.enc (d.privateKey.D • L.g)) (share : Share) (y : L.Grp)
    (hS : share.S = some (L.enc y)) :
    (∀ (w : Nat) (rnd : List Nat), (w : Int) % E.N = 0 →
      d.extractSecretShare E sha3 share (w :: rnd) = .panic)
    ∧ d.extractSecretShare E sha3 share [] = .error "rand: reader failed" := by
  constructor
  · intro w rnd hw
    obtain ⟨inv, _, _, _, _, _, _, hrun⟩ :=
      extract_unfold L sha3 d hx hpk share y hS (w :: rnd)
    rw [hrun, randInt_cons L]
    simp only [bind_ok]
    rw [car_zero_nonce L sha3 L.g (inv • y) _ rfl rfl hw]
    rfl
  · obtain ⟨inv, _, _, _, _, _, _, hrun⟩ := extract_unfold L sha3 d hx hpk share y hS []
    rw [hrun, randInt_nil L]
    rfl

/-- Whenever `extractSecretShare` returns, the decrypted share is `x⁻¹ · Y`. -/
theorem extract_exact {E : Curve} (L : E.Laws) (sha3 : Hasher) (d : Dealer)
    (hx : 1 ≤ d.privateKey.D ∧ d.privateKey.D < E.N)
    (hpk : d.PK.point = L.enc (d.privateKey.D • L.g)) (share : Share) (y : L.Grp)
    (hS : share.S = some (L.enc y)) (rnd : List Nat) (ds : DecryptedShare)
    (h : d.extractSecretShare E sha3 share rnd = .ok ds) :
    ∃ inv : Int, ModInverse d.privateKey.D E.N = some inv ∧ (1 ≤ inv ∧ inv < E.N)
      ∧ inv * d.privateKey.D ≡ 1 [ZMOD (E.N : Int)]
      ∧ ds.PK = d.PK ∧ ds.Position = share.Position
      ∧ ds.S = L.enc (inv • y) ∧ ds.Y = L.enc y := by
  obtain ⟨inv, hinv, hinv1, hinvN, hmod, _, hback, hrun⟩ :=
    extract_unfold L sha3 d hx hpk share y hS rnd
  rw [hrun] at h
  obtain ⟨wr, _, h1⟩ := bind_eq_ok h
  obtain ⟨cr, _, h2⟩ := bind_eq_ok h1
  have h3 := Res.ok.inj h2
  subst h3
  exact ⟨inv, hinv, ⟨hinv1, hinvN⟩, hmod, rfl, rfl, rfl, by rw [hback]⟩

theorem publicKey_enc {E : Curve} (L : E.Laws) (key : PrivateKey)
    (hx : 1 ≤ key.D ∧ key.D < E.N)
    (hpk : E.ScalarMult (G1 E) (Bytes key.D) = .ok ⟨some key.X, some key.Y⟩) :
    (NewDealer key).PK.point = L.enc (key.D • L.g) := by
  rw [← enc_g L, scalarMult_enc L L.g key.D hx.1 hx.2] at hpk
  exact (Res.ok.inj hpk).symm

theorem modelKey_pk :
    modelCurve.ScalarMult (G1 modelCurve) (Bytes modelKey.D)
      = .ok ⟨some modelKey.X, some modelKey.Y⟩ := by
  rw [← enc_g modelLaws, scalarMult_enc modelLaws _ modelKey.D (by decide) (by decide)]
  exact congrArg Res.ok (by decide)

/-- C4, as stated, fails: with the nonce `0` (the draw `0`) `extractSecretShare` panics
on a share addressed to the caller, and returns no decrypted share. -/
theorem C4_counterexample :
    (NewDealer modelKey).extractSecretShare modelCurve modelHasher modelShare [0] = .panic :=
  (extract_fails modelLaws modelHasher (NewDealer modelKey) (by decide)
    (publicKey_enc modelLaws modelKey (by decide) modelKey_pk) modelShare modelLaws.h
    (congrArg some (enc_h modelLaws).symm)).1 0 [] (by decide)

/-- C4, amended. Decrypted-share verifiability: for a dealer whose private key `x` is in
`[1, q)` and whose public key is `x · G`, every share addressed to that key (its `S` a
point of the curve) and every nonce in `[1, q)` (a draw that is not zero modulo `q`),
`extractSecretShare` and `ExtractSecretShare` return a decrypted share whose challenge
is a `HashMod` value and whose response is `Response(w, x, c, q)`; the share passes
`VerifyDecryptedShare` when both are non-zero, and `VerifyDecryptedShare` panics when
one of them is zero. -/
theorem C4_decrypted_share_verifies (E : Curve) (L : E.Laws) (sha3 : Hasher)
    (key : PrivateKey) (hx : 1 ≤ key.D ∧ key.D < E.N)
    (hpk : E.ScalarMult (G1 E) (Bytes key.D) = .ok ⟨some key.X, some key.Y⟩)
    (w : Nat) (hw : (w : Int) % E.N ≠ 0) (rnd : List Nat) :
    (∀ (share : Share) (Y : Point), share.S = some Y → L.OnCurve Y →
      ∃ ds, (NewDealer key).extractSecretShare E sha3 share (w :: rnd) = .ok ds
        ∧ (∃ vs, ds.challenge = HashMod E.N sha3 vs)
        ∧ ds.response = Response ((w : Int) % E.N) key.D ds.challenge E.N
        ∧ (ds.challenge ≠ 0 → ds.response ≠ 0 → VerifyDecryptedShare E sha3 ds = .ok true)
        ∧ (ds.challenge = 0 ∨ ds.response = 0 → VerifyDecryptedShare E sha3 ds = .panic))
    ∧ (∀ box : DistributionSharesBox,
        (∃ s ∈ box.Shares, s.PK = ⟨key.X, key.Y⟩) →
        (∀ s ∈ box.Shares, ∃ Y, s.S = some Y ∧ L.OnCurve Y) →
        ∃ ds, (NewDealer key).ExtractSecretShare E sha3 box (w :: rnd) = .ok ds
          ∧ (∃ vs, ds.challenge = HashMod E.N sha3 vs)
          ∧ ds.response = Response ((w : Int) % E.N) key.D ds.challenge E.N
          ∧ (ds.challenge ≠ 0 → ds.response ≠ 0 →
              VerifyDecryptedShare E sha3 ds = .ok true)
          ∧ (ds.challenge = 0 ∨ ds.response = 0 →
              VerifyDecryptedShare E sha3 ds = .panic)) := by
  have hPK := publicKey_enc L key hx hpk
  have part1 : ∀ (share : Share) (Y : Point), share.S = some Y → L.OnCurve Y →
      ∃ ds, (NewDealer key).extractSecretShare E sha3 share (w :: rnd) = .ok ds
        ∧ (∃ vs, ds.challenge = HashMod E.N sha3 vs)
        ∧ ds.response = Response ((w : Int) % E.N) key.D ds.challenge E.N
        ∧ (ds.challenge ≠ 0 → ds.response ≠ 0 → VerifyDecryptedShare E sha3 ds = .ok true)
        ∧ (ds.challenge = 0 ∨ ds.response = 0 →
            VerifyDecryptedShare E sha3 ds = .panic) := by
    intro share Y hS hY
    obtain ⟨y, rfl⟩ := hY
    obtain ⟨ds, _, h1, _, _, _, _, _, _, _, hvs, hr, hacc, hpan⟩ :=
      extract_spec L sha3 (NewDealer key) hx hPK share y hS w rnd hw
    exact ⟨ds, h1, hvs, hr, hacc, hpan⟩
  refine ⟨part1, ?_⟩
  intro box hex hall
  unfold Dealer.ExtractSecretShare
  cases hfind : box.Shares.find? (fun s => decide (s.PK.X = (NewDealer key).privateKey.X)
      && decide (s.PK.Y = (NewDealer key).privateKey.Y)) with
  | none =>
    exfalso
    obtain ⟨s, hs, hspk⟩ := hex
    have := List.find?_eq_none.1 hfind s hs
    simp [hspk, NewDealer] at this
  | some share =>
    obtain ⟨Y, hS, hY⟩ := hall share (List.mem_of_find?_eq_some hfind)
    exact part1 share Y hS hY

theorem C4_decrypted_share_verifies_witness :
    ∃ ds, (NewDealer modelKey).extractSecretShare modelCurve modelHasher modelShare [10]
        = .ok ds
      ∧ VerifyDecryptedShare modelCurve modelHasher ds = .ok true := by
  obtain ⟨ds, hds, ⟨vs, hc⟩, hr, hacc, _⟩ :=
    (C4_decrypted_share_verifies modelCurve modelLaws modelHasher modelKey (by decide)
      modelKey_pk 10 (by decide) []).1 modelShare G2 rfl ⟨modelLaws.h, enc_h modelLaws⟩
  have hrange := modelHasher_range (modelCurve.N : Int) (by decide) vs
  rw [← hc] at hrange
  have hN : (2000 : Int) < modelCurve.N := by decide
  have hw : ((10 : Nat) : Int) % modelCurve.N = 10 := by decide
  refine ⟨ds, hds, hacc (by omega) ?_⟩
  rw [hr, hw]
  exact response_ne_zero _ 10 3 ds.challenge (by show 0 ≤ 3 * ds.challenge; omega)
    (by show 3 * ds.challenge < _; omega) (by show 10 ≠ 3 * ds.challenge; omega)
    (by rw [abs_lt]; constructor <;> (show _ < _; omega))

theorem model_enc33 :
    modelLaws.enc ((11 : Int) • (3 : Int) • modelLaws.g) = ⟨some 33, some 33⟩ := by
  decide

/-- The share `modelShare11` carries `11 · pk` for the public key of `modelKey`. -/
theorem modelShare11_S :
    modelCurve.ScalarMult ⟨some modelKey.X, some modelKey.Y⟩ (Bytes (11 % modelCurve.N))
      = .ok ⟨some 33, some 33⟩ := by
  have h3 : (⟨some modelKey.X, some modelKey.Y⟩ : Point)
      = modelLaws.enc ((3 : Int) • modelLaws.g) :=
    publicKey_enc modelLaws modelKey (by decide) modelKey_pk
  have h11 : (11 : Int) % modelCurve.N = 11 := by decide
  rw [h3, h11, scalarMult_enc modelLaws _ 11 (by decide) (by decide), model_enc33]

/-- C5, as stated, fails: with the nonce `0` (the draw `0`) `extractSecretShare` panics
on the honestly encrypted share `11 · pk`, and returns no decrypted share. -/
theorem C5_counterexample :
    modelCurve.ScalarMult ⟨some modelKey.X, some modelKey.Y⟩ (Bytes (11 % modelCurve.N))
      = .ok ⟨some 33, some 33⟩
    ∧ (NewDealer modelKey).extractSecretShare modelCurve modelHasher modelShare11 [0]
      = .panic :=
  ⟨modelShare11_S,
    (extract_fails modelLaws modelHasher (NewDealer modelKey) (by decide)
      (publicKey_enc modelLaws modelKey (by decide) modelKey_pk)
      modelShare11 ((11 : Int) • (3 : Int) • modelLaws.g)
      (congrArg some model_enc33.symm)).1 0 [] (by decide)⟩

/-- C5, amended. Share decryption is exact: for a private key `x` in `[1, q)` with
`pk = x · G` and a share whose `S` is `Y_i = (P(i) mod q) · pk` with `P(i) mod q ≠ 0`,
`extractSecretShare` returns a decrypted share for every nonce in `[1, q)`; and whenever
it returns, the decrypted share has `S = (P(i) mod q) · G`, computed as
`(x⁻¹ mod q) · Y_i`, `Y` the distributed `Y_i`, and `Position` the share's `Position`. -/
theorem C5_decryption_exact (E : Curve) (L : E.Laws) (sha3 : Hasher)
    (key : PrivateKey) (hx : 1 ≤ key.D ∧ key.D < E.N)
    (hpk : E.ScalarMult (G1 E) (Bytes key.D) = .ok ⟨some key.X, some key.Y⟩)
    (share : Share) (p : Int) (hp : p % E.N ≠ 0) (Y : Point)
    (hY : E.ScalarMult ⟨some key.X, some key.Y⟩ (Bytes (p % E.N)) = .ok Y)
    (hS : share.S = some Y) :
    (∀ (w : Nat) (rnd : List Nat), (w : Int) % E.N ≠ 0 →
      ∃ ds, (NewDealer key).extractSecretShare E sha3 share (w :: rnd) = .ok ds)
    ∧ (∀ (rnd : List Nat) (ds : DecryptedShare),
        (NewDealer key).extractSecretShare E sha3 share rnd = .ok ds →
        ∃ inv, E.ScalarMult (G1 E) (Bytes (p % E.N)) = .ok ds.S
          ∧ ModInverse key.D E.N = some inv
          ∧ E.ScalarMult Y (Bytes inv) = .ok ds.S
          ∧ some ds.Y = share.S
          ∧ ds.Position = share.Position) := by
  have hp1 : 1 ≤ p % E.N ∧ p % E.N < E.N :=
    ⟨by have := Int.emod_nonneg p (ne_of_gt (order_pos L)); omega,
      Int.emod_lt_of_pos _ (order_pos L)⟩
  have hPK := publicKey_enc L key hx hpk
  have hPK2 : (⟨some key.X, some key.Y⟩ : Point) = L.enc (key.D • L.g) := hPK
  rw [hPK2, scalarMult_enc L _ _ hp1.1 hp1.2] at hY
  have hYe : Y = L.enc ((p % E.N) • key.D • L.g) := (Res.ok.inj hY).symm
  subst hYe
  refine ⟨?_, ?_⟩
  · intro w rnd hw
    obtain ⟨ds, _, h1, _⟩ := extract_spec L sha3 (NewDealer key) hx hPK share _ hS w rnd hw
    exact ⟨ds, h1⟩
  · intro rnd ds hds
    obtain ⟨inv, hinv, hinv1, hmod, _, hpos, hSe, hYY⟩ :=
      extract_exact L sha3 (NewDealer key) hx hPK share _ hS rnd ds hds
    have hmod2 : inv * key.D ≡ 1 [ZMOD (E.N : Int)] := hmod
    have hval : inv • (p % E.N) • key.D • L.g = (p % E.N) • L.g := by
      rw [← mul_zsmul, ← mul_zsmul]
      refine zsmul_congr L L.g ?_
      have h2 : inv * (p % E.N) * key.D = (p % E.N) * (inv * key.D) := by ring
      rw [h2]
      have h3 := Int.ModEq.mul_left (p % E.N) hmod2
      rw [mul_one] at h3
      exact h3
    refine ⟨inv, ?_, hinv, ?_, ?_, hpos⟩
    · rw [← enc_g L, scalarMult_enc L L.g _ hp1.1 hp1.2, hSe, hval]
    · rw [scalarMult_enc L _ inv hinv1.1 hinv1.2, hSe]
    · rw [hYY, hS]

theorem C5_decryption_exact_witness :
    ∃ ds inv, (NewDealer modelKey).extractSecretShare modelCurve modelHasher modelShare11
        [10] = .ok ds
      ∧ modelCurve.ScalarMult (G1 modelCurve) (Bytes (11 % modelCurve.N)) = .ok ds.S
      ∧ ModInverse modelKey.D modelCurve.N = some inv
      ∧ modelCurve.ScalarMult ⟨some 33, some 33⟩ (Bytes inv) = .ok ds.S
      ∧ some ds.Y = modelShare11.S
      ∧ ds.Position = modelShare11.Position := by
  have h := C5_decryption_exact modelCurve modelLaws modelHasher modelKey (by decide)
    modelKey_pk modelShare11 11 (by decide) ⟨some 33, some 33⟩ modelShare11_S rfl
  obtain ⟨ds, hds⟩ := h.1 10 [] (by decide)
  obtain ⟨inv, h1, h2, h3, h4, h5⟩ := h.2 [10] ds hds
  exact ⟨ds, inv, hds, h1, h2, h3, h4, h5⟩

/-! ## Decrypted shares are not bound to a box -/

theorem model_enc6 : modelLaws.enc ((3 : Int) • modelLaws.h) = ⟨some 6, some 6⟩ := by
  decide

/-- C23, as stated, fails: for the key `x = 3`, `S' = (Hx, Hy)` and `Y = 3 · S'`, the
statement `DLEQ(G, PK, S', Y)` with the nonce `0` is built by `NewDLEQ`, and
`ChallengeAndResponse` panics on it: there is no transcript to accept. -/
theorem C23_counterexample :
    modelCurve.ScalarMult (G1 modelCurve) (Bytes 3) = .ok ⟨some 3, some 3⟩
    ∧ modelCurve.ScalarMult G2 (Bytes 3) = .ok ⟨some 6, some 6⟩
    ∧ ∃ d, NewDLEQ modelCurve (G1 modelCurve) (some ⟨some 3, some 3⟩) G2
          (some ⟨some 6, some 6⟩) 0 3 = .ok d
        ∧ d.ChallengeAndResponse modelCurve modelHasher = .panic := by
  refine ⟨modelKey_pk, ?_, _, rfl, ?_⟩
  · rw [← enc_h modelLaws, scalarMult_enc modelLaws _ 3 (by decide) (by decide), model_enc6]
  · exact car_zero_nonce modelLaws modelHasher modelLaws.g modelLaws.h _
      (enc_g modelLaws).symm (enc_h modelLaws).symm rfl

/-- C23, amended. `VerifyDecryptedShare` takes the decrypted share alone. For every
private key `x` in `[1, q)` with public key `pk = x · G`, every position, every point `S'`
of the curve with `Y = x · S'` and every nonce `w` in `[1, q)`, `ChallengeAndResponse` on
`DLEQ(G, pk, S', Y)` returns `(c, r)`, and the decrypted share
`(pk, position, S', Y, c, r)` is accepted by `VerifyDecryptedShare` when `c` and `r` are
non-zero; when one of them is zero `VerifyDecryptedShare` panics. -/
theorem C23_decrypted_share_not_bound (E : Curve) (L : E.Laws) (sha3 : Hasher)
    (x : Int) (hx : 1 ≤ x ∧ x < E.N) (pk : PublicKey)
    (hpk : E.ScalarMult (G1 E) (Bytes x) = .ok pk.point) (position : Int)
    (S' Y : Point) (hS : L.OnCurve S') (hY : E.ScalarMult S' (Bytes x) = .ok Y)
    (w : Int) (hw : 1 ≤ w ∧ w < E.N) :
    ∃ d c r, NewDLEQ E (G1 E) (some pk.point) S' (some Y) w x = .ok d
      ∧ d.ChallengeAndResponse E sha3 = .ok (c, r)
      ∧ (∃ vs, c = HashMod E.N sha3 vs) ∧ r = Response w x c E.N
      ∧ (c ≠ 0 → r ≠ 0 →
          VerifyDecryptedShare E sha3
            { PK := pk, Position := position, S := S', Y := Y, challenge := c,
              response := r } = .ok true)
      ∧ (c = 0 ∨ r = 0 →
          VerifyDecryptedShare E sha3
            { PK := pk, Position := position, S := S', Y := Y, challenge := c,
              response := r } = .panic) := by
  obtain ⟨s, rfl⟩ := hS
  rw [← enc_g L, scalarMult_enc L L.g x hx.1 hx.2] at hpk
  rw [scalarMult_enc L s x hx.1 hx.2] at hY
  have hpk' : pk.point = L.enc (x • L.g) := (Res.ok.inj hpk).symm
  have hY' : Y = L.enc (x • s) := (Res.ok.inj hY).symm
  subst hY'
  obtain ⟨c, r, hcr, hvs, hr, _, _, hacc, hpan⟩ := dleq_complete L sha3 L.g s
    { G1 := L.enc L.g, H1 := L.enc (x • L.g), G2 := L.enc s, H2 := L.enc (x • s),
      w := w, alpha := x, r := none } rfl rfl rfl rfl hw
  refine ⟨_, c, r, ?_, hcr, hvs, hr, ?_, ?_⟩
  · simp only [NewDLEQ, bind_ok, hpk', ← enc_g L]
  · intro h1 h2
    simp only [VerifyDecryptedShare, hpk', ← enc_g L]
    exact hacc h1 h2
  · intro h
    simp only [VerifyDecryptedShare, hpk', ← enc_g L]
    exact hpan h

theorem C23_decrypted_share_not_bound_witness :
    ∃ d c r, NewDLEQ modelCurve (G1 modelCurve) (some ⟨some 3, some 3⟩) G2
        (some ⟨some 6, some 6⟩) 10 3 = .ok d
      ∧ d.ChallengeAndResponse modelCurve modelHasher = .ok (c, r)
      ∧ VerifyDecryptedShare modelCurve modelHasher
          { PK := ⟨3, 3⟩, Position := 1, S := G2, Y := ⟨some 6, some 6⟩, challenge := c,
            response := r } = .ok true := by
  have hY : modelCurve.ScalarMult G2 (Bytes 3) = .ok ⟨some 6, some 6⟩ := by
    rw [← enc_h modelLaws, scalarMult_enc modelLaws _ 3 (by decide) (by decide), model_enc6]
  obtain ⟨d, c, r, hd, hcr, ⟨vs, hc⟩, hr, hacc, _⟩ :=
    C23_decrypted_share_not_bound modelCurve modelLaws modelHasher 3 (by decide) ⟨3, 3⟩
      modelKey_pk 1 G2 ⟨some 6, some 6⟩ ⟨modelLaws.h, enc_h modelLaws⟩ hY 10 (by decide)
  have hrange := modelHasher_range (modelCurve.N : Int) (by decide) vs
  rw [← hc] at hrange
  have hN : (2000 : Int) < modelCurve.N := by decide
  refine ⟨d, c, r, hd, hcr, hacc (by omega) ?_⟩
  rw [hr]
  exact response_ne_zero _ 10 3 c (by omega) (by omega) (by omega)
    (by rw [abs_lt]; constructor <;> omega)

/-! ## Distribution and its verification -/

/-- A commitment `a · H` for a coefficient in `[1, q)`. -/
theorem commitment_enc {E : Curve} (L : E.Laws) (a : Int) (ha : 1 ≤ a ∧ a < E.N) :
    E.ScalarMult ⟨some Hx, some Hy⟩ (Bytes a) = .ok (L.enc (a • L.h)) := by
  have h := scalarMult_enc L L.h a ha.1 ha.2
  rw [enc_h L] at h
  exact h

theorem commitments_ok {E : Curve} (L : E.Laws) : ∀ (cs : List Int),
    (∀ a ∈ cs, 1 ≤ a ∧ a < E.N) →
    commitments E cs = .ok (cs.map (fun a => L.enc (a • L.h))) := by
  intro cs
  induction cs with
  | nil => intro _; rfl
  | cons a rest ih =>
    intro h
    simp only [commitments, commitment_enc L a (h a (by simp)),
      ih (fun b hb => h b (by simp [hb])), bind_ok, List.map_cons]

/-- The commitment loop returns for coefficients in `[0, q)`; a zero coefficient gives a
commitment with nil coordinates. -/
theorem commitments_some {E : Curve} (L : E.Laws) : ∀ (cs : List Int),
    (∀ a ∈ cs, 0 ≤ a ∧ a < E.N) →
    ∃ Cs, commitments E cs = .ok Cs ∧ Cs.length = cs.length := by
  intro cs
  induction cs with
  | nil => intro _; exact ⟨[], rfl, rfl⟩
  | cons a rest ih =>
    intro h
    obtain ⟨Cs, hCs, hlen⟩ := ih (fun b hb => h b (by simp [hb]))
    have ha := h a (by simp)
    have h2 := scalarMult_cases L L.h a ha.1
    rw [enc_h L] at h2
    rcases h2 with ⟨_, _, hm⟩ | ⟨h0, hm | hm⟩
    · exact ⟨_, by simp only [commitments, G2] at hm ⊢; rw [hm, hCs]; rfl, by simp [hlen]⟩
    · exact ⟨_, by simp only [commitments, G2] at hm ⊢; rw [hm, hCs]; rfl, by simp [hlen]⟩
    · exfalso
      have h3 : a = 0 := by omega
      subst h3
      have h4 := scalarMult_nil L L.h 0 (Or.inl rfl)
      rw [enc_h L, hm] at h4
      exact Res.noConfusion h4

theorem exp_range {E : Curve} (L : E.Laws) (pos : Int) (hpos : pos % E.N ≠ 0) (j : Nat) :
    1 ≤ Exp pos j E.N ∧ Exp pos j E.N < E.N := by
  have hN := order_pos L
  have h0 := Int.emod_nonneg (pos ^ j) (ne_of_gt hN)
  refine ⟨?_, Int.emod_lt_of_pos _ hN⟩
  unfold Exp
  by_contra hlt
  have hz : pos ^ j % E.N = 0 := by omega
  have hdvd : (E.N : Int) ∣ pos ^ j := Int.dvd_of_emod_eq_zero hz
  have hp : Prime (E.N : Int) := Nat.prime_iff_prime_int.1 L.prime
  exact hpos (Int.emod_eq_zero_of_dvd (hp.dvd_of_dvd_pow hdvd))

theorem sumCommitments_enc {E : Curve} (L : E.Laws) (pos : Int) :
    ∀ (cs : List Int), (∀ a ∈ cs, 1 ≤ a ∧ a < E.N) → (cs = [] ∨ pos % E.N ≠ 0) →
      ∀ (j : Nat) (s : Int),
      sumCommitments E pos j (cs.map (fun a => L.enc (a • L.h))) (L.enc (s • L.h))
        = .ok (L.enc ((s + polySum pos j cs) • L.h)) := by
  intro cs
  induction cs with
  | nil => intro _ _ j s; simp [sumCommitments, polySum]
  | cons a rest ih =>
    intro hcs hpos j s
    have hp : pos % E.N ≠ 0 := by
      rcases hpos with h | h
      · exact absurd h (by simp)
      · exact h
    have hrest : ∀ b ∈ rest, 1 ≤ b ∧ b < E.N := fun b hb => hcs b (by simp [hb])
    have hexp := exp_range L pos hp j
    simp only [List.map_cons, sumCommitments, scalarMult_enc L _ _ hexp.1 hexp.2, bind_ok,
      add_enc]
    have hstep : s • L.h + Exp pos j E.N • a • L.h = (s + a * pos ^ j) • L.h := by
      rw [← mul_zsmul, ← add_zsmul]
      refine zsmul_congr L L.h ?_
      refine Int.ModEq.add (Int.ModEq.refl s) ?_
      rw [mul_comm a]
      exact Int.ModEq.mul_right a (Int.mod_modEq _ _)
    rw [hstep, ih hrest (Or.inr hp) (j + 1) (s + a * pos ^ j)]
    simp only [polySum]
    rw [add_assoc]

/-- The verifier's `X_i` is the group element `(P(i) mod q) · H`. -/
theorem recomputed_Xi {E : Curve} (L : E.Laws) (pos : Int) (a0 : Int) (rest : List Int)
    (hcs : ∀ a ∈ a0 :: rest, 1 ≤ a ∧ a < E.N) (hpos : rest = [] ∨ pos % E.N ≠ 0) :
    sumCommitments E pos 1 (rest.map (fun a => L.enc (a • L.h))) (L.enc (a0 • L.h))
      = .ok (L.enc ((polySum pos 0 (a0 :: rest) % E.N) • L.h)) := by
  have hrest : ∀ b ∈ rest, 1 ≤ b ∧ b < E.N := fun b hb => hcs b (by simp [hb])
  rw [sumCommitments_enc L pos rest hrest hpos 1 a0]
  refine congrArg Res.ok (congrArg L.enc (zsmul_congr L L.h ?_))
  simp only [polySum, pow_zero, mul_one, zero_add]
  exact (Int.mod_modEq _ _).symm

/-- One round of the loop of `distribute` over the shares. -/
theorem distribute_step {E : Curve} (L : E.Laws) (sha3 : Hasher) (cs : List Int)
    (hne : cs ≠ []) (hcs : ∀ a ∈ cs, 0 ≤ a ∧ a < E.N) (share : Share) (k : L.Grp)
    (hk : share.PK.point = L.enc k) (w : Nat) (rest : List Share) (rnd : List Nat) :
    (Good E cs (share, w) →
      ∃ s1, Distributed L sha3 cs (share, w) s1
        ∧ distributeShares E sha3 ⟨cs⟩ (share :: rest) (w :: rnd)
          = (distributeShares E sha3 ⟨cs⟩ rest rnd).bind fun rest1 => .ok (s1 :: rest1))
    ∧ (¬ Good E cs (share, w) →
      distributeShares E sha3 ⟨cs⟩ (share :: rest) (w :: rnd) = .panic) := by
  have hN := order_pos L
  have hget := getValue_eq (E.N : Int) hN cs hne hcs share.Position
  have hp0 := Int.emod_nonneg (polySum share.Position 0 cs) (ne_of_gt hN)
  have hpN := Int.emod_lt_of_pos (polySum share.Position 0 cs) hN
  have hw0 := Int.emod_nonneg (w : Int) (ne_of_gt hN)
  have hwN := Int.emod_lt_of_pos (w : Int) hN
  constructor
  · intro hgood
    have hg1 : polySum share.Position 0 cs % E.N ≠ 0 := hgood.1
    have hg2 : (w : Int) % E.N ≠ 0 := hgood.2
    have hp1 : 1 ≤ polySum share.Position 0 cs % E.N := by omega
    have hw1 : 1 ≤ (w : Int) % E.N := by omega
    obtain ⟨c, r, hcr, hvs, hr, hc1, hr1, hacc, hpan⟩ := dleq_complete L sha3 L.h k
      { G1 := L.enc L.h, H1 := L.enc ((polySum share.Position 0 cs % E.N) • L.h),
        G2 := L.enc k, H2 := L.enc ((polySum share.Position 0 cs % E.N) • k),
        w := (w : Int) % E.N, alpha := polySum share.Position 0 cs % E.N, r := none }
      rfl rfl rfl rfl ⟨hw1, hwN⟩
    have hnew := newDLEQ_ok L L.h k ((w : Int) % E.N) (polySum share.Position 0 cs % E.N)
      ⟨hp1, hpN⟩
    rw [enc_h L] at hnew hacc hpan hcr
    simp only [G2] at hcr hacc hpan
    refine ⟨{ share with
        S := some (L.enc ((polySum share.Position 0 cs % E.N) • k)),
        challenge := some c, response := some r },
      ⟨rfl, rfl, k, c, r, hk, rfl, rfl, rfl, hvs, hr, hacc, hpan⟩, ?_⟩
    simp only [distributeShares, hget, randInt_cons L, bind_ok, hk]
    simp only [G2] at hnew
    rw [hnew]
    simp only [bind_ok]
    rw [hcr]
    rfl
  · intro hbad
    simp only [distributeShares, hget, randInt_cons L, bind_ok, hk]
    have hz : polySum share.Position 0 cs % E.N = 0 ∨ (w : Int) % E.N = 0 := by
      by_contra hcon
      push_neg at hcon
      exact hbad ⟨hcon.1, hcon.2⟩
    obtain ⟨d, hd, hpanic⟩ := dleq_zero_panics L sha3 L.h k ((w : Int) % E.N)
      (polySum share.Position 0 cs % E.N) ⟨hp0, hpN⟩ ⟨hw0, hwN⟩ hz
    rw [enc_h L] at hd
    simp only [G2] at hd
    rw [hd]
    simp only [bind_ok, hpanic, bind_panic]

theorem distributeShares_spec {E : Curve} (L : E.Laws) (sha3 : Hasher) (cs : List Int)
    (hne : cs ≠ []) (hcs : ∀ a ∈ cs, 0 ≤ a ∧ a < E.N) :
    ∀ (shares : List Share) (rnd : List Nat), (∀ s ∈ shares, L.OnCurve s.PK.point) →
      shares.length ≤ rnd.length →
      ((∀ sw ∈ shares.zip rnd, Good E cs sw) →
        ∃ shares1, distributeShares E sha3 ⟨cs⟩ shares rnd = .ok shares1
          ∧ List.Forall₂ (Distributed L sha3 cs) (shares.zip rnd) shares1)
      ∧ (¬ (∀ sw ∈ shares.zip rnd, Good E cs sw) →
        distributeShares E sha3 ⟨cs⟩ shares rnd = .panic) := by
  intro shares
  induction shares with
  | nil =>
    intro rnd _ _
    exact ⟨fun _ => ⟨[], by cases rnd <;> rfl, by simp⟩, fun h => absurd (by simp) h⟩
  | cons share rest ih =>
    intro rnd hon hlen
    cases rnd with
    | nil => simp at hlen
    | cons w rnd1 =>
      obtain ⟨k, hk⟩ := hon share (by simp)
      obtain ⟨ih1, ih2⟩ := ih rnd1 (fun s hs => hon s (by simp [hs])) (by simpa using hlen)
      obtain ⟨st1, st2⟩ := distribute_step L sha3 cs hne hcs share k hk.symm w rest rnd1
      constructor
      · intro hall
        obtain ⟨s1, hs1, hrun⟩ := st1 (hall _ (by simp))
        obtain ⟨rest1, hrest1, hfor⟩ := ih1 (fun sw hsw => hall sw (by simp [hsw]))
        refine ⟨s1 :: rest1, ?_, ?_⟩
        · rw [hrun, hrest1]; rfl
        · simpa using List.Forall₂.cons hs1 hfor
      · intro hnot
        by_cases hg : Good E cs (share, w)
        · obtain ⟨s1, _, hrun⟩ := st1 hg
          rw [hrun, ih2 (fun hall => hnot (by
            intro sw hsw
            simp only [List.zip_cons_cons, List.mem_cons] at hsw
            rcases hsw with rfl | hsw
            · exact hg
            · exact hall sw hsw))]
          rfl
        · exact st2 hg

/-- The loop of `VerifyDistributionShares` on honestly distributed shares, for
coefficients in `[1, q)`: it returns true when every challenge and response is non-zero
and panics when one of them is zero. -/
theorem verifyShares_distributed {E : Curve} (L : E.Laws) (sha3 : Hasher) (a0 : Int)
    (as : List Int) (hcs : ∀ a ∈ a0 :: as, 1 ≤ a ∧ a < E.N) :
    ∀ (sws : List (Share × Nat)) (shares1 : List Share),
      List.Forall₂ (Distributed L sha3 (a0 :: as)) sws shares1 →
      (∀ sw ∈ sws, as = [] ∨ sw.1.Position % E.N ≠ 0) →
      ((∀ s ∈ shares1, s.challenge ≠ some 0 ∧ s.response ≠ some 0) →
        verifyShares E sha3 ((a0 :: as).map (fun a => L.enc (a • L.h))) shares1 = .ok true)
      ∧ ((∃ s ∈ shares1, s.challenge = some 0 ∨ s.response = some 0) →
        verifyShares E sha3 ((a0 :: as).map (fun a => L.enc (a • L.h))) shares1
          = .panic) := by
  intro sws shares1 hfor
  induction hfor with
  | nil =>
    intro _
    exact ⟨fun _ => rfl, fun ⟨s, hs, _⟩ => absurd hs (by simp)⟩
  | @cons sw s1 sws1 rest1 hd _ ih =>
    intro hpos
    obtain ⟨ih1, ih2⟩ := ih (fun sw' h => hpos sw' (by simp [h]))
    obtain ⟨_, hposeq, k, c, r, hk, hS, hc, hr, _, _, hacc, hpan⟩ := hd
    have hXi := recomputed_Xi L sw.1.Position a0 as hcs (hpos sw (by simp))
    have hrun : verifyShares E sha3 ((a0 :: as).map (fun a => L.enc (a • L.h))) (s1 :: rest1)
        = (DLEQVerify E sha3 ⟨some Hx, some Hy⟩
            (L.enc ((polySum sw.1.Position 0 (a0 :: as) % E.N) • L.h)) (L.enc k)
            (L.enc ((polySum sw.1.Position 0 (a0 :: as) % E.N) • k)) c r).bind fun ok =>
          if ok then verifyShares E sha3 ((a0 :: as).map (fun a => L.enc (a • L.h))) rest1
          else .ok false := by
      have hpk : s1.PK.point = L.enc k := by
        rw [← hk]
        show s1.PK.point = sw.1.PK.point
        rw [(by assumption : s1.PK = sw.1.PK)]
      show (sumCommitments E s1.Position 1 (as.map (fun a => L.enc (a • L.h)))
        (L.enc (a0 • L.h))).bind _ = _
      rw [hposeq, hXi]
      simp only [bind_ok, hS, hc, hr, hpk]
    constructor
    · intro hall
      have h1 := hall s1 (by simp)
      rw [hc, hr] at h1
      have hc0 : c ≠ 0 := fun h => h1.1 (by rw [h])
      have hr0 : r ≠ 0 := fun h => h1.2 (by rw [h])
      rw [hrun, hacc hc0 hr0]
      simp only [bind_ok, if_true]
      exact ih1 (fun s hs => hall s (by simp [hs]))
    · intro hex
      by_cases hz : c = 0 ∨ r = 0
      · rw [hrun, hpan hz]
        rfl
      · push_neg at hz
        rw [hrun, hacc hz.1 hz.2]
        simp only [bind_ok, if_true]
        apply ih2
        obtain ⟨s, hs, hs0⟩ := hex
        rcases List.mem_cons.1 hs with rfl | hs
        · exfalso
          rw [hc, hr] at hs0
          rcases hs0 with h | h
          · exact hz.1 (Option.some.inj h)
          · exact hz.2 (Option.some.inj h)
        · exact ⟨s, hs, hs0⟩

theorem scalarBaseMult_enc {E : Curve} (L : E.Laws) (a : Int) (ha : 1 ≤ a ∧ a < E.N) :
    E.ScalarBaseMult (Bytes a) = .ok (L.enc (a • L.g)) := by
  rw [L.base_mul]
  have h := scalarMult_enc L L.g a ha.1 ha.2
  rw [enc_g L] at h
  exact h

theorem scalarBaseMult_zero {E : Curve} (L : E.Laws) :
    E.ScalarBaseMult (Bytes 0) = .ok nilPoint := by
  rw [L.base_mul]
  have h := scalarMult_nil L L.g 0 (Or.inl rfl)
  rw [enc_g L] at h
  exact h

/-- What `distribute` does for a non-empty polynomial with coefficients in `[0, q)`,
recipient keys on the curve and enough nonces: it returns a box when `a_0`, every
`P(i) mod q` and every nonce are non-zero, and panics otherwise. -/
theorem distribute_spec {E : Curve} (L : E.Laws) (sha3 : Hasher) (d : Dealer) (secret : Int)
    (threshold : Int) (ht : 0 ≤ threshold) (a0 : Int) (as : List Int)
    (hcs : ∀ a ∈ a0 :: as, 0 ≤ a ∧ a < E.N)
    (shares : List Share) (rnd : List Nat) (hon : ∀ s ∈ shares, L.OnCurve s.PK.point)
    (hlen : shares.length ≤ rnd.length) :
    (a0 ≠ 0 ∧ (∀ sw ∈ shares.zip rnd, Good E (a0 :: as) sw) →
      ∃ Cs shares1, commitments E (a0 :: as) = .ok Cs
        ∧ d.distribute E sha3 secret shares threshold ⟨a0 :: as⟩ rnd
          = .ok { Commitments := Cs, Shares := shares1,
                  U := Int.xor secret (SetBytes (Hash sha3
                    [(L.xy (a0 • L.g)).1, (L.xy (a0 • L.g)).2])) }
        ∧ List.Forall₂ (Distributed L sha3 (a0 :: as)) (shares.zip rnd) shares1)
    ∧ (¬ (a0 ≠ 0 ∧ (∀ sw ∈ shares.zip rnd, Good E (a0 :: as) sw)) →
      d.distribute E sha3 secret shares threshold ⟨a0 :: as⟩ rnd = .panic) := by
  obtain ⟨Cs, hCs, _⟩ := commitments_some L (a0 :: as) hcs
  obtain ⟨sp1, sp2⟩ := distributeShares_spec L sha3 (a0 :: as) (by simp) hcs shares rnd hon hlen
  have ha0 := hcs a0 (by simp)
  constructor
  · intro ⟨hne, hgood⟩
    obtain ⟨shares1, h1, h2⟩ := sp1 hgood
    refine ⟨Cs, shares1, hCs, ?_, h2⟩
    simp only [Dealer.distribute, if_neg (not_lt.2 ht), hCs, h1, bind_ok,
      scalarBaseMult_enc L a0 ⟨by omega, ha0.2⟩, values_enc1]
  · intro hnot
    by_cases hgood : ∀ sw ∈ shares.zip rnd, Good E (a0 :: as) sw
    · have h0 : a0 = 0 := by
        by_contra hne
        exact hnot ⟨hne, hgood⟩
      obtain ⟨shares1, h1, _⟩ := sp1 hgood
      subst h0
      simp only [Dealer.distribute, if_neg (not_lt.2 ht), hCs, h1, bind_ok,
        scalarBaseMult_zero L]
      rfl
    · simp only [Dealer.distribute, if_neg (not_lt.2 ht), hCs, sp2 hgood, bind_ok, bind_panic]

/-- A box that `distribute` returns determines that `a_0`, every `P(i) mod q` and every
nonce were non-zero. -/
theorem distribute_inv {E : Curve} (L : E.Laws) (sha3 : Hasher) (d : Dealer) (secret : Int)
    (threshold : Int) (ht : 0 ≤ threshold) (a0 : Int) (as : List Int)
    (hcs : ∀ a ∈ a0 :: as, 0 ≤ a ∧ a < E.N)
    (shares : List Share) (rnd : List Nat) (hon : ∀ s ∈ shares, L.OnCurve s.PK.point)
    (hlen : shares.length ≤ rnd.length) (box : DistributionSharesBox)
    (hbox : d.distribute E sha3 secret shares threshold ⟨a0 :: as⟩ rnd = .ok box) :
    (1 ≤ a0 ∧ a0 < E.N) ∧ (∀ sw ∈ shares.zip rnd, Good E (a0 :: as) sw)
      ∧ commitments E (a0 :: as) = .ok box.Commitments
      ∧ box.U = Int.xor secret (SetBytes (Hash sha3
          [(L.xy (a0 • L.g)).1, (L.xy (a0 • L.g)).2]))
      ∧ List.Forall₂ (Distributed L sha3 (a0 :: as)) (shares.zip rnd) box.Shares := by
  obtain ⟨sp1, sp2⟩ := distribute_spec L sha3 d secret threshold ht a0 as hcs shares rnd
    hon hlen
  by_cases hg : a0 ≠ 0 ∧ (∀ sw ∈ shares.zip rnd, Good E (a0 :: as) sw)
  · obtain ⟨Cs, shares1, hCs, h1, h2⟩ := sp1 hg
    rw [h1] at hbox
    have hb := Res.ok.inj hbox
    subst hb
    have ha0 := hcs a0 (by simp)
    exact ⟨⟨by have := hg.1; omega, ha0.2⟩, hg.2, hCs, rfl, h2⟩
  · rw [sp2 hg] at hbox
    exact Res.noConfusion hbox

theorem wrap64_of_range (x : Int) (h1 : -2 ^ 63 ≤ x) (h2 : x < 2 ^ 63) : wrap64 x = x := by
  unfold wrap64
  omega

theorem drawCoefficients_spec (n : Int) (hn : 0 < n) : ∀ (count : Nat) (rnd : List Nat),
    count ≤ rnd.length →
    drawCoefficients n count rnd
      = .ok (List.map (fun v : Nat => (v : Int) % n) (rnd.take count), rnd.drop count) := by
  intro count
  induction count with
  | zero => intro rnd _; rfl
  | succ k ih =>
    intro rnd hlen
    cases rnd with
    | nil => simp at hlen
    | cons v rest =>
      simp only [drawCoefficients, randInt, if_neg (not_le.2 hn), ih rest (by simpa using hlen),
        List.take_succ_cons, List.map_cons, List.drop_succ_cons]

theorem initShares_length : ∀ (pks : List PublicKey) (i : Nat),
    (initShares i pks).length = pks.length := by
  intro pks
  induction pks with
  | nil => intro i; rfl
  | cons pk rest ih => intro i; simp [initShares, ih]

theorem initShares_pk : ∀ (pks : List PublicKey) (i : Nat) (s : Share),
    s ∈ initShares i pks → s.PK ∈ pks := by
  intro pks
  induction pks with
  | nil => intro i s hs; simp [initShares] at hs
  | cons pk rest ih =>
    intro i s hs
    simp only [initShares, List.mem_cons] at hs
    rcases hs with rfl | hs
    · simp
    · exact List.mem_cons_of_mem _ (ih (i + 1) s hs)

theorem initShares_position_range : ∀ (pks : List PublicKey) (j : Nat) (s : Share),
    s ∈ initShares j pks → (j : Int) + 1 ≤ s.Position ∧ s.Position ≤ (j : Int) + pks.length := by
  intro pks
  induction pks with
  | nil => intro j s hs; simp [initShares] at hs
  | cons pk rest ih =>
    intro j s hs
    simp only [initShares, List.mem_cons] at hs
    rcases hs with rfl | hs
    · simp
    · have := ih (j + 1) s hs
      simp only [List.length_cons]
      push_cast at this ⊢
      omega

theorem forall2_mem_right {α β : Type} {R : α → β → Prop} {l1 : List α} {l2 : List β}
    (h : List.Forall₂ R l1 l2) : ∀ b ∈ l2, ∃ a ∈ l1, R a b := by
  induction h with
  | nil => intro b hb; simp at hb
  | cons hr _ ih =>
    intro b hb
    rcases List.mem_cons.1 hb with rfl | hb
    · exact ⟨_, by simp, hr⟩
    · obtain ⟨a, ha, hab⟩ := ih b hb
      exact ⟨a, by simp [ha], hab⟩

/-- A position in `[1, 2^63)` is not zero modulo `q`. -/
theorem position_mod_ne_zero {E : Curve} (L : E.Laws) (pos : Int) (h1 : 1 ≤ pos)
    (h2 : pos < 2 ^ 63) : pos % E.N ≠ 0 := by
  have hl : (2 : Int) ^ 64 ≤ (E.N : Int) := by exact_mod_cast L.large
  rw [Int.emod_eq_of_lt (by omega) (by omega)]
  omega

/-- The box `distribute` returns for the shares of `DistributeSecret`, with coefficients
in `[1, q)`, and its verification. -/
theorem distribute_verifies {E : Curve} (L : E.Laws) (sha3 : Hasher) (d : Dealer)
    (secret : Int) (t n : Nat) (ht : 1 ≤ t ∧ t ≤ n) (hn : n < 2 ^ 63) (pks : List PublicKey)
    (hpks : pks.length = n) (hon : ∀ pk ∈ pks, L.OnCurve pk.point)
    (cs : List Int) (hlen : cs.length = t) (hcs : ∀ a ∈ cs, 1 ≤ a ∧ a < E.N)
    (ws : List Nat) (hws : n ≤ ws.length)
    (hgood : ∀ sw ∈ (initShares 0 pks).zip ws, Good E cs sw) :
    ∃ box, d.distribute E sha3 secret (initShares 0 pks) t ⟨cs⟩ ws = .ok box
      ∧ ((∀ s ∈ box.Shares, s.challenge ≠ some 0 ∧ s.response ≠ some 0) →
          VerifyDistributionShares E sha3 (some box) = .ok true)
      ∧ ((∃ s ∈ box.Shares, s.challenge = some 0 ∨ s.response = some 0) →
          VerifyDistributionShares E sha3 (some box) = .panic)
      ∧ List.Forall₂ (Distributed L sha3 cs) ((initShares 0 pks).zip ws) box.Shares := by
  cases cs with
  | nil => simp at hlen; omega
  | cons a0 as =>
    have hcs0 : ∀ a ∈ a0 :: as, 0 ≤ a ∧ a < E.N := fun a ha =>
      ⟨by have := (hcs a ha).1; omega, (hcs a ha).2⟩
    obtain ⟨Cs, shares1, hCs, h1, h2⟩ := (distribute_spec L sha3 d secret t (by omega) a0 as
      hcs0 (initShares 0 pks) ws (fun s hs => hon _ (initShares_pk pks 0 s hs))
      (by rw [initShares_length, hpks]; exact hws)).1
      ⟨by have := (hcs a0 (by simp)).1; omega, hgood⟩
    rw [commitments_ok L (a0 :: as) hcs] at hCs
    have hCs' := (Res.ok.inj hCs).symm
    subst hCs'
    have hl : shares1.length = n := by
      rw [← h2.length_eq, List.length_zip, initShares_length, hpks]
      omega
    have hlt : ¬ (shares1.length < ((a0 :: as).map (fun a => L.enc (a • L.h))).length) := by
      rw [List.length_map, hlen, hl]; omega
    have hposn : ∀ sw ∈ (initShares 0 pks).zip ws, as = [] ∨ sw.1.Position % E.N ≠ 0 := by
      intro sw hsw
      right
      have hr := initShares_position_range pks 0 sw.1 (List.of_mem_zip hsw).1
      rw [hpks] at hr
      have hn2 : (n : Int) < 2 ^ 63 := by exact_mod_cast hn
      exact position_mod_ne_zero L _ (by simpa using hr.1) (by push_cast at hr; omega)
    obtain ⟨v1, v2⟩ := verifyShares_distributed L sha3 a0 as hcs _ shares1 h2 hposn
    refine ⟨_, h1, ?_, ?_, h2⟩
    · intro hall
      simp only [VerifyDistributionShares, if_neg hlt]
      exact v1 hall
    · intro hex
      simp only [VerifyDistributionShares, if_neg hlt]
      exact v2 hex

/-- With `t + n` draws on the tape `DistributeSecret` runs `distribute` on the first `t`
draws as coefficients and the rest as nonces. -/
theorem distributeSecret_eq {E : Curve} (L : E.Laws) (sha3 : Hasher) (d : Dealer)
    (secret : Int) (t n : Nat) (ht : 1 ≤ t ∧ t ≤ n) (hn : n < 2 ^ 63) (pks : List PublicKey)
    (hpks : pks.length = n) (rnd : List Nat) (hrnd : t + n ≤ rnd.length) :
    d.DistributeSecret E sha3 secret pks t rnd
      = d.distribute E sha3 secret (initShares 0 pks) t
          ⟨List.map (fun v : Nat => (v : Int) % E.N) (rnd.take t)⟩ (rnd.drop t) := by
  have hnt : ¬ ((pks.length : Int) < (t : Int)) := by rw [hpks]; omega
  have hw1 : wrap64 ((t : Int) - 1) = (t : Int) - 1 :=
    wrap64_of_range _ (by omega) (by omega)
  have hw2 : wrap64 ((t : Int) - 1 + 1) = (t : Int) :=
    by rw [wrap64_of_range _ (by omega) (by omega)]; ring
  have hdraw := drawCoefficients_spec (E.N : Int) (order_pos L) t rnd (by omega)
  simp only [Dealer.DistributeSecret, if_neg hnt, InitPolynomial, hw1, hw2,
    Int.toNat_ofNat, hdraw]
  have h0 : ¬ ((t : Int) < 0) := by omega
  simp only [if_neg h0]

/-- C2, as stated, fails: with the coefficient `a_0 = 0`, and with the second nonce `0`,
`distribute` panics, and returns no box. -/
theorem C2_counterexample :
    (NewDealer modelKey).distribute modelCurve modelHasher 42 (initShares 0 modelPks) 2
        ⟨[0, 2]⟩ [10, 11, 12] = .panic
    ∧ (NewDealer modelKey).distribute modelCurve modelHasher 42 (initShares 0 modelPks) 2
        ⟨[1, 2]⟩ [10, 0, 12] = .panic := by
  have hon : ∀ s ∈ initShares 0 modelPks, modelLaws.OnCurve s.PK.point := by
    intro s hs
    simp only [initShares, modelPks, List.mem_cons, List.mem_singleton, List.not_mem_nil,
      or_false] at hs
    rcases hs with rfl | rfl | rfl
    · exact ⟨(3 : Int) • modelLaws.g, by decide⟩
    · exact ⟨(4 : Int) • modelLaws.g, by decide⟩
    · exact ⟨(5 : Int) • modelLaws.g, by decide⟩
  constructor
  · exact (distribute_spec modelLaws modelHasher (NewDealer modelKey) 42 2 (by decide) 0 [2]
      (by decide) (initShares 0 modelPks) [10, 11, 12] hon (by decide)).2
      (fun h => h.1 rfl)
  · exact (distribute_spec modelLaws modelHasher (NewDealer modelKey) 42 2 (by decide) 1 [2]
      (by decide) (initShares 0 modelPks) [10, 0, 12] hon (by decide)).2
      (fun h => (h.2 (⟨⟨4, 4⟩, 2, none, none, none⟩, 0)
        (by simp [initShares, modelPks])).2 (by decide))

/-- C2, amended. Distribution verifiability: for `1 ≤ t ≤ n < 2^63`, every secret, every
list of `n` recipient keys on the curve, every polynomial with `t` coefficients in
`[1, q)` and nonces such that no `P(i) mod q` and no nonce is zero modulo `q`,
`distribute` (and `DistributeSecret`, whose coefficients and nonces are the draws of the
tape) returns a box whose shares are related to the inputs by `Distributed`;
`VerifyDistributionShares` returns true on it when every challenge and response in it is
non-zero, and panics when one of them is zero. -/
theorem C2_distribution_verifies (E : Curve) (L : E.Laws) (sha3 : Hasher) (d : Dealer)
    (secret : Int) (t n : Nat) (ht : 1 ≤ t ∧ t ≤ n) (hn : n < 2 ^ 63) (pks : List PublicKey)
    (hpks : pks.length = n) (hon : ∀ pk ∈ pks, L.OnCurve pk.point) :
    (∀ cs : List Int, cs.length = t → (∀ a ∈ cs, 1 ≤ a ∧ a < E.N) →
      ∀ ws : List Nat, n ≤ ws.length →
      (∀ sw ∈ (initShares 0 pks).zip ws,
        polySum sw.1.Position 0 cs % E.N ≠ 0 ∧ (sw.2 : Int) % E.N ≠ 0) →
      ∃ box, d.distribute E sha3 secret (initShares 0 pks) t ⟨cs⟩ ws = .ok box
        ∧ ((∀ s ∈ box.Shares, s.challenge ≠ some 0 ∧ s.response ≠ some 0) →
            VerifyDistributionShares E sha3 (some box) = .ok true)
        ∧ ((∃ s ∈ box.Shares, s.challenge = some 0 ∨ s.response = some 0) →
            VerifyDistributionShares E sha3 (some box) = .panic)
        ∧ List.Forall₂ (Distributed L sha3 cs) ((initShares 0 pks).zip ws) box.Shares)
    ∧ (∀ rnd : List Nat, t + n ≤ rnd.length →
      (∀ v ∈ rnd.take t, (v : Int) % E.N ≠ 0) →
      (∀ sw ∈ (initShares 0 pks).zip (rnd.drop t),
        polySum sw.1.Position 0 (List.map (fun v : Nat => (v : Int) % E.N) (rnd.take t)) % E.N
          ≠ 0 ∧ (sw.2 : Int) % E.N ≠ 0) →
      ∃ box, d.DistributeSecret E sha3 secret pks t rnd = .ok box
        ∧ ((∀ s ∈ box.Shares, s.challenge ≠ some 0 ∧ s.response ≠ some 0) →
            VerifyDistributionShares E sha3 (some box) = .ok true)
        ∧ ((∃ s ∈ box.Shares, s.challenge = some 0 ∨ s.response = some 0) →
            VerifyDistributionShares E sha3 (some box) = .panic)
        ∧ List.Forall₂
            (Distributed L sha3 (List.map (fun v : Nat => (v : Int) % E.N) (rnd.take t)))
            ((initShares 0 pks).zip (rnd.drop t)) box.Shares) := by
  constructor
  · intro cs hlen hcs ws hws hgood
    exact distribute_verifies L sha3 d secret t n ht hn pks hpks hon cs hlen hcs ws hws hgood
  · intro rnd hrnd hcoef hgood
    rw [distributeSecret_eq L sha3 d secret t n ht hn pks hpks rnd hrnd]
    refine distribute_verifies L sha3 d secret t n ht hn pks hpks hon _ ?_ ?_ (rnd.drop t)
      (by rw [List.length_drop]; omega) hgood
    · rw [List.length_map, List.length_take]
      omega
    · intro a ha
      obtain ⟨v, hv, rfl⟩ := List.mem_map.1 ha
      have h0 := Int.emod_nonneg (v : Int) (ne_of_gt (order_pos L))
      have h1 := hcoef v hv
      exact ⟨by omega, Int.emod_lt_of_pos _ (order_pos L)⟩

theorem modelPks_onCurve : ∀ pk ∈ modelPks, modelLaws.OnCurve pk.point := by
  intro pk hpk
  simp only [modelPks, List.mem_cons, List.mem_singleton, List.not_mem_nil, or_false] at hpk
  rcases hpk with rfl | rfl | rfl
  · exact ⟨(3 : Int) • modelLaws.g, by decide⟩
  · exact ⟨(4 : Int) • modelLaws.g, by decide⟩
  · exact ⟨(5 : Int) • modelLaws.g, by decide⟩

/-- On the model hash a distributed share has a non-zero challenge, and a non-zero
response when `P(i) mod q` and the nonce are small and the first does not divide the
second. -/
theorem model_nonzero (cs : List Int) (sw : Share × Nat) (s1 : Share)
    (h : Distributed modelLaws modelHasher cs sw s1)
    (hp : 0 ≤ polySum sw.1.Position 0 cs % modelCurve.N
      ∧ polySum sw.1.Position 0 cs % modelCurve.N ≤ 1000)
    (hw : (sw.2 : Int) % modelCurve.N ≤ 1000)
    (hnd : ¬ (polySum sw.1.Position 0 cs % modelCurve.N ∣ (sw.2 : Int) % modelCurve.N)) :
    s1.challenge ≠ some 0 ∧ s1.response ≠ some 0 := by
  obtain ⟨_, _, k, c, r, _, _, hc, hr, ⟨vs, hvs⟩, hresp, _, _⟩ := h
  have hrange := modelHasher_range (modelCurve.N : Int) (by decide) vs
  rw [← hvs] at hrange
  have hN : (1000000 : Int) < modelCurve.N := by decide
  have hw0 := Int.emod_nonneg (sw.2 : Int) (ne_of_gt (order_pos modelLaws))
  rw [hc, hr]
  refine ⟨fun h0 => ?_, fun h0 => ?_⟩
  · have := Option.some.inj h0
    omega
  · have hr0 : r = 0 := Option.some.inj h0
    rw [hresp] at hr0
    have hpc : polySum sw.1.Position 0 cs % modelCurve.N * c ≤ 1000 * 255 :=
      mul_le_mul hp.2 hrange.2 (by omega) (by norm_num)
    have hpc0 : 0 ≤ polySum sw.1.Position 0 cs % modelCurve.N * c :=
      mul_nonneg hp.1 (by omega)
    refine response_ne_zero _ _ _ c hpc0 (by omega) ?_ (by rw [abs_lt]; constructor <;> omega)
      hr0
    intro heq
    exact hnd ⟨c, heq⟩

theorem C2_distribution_verifies_witness :
    ∃ box, (NewDealer modelKey).distribute modelCurve modelHasher 42 (initShares 0 modelPks)
        ((2 : Nat) : Int) ⟨[1, 2]⟩ [10, 11, 12] = .ok box
      ∧ VerifyDistributionShares modelCurve modelHasher (some box) = .ok true := by
  obtain ⟨box, hbox, hacc, _, hfor⟩ :=
    (C2_distribution_verifies modelCurve modelLaws modelHasher (NewDealer modelKey) 42 2 3
      (by decide) (by decide) modelPks rfl modelPks_onCurve).1 [1, 2] rfl (by decide)
      [10, 11, 12] (by decide) (by decide)
  refine ⟨box, hbox, hacc (fun s hs => ?_)⟩
  obtain ⟨sw, hsw, hrel⟩ := forall2_mem_right hfor s hs
  have hall : ∀ sw ∈ (initShares 0 modelPks).zip ([10, 11, 12] : List Nat),
      (0 ≤ polySum sw.1.Position 0 [1, 2] % modelCurve.N
        ∧ polySum sw.1.Position 0 [1, 2] % modelCurve.N ≤ 1000)
      ∧ (sw.2 : Int) % modelCurve.N ≤ 1000
      ∧ ¬ (polySum sw.1.Position 0 [1, 2] % modelCurve.N ∣ (sw.2 : Int) % modelCurve.N) := by
    decide
  exact model_nonzero [1, 2] sw s hrel (hall sw hsw).1 (hall sw hsw).2.1 (hall sw hsw).2.2

/-! ## Failures: invalid thresholds and malformed boxes -/

/-- C7. Evaluation at thresholds below 1: `DistributeSecret` with threshold `0` passes the
guard `len(pks) < threshold`, builds an empty polynomial and panics on
`poly.coefficients[0]`; with threshold `-1` it panics in `make` of `InitPolynomial`. No
`error` is returned. -/
theorem C7_threshold_below_one_panics (E : Curve) (sha3 : Hasher) (d : Dealer) (secret : Int)
    (pks : List PublicKey) (rnd : List Nat) :
    d.DistributeSecret E sha3 secret pks 0 rnd = .panic
    ∧ d.DistributeSecret E sha3 secret pks (-1) rnd = .panic := by
  have h0 : ¬ ((pks.length : Int) < 0) := by omega
  have h1 : ¬ ((pks.length : Int) < -1) := by omega
  have hw0 : wrap64 (wrap64 ((0 : Int) - 1) + 1) = 0 := by decide
  have hw1 : wrap64 (wrap64 ((-1 : Int) - 1) + 1) = -1 := by decide
  constructor
  · simp only [Dealer.DistributeSecret, if_neg h0, InitPolynomial, hw0]
    simp only [lt_self_iff_false, if_false, Int.toNat_zero, drawCoefficients,
      Dealer.distribute, commitments, bind_ok]
    cases pks with
    | nil => simp [initShares, distributeShares]
    | cons pk rest => simp [initShares, distributeShares, Polynomial.GetValue]
  · simp only [Dealer.DistributeSecret, if_neg h1, InitPolynomial, hw1]
    simp

/-- C9. Evaluation at a malformed box: with an empty `Commitments` list and a non-empty
`Shares` list the guard `len(Shares) < len(Commitments)` passes and the read of
`Cj[0]` panics; no boolean is returned. -/
theorem C9_empty_commitments_panics (E : Curve) (sha3 : Hasher) (share : Share)
    (rest : List Share) (U : Int) :
    VerifyDistributionShares E sha3
      (some { Commitments := [], Shares := share :: rest, U := U }) = .panic := by
  simp [VerifyDistributionShares, verifyShares]

/-! ## Positions are not checked -/

theorem distributed_positions {E : Curve} {L : E.Laws} {sha3 : Hasher} {cs : List Int}
    {sws : List (Share × Nat)} {shares1 : List Share}
    (h : List.Forall₂ (Distributed L sha3 cs) sws shares1) :
    shares1.map (fun s => s.Position) = sws.map (fun sw => sw.1.Position) := by
  induction h with
  | nil => rfl
  | cons hd _ ih => simp [hd.2.1, ih]

theorem zip_positions : ∀ (shares : List Share) (rnd : List Nat),
    shares.length ≤ rnd.length →
    (shares.zip rnd).map (fun sw => sw.1.Position) = shares.map (fun s => s.Position) := by
  intro shares
  induction shares with
  | nil => intro rnd _; simp
  | cons s rest ih =>
    intro rnd hlen
    cases rnd with
    | nil => simp at hlen
    | cons w rnd1 => simp [ih rnd1 (by simpa using hlen)]

/-- A box that `distribute` builds for shares at arbitrary positions, and its
verification. -/
theorem distribute_any_positions {E : Curve} (L : E.Laws) (sha3 : Hasher) (d : Dealer)
    (secret : Int) (threshold : Int) (ht : 0 ≤ threshold) (a0 : Int) (as : List Int)
    (hcs : ∀ a ∈ a0 :: as, 1 ≤ a ∧ a < E.N)
    (shares : List Share) (rnd : List Nat) (hon : ∀ s ∈ shares, L.OnCurve s.PK.point)
    (hlen : shares.length ≤ rnd.length) (hts : (a0 :: as).length ≤ shares.length)
    (hgood : ∀ sw ∈ shares.zip rnd, Good E (a0 :: as) sw)
    (hpos : ∀ s ∈ shares, as = [] ∨ s.Position % E.N ≠ 0) :
    ∃ box, d.distribute E sha3 secret shares threshold ⟨a0 :: as⟩ rnd = .ok box
      ∧ box.Commitments = (a0 :: as).map (fun a => L.enc (a • L.h))
      ∧ box.Shares.map (fun s => s.Position) = shares.map (fun s => s.Position)
      ∧ ((∀ s ∈ box.Shares, s.challenge ≠ some 0 ∧ s.response ≠ some 0) →
          VerifyDistributionShares E sha3 (some box) = .ok true)
      ∧ ((∃ s ∈ box.Shares, s.challenge = some 0 ∨ s.response = some 0) →
          VerifyDistributionShares E sha3 (some box) = .panic)
      ∧ List.Forall₂ (Distributed L sha3 (a0 :: as)) (shares.zip rnd) box.Shares := by
  have hcs0 : ∀ a ∈ a0 :: as, 0 ≤ a ∧ a < E.N := fun a ha =>
    ⟨by have := (hcs a ha).1; omega, (hcs a ha).2⟩
  obtain ⟨Cs, shares1, hCs, h1, h2⟩ := (distribute_spec L sha3 d secret threshold ht a0 as
    hcs0 shares rnd hon hlen).1 ⟨by have := (hcs a0 (by simp)).1; omega, hgood⟩
  rw [commitments_ok L (a0 :: as) hcs] at hCs
  have hCs' := (Res.ok.inj hCs).symm
  subst hCs'
  have hl : shares1.length = shares.length := by
    rw [← h2.length_eq, List.length_zip]
    omega
  have hlt : ¬ (shares1.length < ((a0 :: as).map (fun a => L.enc (a • L.h))).length) := by
    rw [List.length_map, hl]; omega
  obtain ⟨v1, v2⟩ := verifyShares_distributed L sha3 a0 as hcs _ shares1 h2
    (fun sw hsw => hpos sw.1 (List.of_mem_zip hsw).1)
  refine ⟨_, h1, rfl, ?_, ?_, ?_, h2⟩
  · rw [distributed_positions h2, zip_positions shares rnd hlen]
  · intro hall
    simp only [VerifyDistributionShares, if_neg hlt]
    exact v1 hall
  · intro hex
    simp only [VerifyDistributionShares, if_neg hlt]
    exact v2 hex

theorem modelKey_onCurve : modelLaws.OnCurve (⟨3, 3⟩ : PublicKey).point :=
  ⟨(3 : Int) • modelLaws.g, by decide⟩

/-- On the model hash a box of distributed shares has non-zero challenges and responses
when each `P(i) mod q` and nonce are small and the first does not divide the second. -/
theorem model_all_nonzero (cs : List Int) (sws : List (Share × Nat)) (shares1 : List Share)
    (hfor : List.Forall₂ (Distributed modelLaws modelHasher cs) sws shares1)
    (hall : ∀ sw ∈ sws,
      (0 ≤ polySum sw.1.Position 0 cs % modelCurve.N
        ∧ polySum sw.1.Position 0 cs % modelCurve.N ≤ 1000)
      ∧ (sw.2 : Int) % modelCurve.N ≤ 1000
      ∧ ¬ (polySum sw.1.Position 0 cs % modelCurve.N ∣ (sw.2 : Int) % modelCurve.N)) :
    ∀ s ∈ shares1, s.challenge ≠ some 0 ∧ s.response ≠ some 0 := by
  intro s hs
  obtain ⟨sw, hsw, hrel⟩ := forall2_mem_right hfor s hs
  exact model_nonzero cs sw s hrel (hall sw hsw).1 (hall sw hsw).2.1 (hall sw hsw).2.2

/-- C8, as stated, fails: the box that `distribute` builds for two shares that both carry
`Position` 1, and the box it builds for one share at `Position` 0, are accepted by
`VerifyDistributionShares`. -/
theorem C8_counterexample :
    (∃ box, (NewDealer modelKey).distribute modelCurve modelHasher 42
        [modelShare1, modelShare1] 2 ⟨[1, 2]⟩ [10, 11] = .ok box
      ∧ box.Shares.map (fun s => s.Position) = [1, 1]
      ∧ VerifyDistributionShares modelCurve modelHasher (some box) = .ok true)
    ∧ (∃ box, (NewDealer modelKey).distribute modelCurve modelHasher 42
        [modelShare0] 1 ⟨[4]⟩ [10] = .ok box
      ∧ box.Shares.map (fun s => s.Position) = [0]
      ∧ VerifyDistributionShares modelCurve modelHasher (some box) = .ok true) := by
  constructor
  · obtain ⟨box, hbox, _, hpos, hacc, _, hfor⟩ :=
      distribute_any_positions modelLaws modelHasher (NewDealer modelKey) 42 2 (by decide) 1
        [2] (by decide) [modelShare1, modelShare1] [10, 11]
        (by intro s hs; simp at hs; subst hs; exact modelKey_onCurve)
        (by decide) (by decide) (by decide) (by decide)
    exact ⟨box, hbox, hpos, hacc (model_all_nonzero _ _ _ hfor (by decide))⟩
  · obtain ⟨box, hbox, _, hpos, hacc, _, hfor⟩ :=
      distribute_any_positions modelLaws modelHasher (NewDealer modelKey) 42 1 (by decide) 4
        [] (by decide) [modelShare0] [10]
        (by intro s hs; simp at hs; subst hs; exact modelKey_onCurve)
        (by decide) (by decide) (by decide) (by decide)
    exact ⟨box, hbox, hpos, hacc (model_all_nonzero _ _ _ hfor (by decide))⟩

/-- C8, amended. `VerifyDistributionShares` returns false for a nil box and for a box with
fewer shares than commitments. It does not inspect positions: for coefficients in
`[1, q)`, a box that `distribute` builds for shares at arbitrary positions (repeated
ones included, and zero when there is one commitment) keeps these positions, and is
accepted when its challenges and responses are non-zero. -/
theorem C8_verify_ignores_positions (E : Curve) (L : E.Laws) (sha3 : Hasher) :
    VerifyDistributionShares E sha3 none = .ok false
    ∧ (∀ box : DistributionSharesBox, box.Shares.length < box.Commitments.length →
        VerifyDistributionShares E sha3 (some box) = .ok false)
    ∧ (∀ (d : Dealer) (secret threshold a0 : Int) (as : List Int) (shares : List Share)
        (rnd : List Nat), 0 ≤ threshold → (∀ a ∈ a0 :: as, 1 ≤ a ∧ a < E.N) →
        (∀ s ∈ shares, L.OnCurve s.PK.point) → shares.length ≤ rnd.length →
        (a0 :: as).length ≤ shares.length →
        (∀ sw ∈ shares.zip rnd,
          polySum sw.1.Position 0 (a0 :: as) % E.N ≠ 0 ∧ (sw.2 : Int) % E.N ≠ 0) →
        (∀ s ∈ shares, as = [] ∨ s.Position % E.N ≠ 0) →
        ∃ box, d.distribute E sha3 secret shares threshold ⟨a0 :: as⟩ rnd = .ok box
          ∧ box.Shares.map (fun s => s.Position) = shares.map (fun s => s.Position)
          ∧ ((∀ s ∈ box.Shares, s.challenge ≠ some 0 ∧ s.response ≠ some 0) →
              VerifyDistributionShares E sha3 (some box) = .ok true)
          ∧ List.Forall₂ (Distributed L sha3 (a0 :: as)) (shares.zip rnd) box.Shares) := by
  refine ⟨rfl, ?_, ?_⟩
  · intro box h
    simp [VerifyDistributionShares, h]
  · intro d secret threshold a0 as shares rnd ht hcs hon hlen hts hgood hpos
    obtain ⟨box, hbox, _, hp, hacc, _, hfor⟩ := distribute_any_positions L sha3 d secret
      threshold ht a0 as hcs shares rnd hon hlen hts hgood hpos
    exact ⟨box, hbox, hp, hacc, hfor⟩

theorem C8_verify_ignores_positions_witness :
    ∃ box, (NewDealer modelKey).distribute modelCurve modelHasher 7
        [modelShare1, modelShare0, modelShare1] 1 ⟨[4]⟩ [10, 11, 13] = .ok box
      ∧ box.Shares.map (fun s => s.Position) = [1, 0, 1]
      ∧ VerifyDistributionShares modelCurve modelHasher (some box) = .ok true := by
  obtain ⟨box, hbox, hpos, hacc, hfor⟩ :=
    (C8_verify_ignores_positions modelCurve modelLaws modelHasher).2.2 (NewDealer modelKey) 7
      1 4 [] [modelShare1, modelShare0, modelShare1] [10, 11, 13] (by decide) (by decide)
      (by
        intro s hs
        simp only [List.mem_cons, List.mem_singleton, List.not_mem_nil, or_false] at hs
        rcases hs with rfl | rfl | rfl <;> exact modelKey_onCurve)
      (by decide) (by decide) (by decide) (by decide)
  exact ⟨box, hbox, hpos, hacc (model_all_nonzero _ _ _ hfor (by decide))⟩

/-! ## Identity points in `DLEQVerify` -/

/-- The honest transcript for a statement whose first base is the identity `(0, 0)` has
`H1 = (0, 0)` and is accepted when its scalars are non-zero. -/
theorem identity_transcript_accepted {E : Curve} (L : E.Laws) (sha3 : Hasher) (g2 : L.Grp)
    (alpha w : Int) (hα : 1 ≤ alpha ∧ alpha < E.N) (hw : 1 ≤ w ∧ w < E.N) :
    ∃ d c r, NewDLEQ E ⟨some 0, some 0⟩ none (L.enc g2) none w alpha = .ok d
      ∧ d.H1 = ⟨some 0, some 0⟩
      ∧ d.ChallengeAndResponse E sha3 = .ok (c, r)
      ∧ (∃ vs, c = HashMod E.N sha3 vs) ∧ r = Response w alpha c E.N
      ∧ (c ≠ 0 → r ≠ 0 →
          DLEQVerify E sha3 ⟨some 0, some 0⟩ ⟨some 0, some 0⟩ (L.enc g2) d.H2 c r
            = .ok true) := by
  obtain ⟨c, r, hcr, hvs, hr, _, _, hacc, _⟩ := dleq_complete L sha3 (0 : L.Grp) g2
    { G1 := L.enc 0, H1 := L.enc (alpha • (0 : L.Grp)), G2 := L.enc g2,
      H2 := L.enc (alpha • g2), w := w, alpha := alpha, r := none } rfl rfl rfl rfl hw
  have hnew := newDLEQ_ok L (0 : L.Grp) g2 w alpha hα
  rw [smul_zero, enc_zero L] at hnew
  simp only [smul_zero, enc_zero L] at hcr hacc
  exact ⟨_, c, r, hnew, rfl, hcr, hvs, hr, hacc⟩

/-- C10, as stated, fails: with `G1` and `H1` the identity `(0, 0)` the honest transcript
of `NewDLEQ((0,0), nil, G2, nil, 7, 5)` is accepted by `DLEQVerify`. -/
theorem C10_counterexample :
    ∃ d c r, NewDLEQ modelCurve ⟨some 0, some 0⟩ none G2 none 7 5 = .ok d
      ∧ d.H1 = ⟨some 0, some 0⟩
      ∧ d.ChallengeAndResponse modelCurve modelHasher = .ok (c, r)
      ∧ DLEQVerify modelCurve modelHasher ⟨some 0, some 0⟩ ⟨some 0, some 0⟩ G2 d.H2 c r
        = .ok true := by
  obtain ⟨d, c, r, hd, hH1, hcr, ⟨vs, hc⟩, hr, hacc⟩ :=
    identity_transcript_accepted modelLaws modelHasher modelLaws.h 5 7 (by decide) (by decide)
  rw [enc_h modelLaws] at hd hacc
  have hrange := modelHasher_range (modelCurve.N : Int) (by decide) vs
  rw [← hc] at hrange
  have hN : (2000 : Int) < modelCurve.N := by decide
  refine ⟨d, c, r, hd, hH1, hcr, hacc (by omega) ?_⟩
  rw [hr]
  exact response_ne_zero _ 7 5 c (by omega) (by omega) (by omega)
    (by rw [abs_lt]; constructor <;> omega)

/-- C10, amended. `DLEQVerify` has no identity check: for every point `G2` of the curve
and scalars `alpha`, `w` in `[1, q)`, `NewDLEQ((0,0), nil, G2, nil, w, alpha)` has
`H1 = (0, 0)`, and its transcript `(c, r)` is accepted by `DLEQVerify` on the statement
with `G1 = H1 = (0, 0)` when `c` and `r` are non-zero. -/
theorem C10_verify_accepts_identity (E : Curve) (L : E.Laws) (sha3 : Hasher) (P2 : Point)
    (alpha w : Int) (hP2 : L.OnCurve P2) (hα : 1 ≤ alpha ∧ alpha < E.N)
    (hw : 1 ≤ w ∧ w < E.N) :
    ∃ d c r, NewDLEQ E ⟨some 0, some 0⟩ none P2 none w alpha = .ok d
      ∧ d.H1 = ⟨some 0, some 0⟩
      ∧ d.ChallengeAndResponse E sha3 = .ok (c, r)
      ∧ (∃ vs, c = HashMod E.N sha3 vs) ∧ r = Response w alpha c E.N
      ∧ (c ≠ 0 → r ≠ 0 →
          DLEQVerify E sha3 ⟨some 0, some 0⟩ ⟨some 0, some 0⟩ P2 d.H2 c r = .ok true) := by
  obtain ⟨g2, rfl⟩ := hP2
  exact identity_transcript_accepted L sha3 g2 alpha w hα hw

theorem C10_verify_accepts_identity_witness :
    ∃ d c r, NewDLEQ modelCurve ⟨some 0, some 0⟩ none (G1 modelCurve) none 4 9 = .ok d
      ∧ d.H1 = ⟨some 0, some 0⟩
      ∧ d.ChallengeAndResponse modelCurve modelHasher = .ok (c, r)
      ∧ DLEQVerify modelCurve modelHasher ⟨some 0, some 0⟩ ⟨some 0, some 0⟩
          (G1 modelCurve) d.H2 c r = .ok true := by
  obtain ⟨d, c, r, hd, hH1, hcr, ⟨vs, hc⟩, hr, hacc⟩ :=
    C10_verify_accepts_identity modelCurve modelLaws modelHasher (G1 modelCurve) 9 4
      ⟨modelLaws.g, enc_g modelLaws⟩ (by decide) (by decide)
  have hrange := modelHasher_range (modelCurve.N : Int) (by decide) vs
  rw [← hc] at hrange
  have hN : (3000 : Int) < modelCurve.N := by decide
  refine ⟨d, c, r, hd, hH1, hcr, hacc (by omega) ?_⟩
  rw [hr]
  exact response_ne_zero _ 4 9 c (by omega) (by omega) (by omega)
    (by rw [abs_lt]; constructor <;> omega)

/-! ## Out-of-range proof scalars -/

/-- `DLEQVerify` reads the response through `Bytes`, which drops its sign. -/
theorem verify_neg_response (E : Curve) (hasher : Hasher) (P1 Q1 P2 Q2 : Point) (c r : Int) :
    DLEQVerify E hasher P1 Q1 P2 Q2 c (-r) = DLEQVerify E hasher P1 Q1 P2 Q2 c r := by
  unfold DLEQVerify
  rw [Bytes_neg]

/-- A verdict that `DLEQVerify` returns for a challenge outside `[0, q)` is false. -/
theorem verify_challenge_range (E : Curve) (hN : 0 < E.N) (hasher : Hasher)
    (P1 Q1 P2 Q2 : Point) (c r : Int) (hc : ¬ (0 ≤ c ∧ c < E.N)) (b : Bool)
    (h : DLEQVerify E hasher P1 Q1 P2 Q2 c r = .ok b) : b = false := by
  rw [DLEQVerify_eq] at h
  obtain ⟨a1, _, h1⟩ := bind_eq_ok h
  obtain ⟨a2, _, h2⟩ := bind_eq_ok h1
  obtain ⟨vs, _, h3⟩ := bind_eq_ok h2
  have hb := Res.ok.inj h3
  rw [← hb]
  have hN' : (0 : Int) < (E.N : Int) := by exact_mod_cast hN
  have h0 : 0 ≤ HashMod E.N hasher vs := Int.emod_nonneg _ (ne_of_gt hN')
  have hlt : HashMod E.N hasher vs < E.N := Int.emod_lt_of_pos _ hN'
  simp only [decide_eq_false_iff_not]
  intro heq
  exact hc ⟨by omega, by omega⟩

/-- C11, as stated, fails: the honest transcript `(c, r)` of
`NewDLEQ(G, nil, G2, nil, 7, 5)` has `r > 0`, and the proof `(c, -r)`, whose response
is not in `[0, q)`, is accepted by `DLEQVerify`. -/
theorem C11_counterexample :
    ∃ d c r, NewDLEQ modelCurve (G1 modelCurve) none G2 none 7 5 = .ok d
      ∧ d.ChallengeAndResponse modelCurve modelHasher = .ok (c, r)
      ∧ -r < 0
      ∧ DLEQVerify modelCurve modelHasher d.G1 d.H1 d.G2 d.H2 c (-r) = .ok true := by
  obtain ⟨c, r, hcr, ⟨vs, hc⟩, hr, _, hr1, hacc, _⟩ := dleq_complete modelLaws modelHasher
    modelLaws.g modelLaws.h
    { G1 := modelLaws.enc modelLaws.g, H1 := modelLaws.enc ((5 : Int) • modelLaws.g),
      G2 := modelLaws.enc modelLaws.h, H2 := modelLaws.enc ((5 : Int) • modelLaws.h),
      w := 7, alpha := 5, r := none } rfl rfl rfl rfl (by decide)
  have hnew := newDLEQ_ok modelLaws modelLaws.g modelLaws.h 7 5 (by decide)
  rw [enc_g modelLaws, enc_h modelLaws] at hnew
  have hrange := modelHasher_range (modelCurve.N : Int) (by decide) vs
  rw [← hc] at hrange
  have hN : (2000 : Int) < modelCurve.N := by decide
  have hr0 : r ≠ 0 := by
    rw [hr]
    exact response_ne_zero _ 7 5 c (by omega) (by omega) (by omega)
      (by rw [abs_lt]; constructor <;> omega)
  refine ⟨_, c, r, hnew, ?_, by omega, ?_⟩
  · rw [← enc_g modelLaws, ← enc_h modelLaws]
    exact hcr
  · rw [verify_neg_response]
    have := hacc (by omega) hr0
    simp only [enc_g modelLaws, enc_h modelLaws] at this ⊢
    exact this

/-- C11, amended. `DLEQVerify` does not check the range of the proof scalars. The response
is read through its absolute value, so `(c, -r)` has the verdict of `(c, r)`, and a
response outside `[0, q)` can be accepted. A verdict that is returned for a challenge
outside `[0, q)` is false. On points of the curve, a non-negative challenge or response
that is zero or not below `q` makes the call panic instead of returning false. -/
theorem C11_challenge_range_only (E : Curve) (L : E.Laws) (hasher : Hasher) :
    (∀ (P1 Q1 P2 Q2 : Point) (c r : Int),
      DLEQVerify E hasher P1 Q1 P2 Q2 c (-r) = DLEQVerify E hasher P1 Q1 P2 Q2 c r)
    ∧ (∀ (P1 Q1 P2 Q2 : Point) (c r : Int) (b : Bool), ¬ (0 ≤ c ∧ c < E.N) →
        DLEQVerify E hasher P1 Q1 P2 Q2 c r = .ok b → b = false)
    ∧ (∀ (P1 Q1 P2 Q2 : Point) (c r : Int), L.OnCurve P1 → L.OnCurve Q1 → L.OnCurve P2 →
        L.OnCurve Q2 → 0 ≤ c → 0 ≤ r → ¬ ((1 ≤ c ∧ c < E.N) ∧ (1 ≤ r ∧ r < E.N)) →
        DLEQVerify E hasher P1 Q1 P2 Q2 c r = .panic) := by
  refine ⟨verify_neg_response E hasher, ?_, ?_⟩
  · intro P1 Q1 P2 Q2 c r b hc h
    exact verify_challenge_range E L.prime.pos hasher P1 Q1 P2 Q2 c r hc b h
  · intro P1 Q1 P2 Q2 c r h1 h2 h3 h4 hc hr hbad
    obtain ⟨g1, rfl⟩ := h1
    obtain ⟨k1, rfl⟩ := h2
    obtain ⟨g2, rfl⟩ := h3
    obtain ⟨k2, rfl⟩ := h4
    exact verify_panic L hasher g1 k1 g2 k2 c r hc hr hbad

theorem C11_challenge_range_only_witness :
    DLEQVerify modelCurve modelHasher (G1 modelCurve) (G1 modelCurve) G2 G2 5
      (3 + modelCurve.N) = .panic :=
  (C11_challenge_range_only modelCurve modelLaws modelHasher).2.2 (G1 modelCurve)
    (G1 modelCurve) G2 G2 5 (3 + modelCurve.N) ⟨modelLaws.g, enc_g modelLaws⟩
    ⟨modelLaws.g, enc_g modelLaws⟩ ⟨modelLaws.h, enc_h modelLaws⟩
    ⟨modelLaws.h, enc_h modelLaws⟩ (by decide) (by decide) (by decide)

/-! ## Tampering with a box -/

/-- The verdict of the loop of `VerifyDistributionShares` on the first share decides
whether the loop goes on. -/
theorem verifyShares_cons (E : Curve) (hasher : Hasher) (Cj : List Point) (s : Share)
    (rest : List Share) :
    verifyShares E hasher Cj (s :: rest)
      = match verifyShares E hasher Cj [s] with
        | .ok true => verifyShares E hasher Cj rest
        | r => r := by
  cases Cj with
  | nil => simp [verifyShares]
  | cons C0 Cs =>
    cases C0 with
    | mk X Y =>
      cases X with
      | none => simp [verifyShares]
      | some x =>
        cases Y with
        | none => simp [verifyShares]
        | some y =>
          cases hsum : sumCommitments E s.Position 1 Cs ⟨some x, some y⟩ with
          | error e => simp [verifyShares, hsum]
          | panic => simp [verifyShares, hsum]
          | ok Xi =>
            cases hS : s.S with
            | none => simp [verifyShares, hsum, hS]
            | some S =>
              cases hc : s.challenge with
              | none => simp [verifyShares, hsum, hS, hc]
              | some c =>
                cases hr : s.response with
                | none => simp [verifyShares, hsum, hS, hc, hr]
                | some r =>
                  cases hv : DLEQVerify E hasher ⟨some Hx, some Hy⟩ Xi s.PK.point S c r with
                  | error e => simp [verifyShares, hsum, hS, hc, hr, hv]
                  | panic => simp [verifyShares, hsum, hS, hc, hr, hv]
                  | ok b => cases b <;> simp [verifyShares, hsum, hS, hc, hr, hv]

theorem verifyShares_append_true (E : Curve) (hasher : Hasher) (Cj : List Point) :
    ∀ (l1 : List Share) (s : Share) (l2 : List Share),
      verifyShares E hasher Cj (l1 ++ s :: l2) = .ok true →
      verifyShares E hasher Cj l1 = .ok true ∧ verifyShares E hasher Cj [s] = .ok true
        ∧ verifyShares E hasher Cj l2 = .ok true := by
  intro l1
  induction l1 with
  | nil =>
    intro s l2 h
    rw [List.nil_append, verifyShares_cons] at h
    cases hs : verifyShares E hasher Cj [s] with
    | ok b =>
      cases b with
      | true => rw [hs] at h; exact ⟨rfl, rfl, h⟩
      | false => rw [hs] at h; simp at h
    | error e => rw [hs] at h; simp at h
    | panic => rw [hs] at h; simp at h
  | cons a l1 ih =>
    intro s l2 h
    rw [List.cons_append, verifyShares_cons] at h
    cases ha : verifyShares E hasher Cj [a] with
    | ok b =>
      cases b with
      | true =>
        rw [ha] at h
        obtain ⟨h1, h2, h3⟩ := ih s l2 h
        refine ⟨?_, h2, h3⟩
        rw [verifyShares_cons, ha]
        exact h1
      | false => rw [ha] at h; simp at h
    | error e => rw [ha] at h; simp at h
    | panic => rw [ha] at h; simp at h

theorem verifyShares_append_of (E : Curve) (hasher : Hasher) (Cj : List Point) :
    ∀ (l1 : List Share) (s : Share) (l2 : List Share) (v : Res Bool),
      verifyShares E hasher Cj l1 = .ok true →
      (match verifyShares E hasher Cj [s] with
        | .ok true => verifyShares E hasher Cj l2
        | r => r) = v →
      verifyShares E hasher Cj (l1 ++ s :: l2) = v := by
  intro l1
  induction l1 with
  | nil =>
    intro s l2 v _ h
    rw [List.nil_append, verifyShares_cons]
    exact h
  | cons a l1 ih =>
    intro s l2 v h1 h
    rw [verifyShares_cons] at h1
    rw [List.cons_append, verifyShares_cons]
    cases ha : verifyShares E hasher Cj [a] with
    | ok b =>
      cases b with
      | true => rw [ha] at h1; exact ih s l2 v h1 h
      | false => rw [ha] at h1; simp at h1
    | error e => rw [ha] at h1; simp at h1
    | panic => rw [ha] at h1; simp at h1

/-- The verdict of the loop on one share, for a first commitment without nil
coordinates, a computed `X_i` and a complete share. -/
theorem verifyShares_single (E : Curve) (hasher : Hasher) (x y : Int) (Cs : List Point)
    (s : Share) (Xi S : Point) (c r : Int)
    (hsum : sumCommitments E s.Position 1 Cs ⟨some x, some y⟩ = .ok Xi)
    (hS : s.S = some S) (hc : s.challenge = some c) (hr : s.response = some r) :
    verifyShares E hasher (⟨some x, some y⟩ :: Cs) [s]
      = (DLEQVerify E hasher ⟨some Hx, some Hy⟩ Xi s.PK.point S c r).bind fun ok =>
          .ok ok := by
  cases hv : DLEQVerify E hasher ⟨some Hx, some Hy⟩ Xi s.PK.point S c r with
  | error e => simp [verifyShares, hsum, hS, hc, hr, hv]
  | panic => simp [verifyShares, hsum, hS, hc, hr, hv]
  | ok b => cases b <;> simp [verifyShares, hsum, hS, hc, hr, hv]

theorem verifyShares_single_true (E : Curve) (hasher : Hasher) (Cj : List Point) (s : Share)
    (h : verifyShares E hasher Cj [s] = .ok true) :
    ∃ x y Cs Xi S c r, Cj = ⟨some x, some y⟩ :: Cs
      ∧ sumCommitments E s.Position 1 Cs ⟨some x, some y⟩ = .ok Xi
      ∧ s.S = some S ∧ s.challenge = some c ∧ s.response = some r
      ∧ DLEQVerify E hasher ⟨some Hx, some Hy⟩ Xi s.PK.point S c r = .ok true := by
  cases Cj with
  | nil => simp [verifyShares] at h
  | cons C0 Cs =>
    cases C0 with
    | mk X Y =>
      cases X with
      | none => simp [verifyShares] at h
      | some x =>
        cases Y with
        | none => simp [verifyShares] at h
        | some y =>
          cases hsum : sumCommitments E s.Position 1 Cs ⟨some x, some y⟩ with
          | error e => simp [verifyShares, hsum] at h
          | panic => simp [verifyShares, hsum] at h
          | ok Xi =>
            cases hS : s.S with
            | none => simp [verifyShares, hsum, hS] at h
            | some S =>
              cases hc : s.challenge with
              | none => simp [verifyShares, hsum, hS, hc] at h
              | some c =>
                cases hr : s.response with
                | none => simp [verifyShares, hsum, hS, hc, hr] at h
                | some r =>
                  refine ⟨x, y, Cs, Xi, S, c, r, rfl, hsum, rfl, rfl, rfl, ?_⟩
                  rw [verifyShares_single E hasher x y Cs s Xi S c r hsum hS hc hr] at h
                  cases hv : DLEQVerify E hasher ⟨some Hx, some Hy⟩ Xi s.PK.point S c r with
                  | error e => rw [hv] at h; simp at h
                  | panic => rw [hv] at h; simp at h
                  | ok b =>
                    rw [hv] at h
                    simp only [bind_ok] at h
                    exact h

/-- A challenge `c > 0` of an accepted proof replaced by `-c` is rejected. -/
theorem verify_neg_challenge (E : Curve) (hN : 0 < E.N) (hasher : Hasher)
    (P1 Q1 P2 Q2 : Point) (c r : Int) (hc : 0 < c) (b : Bool)
    (h : DLEQVerify E hasher P1 Q1 P2 Q2 c r = .ok b) :
    DLEQVerify E hasher P1 Q1 P2 Q2 (-c) r = .ok false := by
  have hN' : (0 : Int) < (E.N : Int) := by exact_mod_cast hN
  have hrec : ∀ P Q, recomputed E P Q (-c) r = recomputed E P Q c r := by
    intro P Q
    unfold recomputed
    rw [Bytes_neg]
  rw [DLEQVerify_eq] at h ⊢
  rw [hrec, hrec]
  obtain ⟨a1, ha1, h1⟩ := bind_eq_ok h
  obtain ⟨a2, ha2, h2⟩ := bind_eq_ok h1
  obtain ⟨vs, hvs, _⟩ := bind_eq_ok h2
  rw [ha1, ha2]
  simp only [bind_ok, hvs]
  have h0 : 0 ≤ HashMod E.N hasher vs := Int.emod_nonneg _ (ne_of_gt hN')
  congr 1
  simp only [decide_eq_false_iff_not]
  omega

/-- What tampering with one share of an accepted box does: a challenge `c > 0` replaced by
`-c` is rejected, and any verdict returned for a challenge outside `[0, q)` is false;
a response `r` replaced by `-r` stays accepted; with a single commitment any other
`Position` stays accepted. -/
theorem tamper_verdicts (E : Curve) (hN : 0 < E.N) (sha3 : Hasher)
    (box : DistributionSharesBox) (l1 l2 : List Share) (s : Share)
    (hsplit : box.Shares = l1 ++ s :: l2)
    (hacc : VerifyDistributionShares E sha3 (some box) = .ok true) :
    (∀ c : Int, s.challenge = some c → 0 < c →
      VerifyDistributionShares E sha3
        (some { box with Shares := l1 ++ { s with challenge := some (-c) } :: l2 })
          = .ok false)
    ∧ (∀ (c1 : Int) (b : Bool), ¬ (0 ≤ c1 ∧ c1 < E.N) →
      VerifyDistributionShares E sha3
        (some { box with Shares := l1 ++ { s with challenge := some c1 } :: l2 }) = .ok b →
      b = false)
    ∧ (∀ r : Int, s.response = some r →
      VerifyDistributionShares E sha3
        (some { box with Shares := l1 ++ { s with response := some (-r) } :: l2 })
          = .ok true)
    ∧ (∀ p1 : Int, box.Commitments.length = 1 →
      VerifyDistributionShares E sha3
        (some { box with Shares := l1 ++ { s with Position := p1 } :: l2 }) = .ok true) := by
  have hlen : ¬ (box.Shares.length < box.Commitments.length) := by
    intro h
    simp [VerifyDistributionShares, h] at hacc
  have hv : verifyShares E sha3 box.Commitments (l1 ++ s :: l2) = .ok true := by
    simp only [VerifyDistributionShares, if_neg hlen] at hacc
    rw [← hsplit]; exact hacc
  obtain ⟨h1, hs, h2⟩ := verifyShares_append_true E sha3 box.Commitments l1 s l2 hv
  obtain ⟨x, y, Cs, Xi, S, c, r0, hCj, hsum, hS, hc, hr, hd⟩ :=
    verifyShares_single_true E sha3 box.Commitments s hs
  have hlen2 : ∀ s1 : Share, ¬ ((l1 ++ s1 :: l2).length < box.Commitments.length) := by
    intro s1
    rw [hsplit] at hlen
    simpa using hlen
  refine ⟨?_, ?_, ?_, ?_⟩
  · intro c' hc' hpos
    have hcc : c = c' := by rw [hc] at hc'; exact Option.some.inj hc'
    subst hcc
    simp only [VerifyDistributionShares, if_neg (hlen2 _)]
    refine verifyShares_append_of E sha3 box.Commitments l1 _ l2 _ h1 ?_
    have : verifyShares E sha3 box.Commitments [{ s with challenge := some (-c) }]
        = .ok false := by
      rw [hCj, verifyShares_single E sha3 x y Cs { s with challenge := some (-c) } Xi S (-c) r0
        hsum hS rfl hr]
      show (DLEQVerify E sha3 ⟨some Hx, some Hy⟩ Xi s.PK.point S (-c) r0).bind _ = _
      rw [verify_neg_challenge E hN sha3 _ _ _ _ c r0 hpos true hd]
      rfl
    rw [this]
  · intro c1 b hc1 hres
    simp only [VerifyDistributionShares, if_neg (hlen2 _)] at hres
    have hrun := verifyShares_append_of E sha3 box.Commitments l1
      { s with challenge := some c1 } l2 _ h1 rfl
    rw [hrun] at hres
    have hsingle : verifyShares E sha3 box.Commitments [{ s with challenge := some c1 }]
        = (DLEQVerify E sha3 ⟨some Hx, some Hy⟩ Xi s.PK.point S c1 r0).bind fun ok =>
            .ok ok := by
      rw [hCj]
      exact verifyShares_single E sha3 x y Cs { s with challenge := some c1 } Xi S c1 r0
        hsum hS rfl hr
    rw [hsingle] at hres
    cases hv1 : DLEQVerify E sha3 ⟨some Hx, some Hy⟩ Xi s.PK.point S c1 r0 with
    | error e => rw [hv1] at hres; simp at hres
    | panic => rw [hv1] at hres; simp at hres
    | ok b1 =>
      have hb1 := verify_challenge_range E hN sha3 _ _ _ _ c1 r0 hc1 b1 hv1
      subst hb1
      rw [hv1] at hres
      simp only [bind_ok] at hres
      exact (Res.ok.inj hres).symm
  · intro r hrr
    have hrr0 : r0 = r := by rw [hr] at hrr; exact Option.some.inj hrr
    subst hrr0
    simp only [VerifyDistributionShares, if_neg (hlen2 _)]
    refine verifyShares_append_of E sha3 box.Commitments l1 _ l2 _ h1 ?_
    have : verifyShares E sha3 box.Commitments [{ s with response := some (-r0) }]
        = .ok true := by
      rw [hCj, verifyShares_single E sha3 x y Cs { s with response := some (-r0) } Xi S c (-r0)
        hsum hS hc rfl]
      show (DLEQVerify E sha3 ⟨some Hx, some Hy⟩ Xi s.PK.point S c (-r0)).bind _ = _
      rw [verify_neg_response, hd]
      rfl
    rw [this]; exact h2
  · intro p1 hone
    simp only [VerifyDistributionShares, if_neg (hlen2 _)]
    refine verifyShares_append_of E sha3 box.Commitments l1 _ l2 _ h1 ?_
    have hCs : Cs = [] := by
      rw [hCj] at hone
      simpa using hone
    subst hCs
    have hXi : Xi = ⟨some x, some y⟩ := by
      simp only [sumCommitments] at hsum
      exact (Res.ok.inj hsum).symm
    have : verifyShares E sha3 box.Commitments [{ s with Position := p1 }] = .ok true := by
      rw [hCj, verifyShares_single E sha3 x y [] { s with Position := p1 } Xi S c r0
        (by rw [hXi]; rfl) hS hc hr]
      show (DLEQVerify E sha3 ⟨some Hx, some Hy⟩ Xi s.PK.point S c r0).bind _ = _
      rw [hd]
      rfl
    rw [this]; exact h2

/-- An honest one-share box on the model curve, its share and the share's scalars. -/
theorem model_honest_box :
    ∃ (box : DistributionSharesBox) (s : Share) (c r : Int),
      (NewDealer modelKey).distribute modelCurve modelHasher 42 [modelShare1] 1 ⟨[4]⟩ [10]
        = .ok box
      ∧ box.Shares = [] ++ s :: [] ∧ box.Commitments.length = 1
      ∧ s.Position = 1 ∧ s.challenge = some c ∧ 0 < c ∧ s.response = some r ∧ 0 < r
      ∧ VerifyDistributionShares modelCurve modelHasher (some box) = .ok true := by
  obtain ⟨box, hbox, hC, hpos, hacc, _, hfor⟩ :=
    distribute_any_positions modelLaws modelHasher (NewDealer modelKey) 42 1 (by decide) 4
      [] (by decide) [modelShare1] [10]
      (by intro s hs; simp at hs; subst hs; exact modelKey_onCurve)
      (by decide) (by decide) (by decide) (by decide)
  have hnz := model_all_nonzero _ _ _ hfor (by decide)
  have hver := hacc hnz
  generalize hsh : box.Shares = shares at hfor hnz hpos
  cases hfor with
  | cons hd htl =>
    cases htl
    obtain ⟨_, hp, k, c, r, _, _, hc, hr, ⟨vs, hvs⟩, hresp, _, _⟩ := hd
    have hrange := modelHasher_range (modelCurve.N : Int) (by decide) vs
    rw [← hvs] at hrange
    have hr0 : 0 ≤ r := by rw [hresp]; exact response_nonneg modelLaws _ _ _
    have hnz1 := hnz _ (List.mem_singleton.2 rfl)
    rw [hc, hr] at hnz1
    have hrne : r ≠ 0 := fun h => hnz1.2 (by rw [h])
    refine ⟨box, _, c, r, hbox, hsh, by rw [hC]; rfl, hp, hc, by omega, hr, by omega, hver⟩

/-- C12, as stated, fails: in an honest box with one commitment, replacing the share's
response `r > 0` by `-r`, or its `Position` 1 by 2, leaves the box accepted. -/
theorem C12_counterexample :
    ∃ (box : DistributionSharesBox) (s : Share) (r : Int),
      (NewDealer modelKey).distribute modelCurve modelHasher 42 [modelShare1] 1 ⟨[4]⟩ [10]
        = .ok box
      ∧ box.Shares = [s] ∧ s.response = some r ∧ s.Position = 1
      ∧ -r ≠ r
      ∧ VerifyDistributionShares modelCurve modelHasher
          (some { box with Shares := [{ s with response := some (-r) }] }) = .ok true
      ∧ VerifyDistributionShares modelCurve modelHasher
          (some { box with Shares := [{ s with Position := 2 }] }) = .ok true := by
  obtain ⟨box, s, c, r, hbox, hsh, hone, hpos, _, _, hr, hr0, hacc⟩ := model_honest_box
  have ht := tamper_verdicts modelCurve (by decide) modelHasher box [] [] s hsh hacc
  exact ⟨box, s, r, hbox, hsh, hr, hpos, by omega, ht.2.2.1 r hr, ht.2.2.2 2 hone⟩

/-- C12, amended. For a box that `VerifyDistributionShares` accepts (an honest one in
particular): replacing a share's challenge `c > 0` by `-c` makes it return false, and
no replacement of the challenge by a value outside `[0, q)` is accepted; replacing a
response `r` by `-r`, or, when there is a single commitment, a `Position` by any other
value, leaves the box accepted. -/
theorem C12_tamper_detection (E : Curve) (hN : 0 < E.N) (sha3 : Hasher)
    (box : DistributionSharesBox) (l1 l2 : List Share) (s : Share)
    (hsplit : box.Shares = l1 ++ s :: l2)
    (hacc : VerifyDistributionShares E sha3 (some box) = .ok true) :
    (∀ c : Int, s.challenge = some c → 0 < c →
      VerifyDistributionShares E sha3
        (some { box with Shares := l1 ++ { s with challenge := some (-c) } :: l2 })
          = .ok false)
    ∧ (∀ (c1 : Int) (b : Bool), ¬ (0 ≤ c1 ∧ c1 < E.N) →
      VerifyDistributionShares E sha3
        (some { box with Shares := l1 ++ { s with challenge := some c1 } :: l2 }) = .ok b →
      b = false)
    ∧ (∀ r : Int, s.response = some r →
      VerifyDistributionShares E sha3
        (some { box with Shares := l1 ++ { s with response := some (-r) } :: l2 })
          = .ok true)
    ∧ (∀ p1 : Int, box.Commitments.length = 1 →
      VerifyDistributionShares E sha3
        (some { box with Shares := l1 ++ { s with Position := p1 } :: l2 }) = .ok true) :=
  tamper_verdicts E hN sha3 box l1 l2 s hsplit hacc

theorem C12_tamper_detection_witness :
    ∃ (box : DistributionSharesBox) (s : Share) (c : Int),
      (NewDealer modelKey).distribute modelCurve modelHasher 42 [modelShare1] 1 ⟨[4]⟩ [10]
        = .ok box
      ∧ s.challenge = some c ∧ 0 < c
      ∧ VerifyDistributionShares modelCurve modelHasher
          (some { box with Shares := [] ++ { s with challenge := some (-c) } :: [] })
          = .ok false := by
  obtain ⟨box, s, c, r, hbox, hsh, _, _, hc, hc0, _, _, hacc⟩ := model_honest_box
  exact ⟨box, s, c, hbox, hc, hc0,
    (C12_tamper_detection modelCurve (by decide) modelHasher box [] [] s hsh hacc).1 c hc
      hc0⟩

/-! ## `ExtractSecretShare` and the share for the caller -/

theorem bind_eq_error {α β : Type} {x : Res α} {f : α → Res β} {e : String}
    (h : x.bind f = .error e) : x = .error e ∨ ∃ a, x = .ok a ∧ f a = .error e := by
  cases x with
  | ok a => exact Or.inr ⟨a, rfl, h⟩
  | error e1 =>
    rw [bind_error] at h
    injection h with h
    subst h
    exact Or.inl rfl
  | panic => exact Res.noConfusion h

theorem values_ne_error : ∀ (ps : List Point) (e : String), values ps ≠ .error e := by
  intro ps
  induction ps with
  | nil => intro e h; exact Res.noConfusion h
  | cons P rest ih =>
    intro e h
    cases P with
    | mk X Y =>
      cases X with
      | none => exact Res.noConfusion h
      | some x =>
        cases Y with
        | none => exact Res.noConfusion h
        | some y =>
          have h1 : (values rest).bind (fun vs => Res.ok (x :: y :: vs)) = .error e := h
          rcases bind_eq_error h1 with h2 | ⟨_, _, h2⟩
          · exact ih e h2
          · exact Res.noConfusion h2

/-- The only error that `extractSecretShare` returns is the reader's. -/
theorem extract_error_msg {E : Curve} (L : E.Laws) (sha3 : Hasher) (d : Dealer)
    (share : Share) (rnd : List Nat) (e : String)
    (h : d.extractSecretShare E sha3 share rnd = .error e) : e = "rand: reader failed" := by
  unfold Dealer.extractSecretShare at h
  split at h
  · rcases bind_eq_error h with h1 | ⟨si, _, h1⟩
    · exact absurd h1 (L.mul_err _ _ _)
    · rcases bind_eq_error h1 with h2 | ⟨wr, _, h2⟩
      · simp only [randInt] at h2
        split_ifs at h2
        cases rnd with
        | nil => simp only [Res.error.injEq] at h2; exact h2.symm
        | cons w rest => exact Res.noConfusion h2
      · rcases bind_eq_error h2 with h3 | ⟨dleq, _, h3⟩
        · unfold NewDLEQ at h3
          simp only [bind_ok] at h3
          rcases bind_eq_error h3 with h4 | ⟨_, _, h4⟩
          · exact absurd h4 (L.mul_err _ _ _)
          · exact Res.noConfusion h4
        · rcases bind_eq_error h3 with h4 | ⟨cr, _, h4⟩
          · unfold DLEQ.ChallengeAndResponse at h4
            rcases bind_eq_error h4 with h5 | ⟨_, _, h5⟩
            · exact absurd h5 (L.mul_err _ _ _)
            · rcases bind_eq_error h5 with h6 | ⟨_, _, h6⟩
              · exact absurd h6 (L.mul_err _ _ _)
              · rcases bind_eq_error h6 with h7 | ⟨_, _, h7⟩
                · exact absurd h7 (values_ne_error _ _)
                · exact Res.noConfusion h7
          · exact Res.noConfusion h4
  · exact Res.noConfusion h

theorem find_first_match (d : Dealer) (l1 l2 : List Share) (share : Share)
    (h1 : ∀ s ∈ l1, ¬ (s.PK.X = d.privateKey.X ∧ s.PK.Y = d.privateKey.Y))
    (h2 : share.PK.X = d.privateKey.X ∧ share.PK.Y = d.privateKey.Y) :
    (l1 ++ share :: l2).find?
        (fun s => decide (s.PK.X = d.privateKey.X) && decide (s.PK.Y = d.privateKey.Y))
      = some share := by
  have hnone : l1.find?
      (fun s => decide (s.PK.X = d.privateKey.X) && decide (s.PK.Y = d.privateKey.Y))
      = none := by
    rw [List.find?_eq_none]
    intro s hs
    have := h1 s hs
    simpa using this
  rw [List.find?_append, hnone]
  simp [List.find?_cons, h2.1, h2.2]

/-- The three outcomes of `extractSecretShare` for a private key in `[1, q)` on a share
whose `S` is a point of the curve: the reader's error when the reader fails, a panic
when the nonce drawn is zero, and the decrypted share `x⁻¹ · S` otherwise. -/
theorem extract_cases {E : Curve} (L : E.Laws) (sha3 : Hasher) (d : Dealer)
    (hx : 1 ≤ d.privateKey.D ∧ d.privateKey.D < E.N) (share : Share) (y : L.Grp)
    (hS : share.S = some (L.enc y)) :
    d.extractSecretShare E sha3 share [] = .error "rand: reader failed"
    ∧ (∀ (w : Nat) (rest : List Nat), (w : Int) % E.N = 0 →
        d.extractSecretShare E sha3 share (w :: rest) = .panic)
    ∧ (∀ (w : Nat) (rest : List Nat), (w : Int) % E.N ≠ 0 →
        ∃ (ds : DecryptedShare) (inv : Int),
          d.extractSecretShare E sha3 share (w :: rest) = .ok ds
          ∧ ModInverse d.privateKey.D E.N = some inv
          ∧ ds.PK = d.PK ∧ ds.Position = share.Position
          ∧ ds.S = L.enc (inv • y) ∧ ds.Y = L.enc y) := by
  obtain ⟨inv, hinv, hinv1, hinvN, hmod⟩ := modInverse_spec L d.privateKey.D
    (not_dvd_of_range hx.1 hx.2)
  have hsi := scalarMult_enc L y inv hinv1 hinvN
  have hH2 := scalarMult_enc L (inv • y) d.privateKey.D hx.1 hx.2
  have hback : d.privateKey.D • inv • y = y := by
    rw [← mul_zsmul]
    have h1 : d.privateKey.D * inv ≡ 1 [ZMOD (E.N : Int)] := by
      rw [mul_comm]; exact hmod
    rw [zsmul_congr L y h1, one_zsmul]
  refine ⟨?_, ?_, ?_⟩
  · simp only [Dealer.extractSecretShare, hinv, hS, hsi, bind_ok, randInt_nil L]
    rfl
  · intro w rest hw
    simp only [Dealer.extractSecretShare, hinv, hS, hsi, bind_ok, randInt_cons L, NewDLEQ,
      hH2, DLEQ.ChallengeAndResponse, hw, ← enc_g L,
      scalarMult_nil L L.g 0 (Or.inl rfl), scalarMult_nil L (inv • y) 0 (Or.inl rfl)]
    rw [values_nil_mem _ (by simp)]
    rfl
  · intro w rest hw
    have hw1 : 1 ≤ (w : Int) % E.N :=
      by have := Int.emod_nonneg (w : Int) (ne_of_gt (order_pos L)); omega
    have hw2 : (w : Int) % E.N < E.N := Int.emod_lt_of_pos _ (order_pos L)
    have hrun : ∃ cr : Int × Int, d.extractSecretShare E sha3 share (w :: rest)
        = .ok { PK := d.PK, Position := share.Position, S := L.enc (inv • y),
                Y := L.enc (d.privateKey.D • inv • y), challenge := cr.1,
                response := cr.2 } := by
      simp only [Dealer.extractSecretShare, hinv, hS, hsi, bind_ok, randInt_cons L, NewDLEQ,
        hH2, DLEQ.ChallengeAndResponse, ← enc_g L,
        scalarMult_enc L L.g _ hw1 hw2, scalarMult_enc L (inv • y) _ hw1 hw2]
      exact ⟨(_, _), rfl⟩
    obtain ⟨cr, hcr⟩ := hrun
    exact ⟨_, inv, hcr, hinv, rfl, rfl, rfl, by rw [hback]⟩

/-- C14, as stated, fails: the box holds a share for the dealer, yet `ExtractSecretShare`
neither reports "no share for me" nor succeeds: when the random source fails it returns
that source's error, and when the nonce drawn is zero it panics. -/
theorem C14_counterexample :
    (∃ s ∈ [modelShare], s.PK.X = (NewDealer modelKey).privateKey.X
        ∧ s.PK.Y = (NewDealer modelKey).privateKey.Y)
    ∧ (NewDealer modelKey).ExtractSecretShare modelCurve modelHasher
        { Commitments := [], Shares := [modelShare], U := 0 } []
      = .error "rand: reader failed"
    ∧ (NewDealer modelKey).ExtractSecretShare modelCurve modelHasher
        { Commitments := [], Shares := [modelShare], U := 0 } [0]
      = .panic := by
  have hfind := find_first_match (NewDealer modelKey) [] [] modelShare (by simp) ⟨rfl, rfl⟩
  simp only [List.nil_append] at hfind
  have hS : modelShare.S = some (modelLaws.enc modelLaws.h) := by
    rw [enc_h modelLaws]; rfl
  obtain ⟨h1, h2, _⟩ := extract_cases modelLaws modelHasher (NewDealer modelKey)
    (by decide) modelShare modelLaws.h hS
  refine ⟨⟨modelShare, by simp, rfl, rfl⟩, ?_, ?_⟩
  · simp only [Dealer.ExtractSecretShare, hfind]
    exact h1
  · simp only [Dealer.ExtractSecretShare, hfind]
    exact h2 0 [] (by decide)

/-- C14, amended. `ExtractSecretShare` returns the error "no share for me" if and only if
no share of the box has a `PK` whose `X` and `Y` both equal the dealer's key; otherwise
it returns what `extractSecretShare` returns on the first such share in list order:
for a private key in `[1, q)` and a share whose `S` is a point of the curve, that is the
random source's error when the source fails, a panic when the nonce drawn is zero
modulo `q`, and otherwise the decrypted share `x⁻¹ · S` at that share's `Position`. -/
theorem C14_extract_first_match (E : Curve) (L : E.Laws) (sha3 : Hasher) (d : Dealer)
    (box : DistributionSharesBox) (rnd : List Nat) :
    (d.ExtractSecretShare E sha3 box rnd = .error "no share for me" ↔
      ∀ s ∈ box.Shares, ¬ (s.PK.X = d.privateKey.X ∧ s.PK.Y = d.privateKey.Y))
    ∧ (∀ (l1 l2 : List Share) (share : Share), box.Shares = l1 ++ share :: l2 →
        (∀ s ∈ l1, ¬ (s.PK.X = d.privateKey.X ∧ s.PK.Y = d.privateKey.Y)) →
        share.PK.X = d.privateKey.X ∧ share.PK.Y = d.privateKey.Y →
        d.ExtractSecretShare E sha3 box rnd = d.extractSecretShare E sha3 share rnd
        ∧ (1 ≤ d.privateKey.D ∧ d.privateKey.D < E.N →
            ∀ y : L.Grp, share.S = some (L.enc y) →
            (rnd = [] →
              d.ExtractSecretShare E sha3 box rnd = .error "rand: reader failed")
            ∧ (∀ (w : Nat) (rest : List Nat), rnd = w :: rest → (w : Int) % E.N = 0 →
              d.ExtractSecretShare E sha3 box rnd = .panic)
            ∧ (∀ (w : Nat) (rest : List Nat), rnd = w :: rest → (w : Int) % E.N ≠ 0 →
              ∃ (ds : DecryptedShare) (inv : Int),
                d.ExtractSecretShare E sha3 box rnd = .ok ds
                ∧ ModInverse d.privateKey.D E.N = some inv
                ∧ ds.PK = d.PK ∧ ds.Position = share.Position
                ∧ ds.S = L.enc (inv • y) ∧ ds.Y = L.enc y))) := by
  constructor
  · constructor
    · intro h s hs hmatch
      unfold Dealer.ExtractSecretShare at h
      cases hfind : box.Shares.find? (fun s => decide (s.PK.X = d.privateKey.X)
          && decide (s.PK.Y = d.privateKey.Y)) with
      | none =>
        have := List.find?_eq_none.1 hfind s hs
        simp [hmatch.1, hmatch.2] at this
      | some share =>
        rw [hfind] at h
        have := extract_error_msg L sha3 d share rnd _ h
        exact absurd this (by decide)
    · intro h
      have hnone : box.Shares.find? (fun s => decide (s.PK.X = d.privateKey.X)
          && decide (s.PK.Y = d.privateKey.Y)) = none := by
        rw [List.find?_eq_none]
        intro s hs
        have := h s hs
        simpa using this
      simp only [Dealer.ExtractSecretShare, hnone]
  · intro l1 l2 share hsplit hl1 hmatch
    have hfind := find_first_match d l1 l2 share hl1 hmatch
    rw [← hsplit] at hfind
    have heq : d.ExtractSecretShare E sha3 box rnd = d.extractSecretShare E sha3 share rnd := by
      simp only [Dealer.ExtractSecretShare, hfind]
    refine ⟨heq, ?_⟩
    intro hx y hS
    obtain ⟨h1, h2, h3⟩ := extract_cases L sha3 d hx share y hS
    rw [heq]
    refine ⟨?_, ?_, ?_⟩
    · intro hr; rw [hr]; exact h1
    · intro w rest hr hw; rw [hr]; exact h2 w rest hw
    · intro w rest hr hw; rw [hr]; exact h3 w rest hw

theorem C14_extract_first_match_witness :
    ∃ (ds : DecryptedShare) (inv : Int),
      (NewDealer modelKey).ExtractSecretShare modelCurve modelHasher
        { Commitments := [],
          Shares := [{ modelShare with PK := ⟨4, 4⟩ }, modelShare11, modelShare],
          U := 0 } [10] = .ok ds
      ∧ ModInverse (NewDealer modelKey).privateKey.D modelCurve.N = some inv
      ∧ ds.PK = (NewDealer modelKey).PK ∧ ds.Position = modelShare11.Position
      ∧ ds.S = modelLaws.enc (inv • ((11 : Int) • (3 : Int) • modelLaws.g))
      ∧ ds.Y = modelLaws.enc ((11 : Int) • (3 : Int) • modelLaws.g) :=
  ((C14_extract_first_match modelCurve modelLaws modelHasher (NewDealer modelKey)
    { Commitments := [],
      Shares := [{ modelShare with PK := ⟨4, 4⟩ }, modelShare11, modelShare],
      U := 0 } [10]).2 [{ modelShare with PK := ⟨4, 4⟩ }] [modelShare] modelShare11 rfl
    (by decide) ⟨rfl, rfl⟩).2 (by decide) ((11 : Int) • (3 : Int) • modelLaws.g)
    (congrArg some model_enc33.symm) |>.2.2 10 [] rfl (by decide)

/-! ## Shape of the distribution box -/

theorem drawCoefficients_length (n : Int) : ∀ (count : Nat) (rnd : List Nat) (cs : List Int)
    (rnd1 : List Nat), drawCoefficients n count rnd = .ok (cs, rnd1) → cs.length = count := by
  intro count
  induction count with
  | zero =>
    intro rnd cs rnd1 h
    simp only [drawCoefficients, Res.ok.injEq, Prod.mk.injEq] at h
    rw [← h.1]; rfl
  | succ k ih =>
    intro rnd cs rnd1 h
    simp only [drawCoefficients] at h
    cases h1 : randInt n rnd with
    | ok v =>
      obtain ⟨a, r1⟩ := v
      rw [h1] at h
      simp only at h
      cases h2 : drawCoefficients n k r1 with
      | ok v2 =>
        obtain ⟨as, r2⟩ := v2
        rw [h2] at h
        simp only [Res.ok.injEq, Prod.mk.injEq] at h
        rw [← h.1, List.length_cons, ih r1 as r2 h2]
      | error e => rw [h2] at h; simp at h
      | panic => rw [h2] at h; simp at h
    | error e => rw [h1] at h; simp at h
    | panic => rw [h1] at h; simp at h

theorem commitments_length (E : Curve) : ∀ (cs : List Int) (Cs : List Point),
    commitments E cs = .ok Cs → Cs.length = cs.length := by
  intro cs
  induction cs with
  | nil =>
    intro Cs h
    simp only [commitments, Res.ok.injEq] at h
    subst h
    rfl
  | cons a rest ih =>
    intro Cs h
    simp only [commitments] at h
    obtain ⟨C, _, h1⟩ := bind_eq_ok h
    obtain ⟨Cs1, h2, h3⟩ := bind_eq_ok h1
    rw [← Res.ok.inj h3, List.length_cons, List.length_cons, ih Cs1 h2]

theorem distributeShares_ok_map (E : Curve) (sha3 : Hasher) (poly : Polynomial) :
    ∀ (shares : List Share) (rnd : List Nat) (shares1 : List Share),
      distributeShares E sha3 poly shares rnd = .ok shares1 →
      shares1.map (fun s => (s.PK, s.Position)) = shares.map (fun s => (s.PK, s.Position)) := by
  intro shares
  induction shares with
  | nil =>
    intro rnd shares1 h
    simp only [distributeShares, Res.ok.injEq] at h
    rw [← h]
  | cons share rest ih =>
    intro rnd shares1 h
    simp only [distributeShares] at h
    obtain ⟨pi, _, h1⟩ := bind_eq_ok h
    obtain ⟨wr, _, h2⟩ := bind_eq_ok h1
    obtain ⟨dleq, _, h3⟩ := bind_eq_ok h2
    obtain ⟨cr, _, h4⟩ := bind_eq_ok h3
    obtain ⟨rest1, h5, h6⟩ := bind_eq_ok h4
    rw [← Res.ok.inj h6]
    simp [ih wr.2 rest1 h5]

theorem initShares_map : ∀ (pks : List PublicKey) (i : Nat),
    (initShares i pks).map (fun s => (s.PK, s.Position))
      = (pks.zip (List.range' (i + 1) pks.length)).map (fun q => (q.1, (q.2 : Int))) := by
  intro pks
  induction pks with
  | nil => intro i; rfl
  | cons pk rest ih =>
    intro i
    simp only [initShares, List.map_cons, List.length_cons, List.range'_succ, List.zip_cons_cons,
      ih (i + 1)]
    simp

theorem distribute_ok_shape (E : Curve) (sha3 : Hasher) (d : Dealer) (secret : Int)
    (shares : List Share) (threshold : Int) (poly : Polynomial) (rnd : List Nat)
    (box : DistributionSharesBox)
    (h : d.distribute E sha3 secret shares threshold poly rnd = .ok box) :
    box.Commitments.length = poly.coefficients.length
    ∧ box.Shares.map (fun s => (s.PK, s.Position)) = shares.map (fun s => (s.PK, s.Position)) := by
  simp only [Dealer.distribute] at h
  split_ifs at h with hneg
  obtain ⟨Cs, hCs, h1⟩ := bind_eq_ok h
  obtain ⟨shares1, hsh, h2⟩ := bind_eq_ok h1
  cases hc : poly.coefficients with
  | nil => rw [hc] at h2; exact Res.noConfusion h2
  | cons a0 as =>
    rw [hc] at h2
    simp only at h2
    obtain ⟨sG, _, h3⟩ := bind_eq_ok h2
    obtain ⟨vs, _, h4⟩ := bind_eq_ok h3
    rw [← Res.ok.inj h4, ← hc]
    exact ⟨commitments_length E _ _ hCs, distributeShares_ok_map E sha3 poly shares rnd shares1 hsh⟩

theorem distributeSecret_ok_shape (E : Curve) (sha3 : Hasher) (d : Dealer) (secret : Int)
    (t : Nat) (ht : 1 ≤ t) (ht63 : t < 2 ^ 63) (pks : List PublicKey) (rnd : List Nat)
    (box : DistributionSharesBox)
    (h : d.DistributeSecret E sha3 secret pks t rnd = .ok box) :
    box.Commitments.length = t
    ∧ box.Shares.map (fun s => (s.PK, s.Position))
        = (pks.zip (List.range' 1 pks.length)).map (fun q => (q.1, (q.2 : Int))) := by
  have hw1 : wrap64 ((t : Int) - 1) = (t : Int) - 1 :=
    wrap64_of_range _ (by omega) (by omega)
  have hw2 : wrap64 ((t : Int) - 1 + 1) = (t : Int) :=
    by rw [wrap64_of_range _ (by omega) (by omega)]; ring
  have h0 : ¬ ((t : Int) < 0) := by omega
  simp only [Dealer.DistributeSecret] at h
  split_ifs at h with hlt
  simp only [InitPolynomial, hw1, hw2, if_neg h0, Int.toNat_ofNat] at h
  cases h1 : drawCoefficients (E.N : Int) t rnd with
  | ok v =>
    obtain ⟨cs, rnd1⟩ := v
    rw [h1] at h
    simp only at h
    obtain ⟨hc, hm⟩ := distribute_ok_shape E sha3 d secret _ _ _ _ box h
    refine ⟨?_, ?_⟩
    · rw [hc]; exact drawCoefficients_length _ _ _ _ _ h1
    · rw [hm, initShares_map]
  | error e => rw [h1] at h; simp at h
  | panic => rw [h1] at h; simp at h

theorem positions_of_shape (pks : List PublicKey) (shares : List Share)
    (hm : shares.map (fun s => (s.PK, s.Position))
      = (pks.zip (List.range' 1 pks.length)).map (fun q => (q.1, (q.2 : Int)))) :
    shares.map (fun s => s.Position)
      = List.map (fun k : Nat => (k : Int)) (List.range' 1 pks.length)
    ∧ shares.map (fun s => s.PK) = pks := by
  constructor
  · have h := congrArg (List.map Prod.snd) hm
    simp only [List.map_map] at h
    have e1 : (Prod.snd ∘ fun s : Share => (s.PK, s.Position)) = fun s => s.Position := rfl
    have e2 : (Prod.snd ∘ fun q : PublicKey × Nat => (q.1, (q.2 : Int)))
        = (fun k : Nat => (k : Int)) ∘ Prod.snd := rfl
    rw [e1, e2, ← List.map_map, List.map_snd_zip _ _ (by simp)] at h
    exact h
  · have h := congrArg (List.map Prod.fst) hm
    simp only [List.map_map] at h
    have e1 : (Prod.fst ∘ fun s : Share => (s.PK, s.Position)) = fun s => s.PK := rfl
    have e2 : (Prod.fst ∘ fun q : PublicKey × Nat => (q.1, (q.2 : Int))) = Prod.fst := rfl
    rw [e1, e2, List.map_fst_zip _ _ (by simp)] at h
    exact h

/-- C15. Shape of the distribution box: for `1 ≤ t ≤ n` and `n` recipient keys, a
successful `DistributeSecret(secret, pks, t)` returns a box with exactly `t` commitments
and `n` shares; the share at index `i` has `PK = pks[i]` and `Position = i + 1`, so the
positions are pairwise distinct, lie in `1..n` and are never 0. -/
theorem C15_box_shape (E : Curve) (sha3 : Hasher) (d : Dealer) (secret : Int) (t n : Nat)
    (ht : 1 ≤ t ∧ t ≤ n) (hn : n < 2 ^ 63) (pks : List PublicKey) (hpks : pks.length = n)
    (rnd : List Nat) (box : DistributionSharesBox)
    (hbox : d.DistributeSecret E sha3 secret pks t rnd = .ok box) :
    box.Commitments.length = t
    ∧ box.Shares.length = n
    ∧ (∀ (i : Nat) (s : Share), box.Shares[i]? = some s →
        pks[i]? = some s.PK ∧ s.Position = (i : Int) + 1)
    ∧ (box.Shares.map (fun s => s.Position)).Nodup
    ∧ (∀ s ∈ box.Shares, 1 ≤ s.Position ∧ s.Position ≤ n ∧ s.Position ≠ 0) := by
  obtain ⟨hc, hm⟩ := distributeSecret_ok_shape E sha3 d secret t ht.1 (by omega) pks rnd box hbox
  obtain ⟨hpos, hpk⟩ := positions_of_shape pks box.Shares hm
  have hlen : box.Shares.length = n := by
    have := congrArg List.length hpk
    rw [List.length_map] at this
    rw [this, hpks]
  refine ⟨hc, hlen, ?_, ?_, ?_⟩
  · intro i s hs
    constructor
    · rw [← hpk, List.getElem?_map, hs]; rfl
    · have h1 : (box.Shares.map (fun s => s.Position))[i]? = some s.Position := by
        rw [List.getElem?_map, hs]; rfl
      rw [hpos, List.getElem?_map] at h1
      have hi : i < pks.length := by
        rw [hpks, ← hlen]
        exact (List.getElem?_eq_some_iff.1 hs).1
      rw [List.getElem?_range' _ _ hi] at h1
      simp only [Option.map_some', Option.some.injEq] at h1
      rw [← h1]
      push_cast
      ring
  · rw [hpos]
    exact (List.nodup_range' 1 pks.length).map (fun a b h => by exact_mod_cast h)
  · intro s hs
    have h1 : s.Position ∈ box.Shares.map (fun s => s.Position) := List.mem_map_of_mem _ hs
    rw [hpos, List.mem_map] at h1
    obtain ⟨k, hk, hks⟩ := h1
    rw [List.mem_range'_1] at hk
    rw [← hks]
    omega

/-- The run of `DistributeSecret` on the model with `t = 2`, the three model keys and the
draws `1, 2` for the polynomial and `10, 11, 12` for the nonces returns a box. -/
theorem model_distributeSecret :
    ∃ box, (NewDealer modelKey).DistributeSecret modelCurve modelHasher 42 modelPks
        ((2 : Nat) : Int) [1, 2, 10, 11, 12] = .ok box
      ∧ (NewDealer modelKey).distribute modelCurve modelHasher 42 (initShares 0 modelPks)
        ((2 : Nat) : Int) ⟨[1, 2]⟩ [10, 11, 12] = .ok box
      ∧ List.Forall₂ (Distributed modelLaws modelHasher [1, 2])
          ((initShares 0 modelPks).zip ([10, 11, 12] : List Nat)) box.Shares := by
  obtain ⟨box, hbox, _, _, hfor⟩ := distribute_verifies modelLaws modelHasher
    (NewDealer modelKey) 42 2 3 (by decide) (by decide) modelPks rfl modelPks_onCurve [1, 2] rfl
    (by decide) [10, 11, 12] (by decide) (by decide)
  refine ⟨box, ?_, hbox, hfor⟩
  rw [distributeSecret_eq modelLaws modelHasher (NewDealer modelKey) 42 2 3 (by decide)
    (by decide) modelPks rfl [1, 2, 10, 11, 12] (by decide)]
  exact hbox

theorem C15_box_shape_witness :
    ∃ box, (NewDealer modelKey).DistributeSecret modelCurve modelHasher 42 modelPks
        ((2 : Nat) : Int) [1, 2, 10, 11, 12] = .ok box
      ∧ box.Commitments.length = 2 ∧ box.Shares.length = 3 := by
  obtain ⟨box, hbox, _⟩ := model_distributeSecret
  have h := C15_box_shape modelCurve modelHasher (NewDealer modelKey) 42 2 3 (by decide)
    (by decide) modelPks rfl [1, 2, 10, 11, 12] box hbox
  exact ⟨box, hbox, h.1, h.2.1⟩

/-! ## Proof scalars, `NewDLEQ`, and the hash input -/

/-- C19. Proof scalars are reduced: for every modulus `n > 0`, `Response(w, alpha, c, n)`
is the unique value in `[0, n)` congruent to `w - alpha*c` modulo `n`, and
`HashMod(n, ...)` is in `[0, n)`; hence every pair `(c, r)` that `ChallengeAndResponse`
returns satisfies `0 ≤ c < q` and `0 ≤ r < q`. -/
theorem C19_scalars_reduced (E : Curve) (hq : 0 < E.N) (sha3 : Hasher) :
    (∀ w alpha c n : Int, 0 < n →
      0 ≤ Response w alpha c n ∧ Response w alpha c n < n
      ∧ Response w alpha c n ≡ w - alpha * c [ZMOD n]
      ∧ ∀ v : Int, 0 ≤ v → v < n → v ≡ w - alpha * c [ZMOD n] → v = Response w alpha c n)
    ∧ (∀ (n : Int) (hasher : Hasher) (values : List Int), 0 < n →
      0 ≤ HashMod n hasher values ∧ HashMod n hasher values < n)
    ∧ (∀ (d : DLEQ) (c r : Int), d.ChallengeAndResponse E sha3 = .ok (c, r) →
      0 ≤ c ∧ c < E.N ∧ 0 ≤ r ∧ r < E.N) := by
  have hN : (0 : Int) < (E.N : Int) := by exact_mod_cast hq
  have hresp : ∀ w alpha c n : Int, 0 < n →
      0 ≤ Response w alpha c n ∧ Response w alpha c n < n
      ∧ Response w alpha c n ≡ w - alpha * c [ZMOD n] := by
    intro w alpha c n hn
    refine ⟨Int.emod_nonneg _ (ne_of_gt hn), Int.emod_lt_of_pos _ hn, ?_⟩
    have h := response_modEq w alpha c n
    have h2 := Int.ModEq.sub_right (c * alpha) h
    have e1 : Response w alpha c n + c * alpha - c * alpha = Response w alpha c n := by ring
    have e2 : w - c * alpha = w - alpha * c := by ring
    rw [e1, e2] at h2
    exact h2
  refine ⟨?_, ?_, ?_⟩
  · intro w alpha c n hn
    obtain ⟨h1, h2, h3⟩ := hresp w alpha c n hn
    refine ⟨h1, h2, h3, ?_⟩
    intro v hv0 hvn hv
    have h4 : v % n = Response w alpha c n % n := hv.trans h3.symm
    rw [Int.emod_eq_of_lt hv0 hvn, Int.emod_eq_of_lt h1 h2] at h4
    exact h4
  · intro n hasher values hn
    exact ⟨Int.emod_nonneg _ (ne_of_gt hn), Int.emod_lt_of_pos _ hn⟩
  · intro d c r h
    unfold DLEQ.ChallengeAndResponse at h
    obtain ⟨a1, _, h1⟩ := bind_eq_ok h
    obtain ⟨a2, _, h2⟩ := bind_eq_ok h1
    obtain ⟨vs, _, h3⟩ := bind_eq_ok h2
    have h4 := Res.ok.inj h3
    simp only [Prod.mk.injEq] at h4
    rw [← h4.1, ← h4.2]
    exact ⟨Int.emod_nonneg _ (ne_of_gt hN), Int.emod_lt_of_pos _ hN,
      (hresp _ _ _ _ hN).1, (hresp _ _ _ _ hN).2.1⟩

theorem C19_scalars_reduced_witness :
    ∃ c r : Int,
      DLEQ.ChallengeAndResponse modelCurve modelHasher
        { G1 := modelLaws.enc modelLaws.g, H1 := modelLaws.enc ((5 : Int) • modelLaws.g),
          G2 := modelLaws.enc modelLaws.h, H2 := modelLaws.enc ((5 : Int) • modelLaws.h),
          w := 7, alpha := 5, r := none } = .ok (c, r)
      ∧ 0 ≤ c ∧ c < modelCurve.N ∧ 0 ≤ r ∧ r < modelCurve.N :=
  ⟨_, _, car_ok modelLaws modelHasher _ _ _ _ _ rfl rfl rfl rfl (by decide),
    (C19_scalars_reduced modelCurve (by decide) modelHasher).2.2 _ _ _
      (car_ok modelLaws modelHasher _ _ _ _ _ rfl rfl rfl rfl (by decide))⟩

/-- C20. `NewDLEQ` fills in missing statement points: with nil `H1` and `H2` the result
has for `H1` what `ScalarMult(G1, alpha)` returns and for `H2` what `ScalarMult(G2, alpha)`
returns, which for points of the curve and `alpha` in `[1, q)` are `alpha · G1` and
`alpha · G2` (with `G1 = G` that `H1` is the public key `ScalarBaseMult(alpha)` of the
private key `alpha`); a supplied `H1` or `H2` is kept unchanged; in every case the result
carries points `H1` and `H2`. -/
theorem C20_newDLEQ_fills (E : Curve) (L : E.Laws) (P1 P2 : Point) (w alpha : Int) :
    (∀ d : DLEQ, NewDLEQ E P1 none P2 none w alpha = .ok d →
      E.ScalarMult P1 (Bytes alpha) = .ok d.H1 ∧ E.ScalarMult P2 (Bytes alpha) = .ok d.H2)
    ∧ (∀ d : DLEQ, NewDLEQ E (G1 E) none P2 none w alpha = .ok d →
      E.ScalarBaseMult (Bytes alpha) = .ok d.H1)
    ∧ (∀ g1 g2 : L.Grp, 1 ≤ alpha → alpha < E.N →
      ∃ d : DLEQ, NewDLEQ E (L.enc g1) none (L.enc g2) none w alpha = .ok d
        ∧ d.H1 = L.enc (alpha • g1) ∧ d.H2 = L.enc (alpha • g2))
    ∧ (∀ g1 g2 : L.Grp, 0 ≤ alpha → alpha < 2 ^ 256 →
      ∃ d : DLEQ, NewDLEQ E (L.enc g1) none (L.enc g2) none w alpha = .ok d)
    ∧ (∀ (Q1 : Point) (H2 : Option Point) (d : DLEQ),
      NewDLEQ E P1 (some Q1) P2 H2 w alpha = .ok d → d.H1 = Q1)
    ∧ (∀ (H1 : Option Point) (Q2 : Point) (d : DLEQ),
      NewDLEQ E P1 H1 P2 (some Q2) w alpha = .ok d → d.H2 = Q2)
    ∧ (∀ Q1 Q2 : Point, ∃ d : DLEQ,
      NewDLEQ E P1 (some Q1) P2 (some Q2) w alpha = .ok d ∧ d.H1 = Q1 ∧ d.H2 = Q2)
    ∧ (∀ (H1 H2 : Option Point) (d : DLEQ), NewDLEQ E P1 H1 P2 H2 w alpha = .ok d →
      ∃ Q1 Q2 : Point, d.H1 = Q1 ∧ d.H2 = Q2) := by
  have hnone : ∀ (P1 : Point) (d : DLEQ), NewDLEQ E P1 none P2 none w alpha = .ok d →
      E.ScalarMult P1 (Bytes alpha) = .ok d.H1 ∧ E.ScalarMult P2 (Bytes alpha) = .ok d.H2 := by
    intro P1 d h
    unfold NewDLEQ at h
    obtain ⟨Q1, h1, h2⟩ := bind_eq_ok h
    obtain ⟨Q2, h3, h4⟩ := bind_eq_ok h2
    rw [← Res.ok.inj h4]
    exact ⟨h1, h3⟩
  refine ⟨hnone P1, ?_, ?_, ?_, ?_, ?_, fun Q1 Q2 => ⟨_, rfl, rfl, rfl⟩,
    fun _ _ d _ => ⟨_, _, rfl, rfl⟩⟩
  · intro d h
    rw [L.base_mul]
    exact (hnone (G1 E) d h).1
  · intro g1 g2 h1 h2
    exact ⟨_, newDLEQ_ok L g1 g2 w alpha ⟨h1, h2⟩, rfl, rfl⟩
  · intro g1 g2 h0 h256
    by_cases hα : 1 ≤ alpha ∧ alpha < E.N
    · exact ⟨_, newDLEQ_ok L g1 g2 w alpha hα⟩
    · have hnil : alpha = 0 ∨ ((E.N : Int) ≤ alpha ∧ alpha < 2 ^ 256) := by omega
      refine ⟨{ G1 := L.enc g1, H1 := nilPoint, G2 := L.enc g2, H2 := nilPoint, w := w,
                alpha := alpha, r := none }, ?_⟩
      simp only [NewDLEQ, scalarMult_nil L g1 alpha hnil, scalarMult_nil L g2 alpha hnil,
        bind_ok]
  · intro Q1 H2 d h
    unfold NewDLEQ at h
    simp only [bind_ok] at h
    obtain ⟨Q2, _, h4⟩ := bind_eq_ok h
    rw [← Res.ok.inj h4]
  · intro H1 Q2 d h
    unfold NewDLEQ at h
    obtain ⟨Q1, _, h2⟩ := bind_eq_ok h
    simp only [bind_ok] at h2
    rw [← Res.ok.inj h2]

theorem bytes_lt (x : Int) : ∀ b ∈ Bytes x, b < 256 := by
  intro b hb
  unfold Bytes at hb
  rw [List.mem_reverse] at hb
  exact Nat.digits_lt_base (by norm_num) hb

theorem bytes_no_leading_zero (x : Int) : (Bytes x).head? ≠ some 0 := by
  unfold Bytes
  rw [List.head?_reverse]
  intro h
  have hne : Nat.digits 256 x.natAbs ≠ [] := by
    intro h0; rw [h0] at h; simp at h
  have := Nat.getLast_digit_ne_zero 256 (m := x.natAbs)
    (by intro h0; exact hne (by rw [h0]; simp))
  rw [List.getLast?_eq_getLast _ hne] at h
  exact this (Option.some.inj h)

/-- C18. Hash input encoding: `Hash` feeds the hasher the concatenation, in argument
order, of the minimal big-endian bytes of each value (its bytes are below 256, have no
leading zero and decode to `|x|`; zero gives no bytes), with no separator. The encoding
is not injective: the lists `(0x01, 0x0203)` and `(0x0102, 0x03)` differ, have the same
hash input, and so the same `Hash` and `HashMod`. -/
theorem C18_hash_input_encoding (hasher : Hasher) (n : Int) :
    (∀ values : List Int, Hash hasher values = hasher (values.flatMap Bytes))
    ∧ (∀ x : Int, SetBytes (Bytes x) = x.natAbs ∧ (∀ b ∈ Bytes x, b < 256)
        ∧ (Bytes x).head? ≠ some 0)
    ∧ Bytes 0 = []
    ∧ ([0x01, 0x0203] : List Int) ≠ [0x0102, 0x03]
    ∧ ([0x01, 0x0203] : List Int).flatMap Bytes = [1, 2, 3]
    ∧ ([0x0102, 0x03] : List Int).flatMap Bytes = [1, 2, 3]
    ∧ Hash hasher [0x01, 0x0203] = Hash hasher [0x0102, 0x03]
    ∧ HashMod n hasher [0x01, 0x0203] = HashMod n hasher [0x0102, 0x03] := by
  have e1 : ([0x01, 0x0203] : List Int).flatMap Bytes = [1, 2, 3] := by
    simp [List.flatMap, Bytes]
  have e2 : ([0x0102, 0x03] : List Int).flatMap Bytes = [1, 2, 3] := by
    simp [List.flatMap, Bytes]
  refine ⟨fun _ => rfl, fun x => ⟨SetBytes_Bytes x, bytes_lt x, bytes_no_leading_zero x⟩,
    by simp [Bytes], by decide, e1, e2, ?_, ?_⟩
  · simp only [Hash, e1, e2]
  · simp only [HashMod, Hash, e1, e2]

/-! ## The XOR mask -/

theorem modelHasher_laws : Hasher.Laws modelHasher := by
  intro m
  constructor
  · simp [modelHasher]
  · intro b hb
    simp only [modelHasher, List.mem_append, List.mem_replicate, List.mem_singleton] at hb
    rcases hb with ⟨_, rfl⟩ | rfl
    · norm_num
    · have := Nat.mod_lt (m.sum + m.length) (by norm_num : 255 > 0)
      omega

theorem setBytes_digest_lt {hasher : Hasher} (h : hasher.Laws) (m : List Nat) :
    SetBytes (hasher m) < 2 ^ 256 := by
  unfold SetBytes
  have h1 := Nat.ofDigits_lt_base_pow_length (b := 256) (l := (hasher m).reverse)
    (by norm_num) (fun x hx => (h m).2 x (List.mem_reverse.1 hx))
  rw [List.length_reverse, (h m).1] at h1
  calc Nat.ofDigits 256 (hasher m).reverse < 256 ^ 32 := h1
    _ = 2 ^ 256 := by norm_num

theorem xor_high_bits (a h k : Nat) (hh : h < 2 ^ k) : (a ^^^ h) / 2 ^ k = a / 2 ^ k := by
  rw [← Nat.shiftRight_eq_div_pow, ← Nat.shiftRight_eq_div_pow]
  apply Nat.eq_of_testBit_eq
  intro j
  rw [Nat.testBit_shiftRight, Nat.testBit_shiftRight, Nat.testBit_xor]
  have : h.testBit (k + j) = false :=
    Nat.testBit_lt_two_pow (lt_of_lt_of_le hh (Nat.pow_le_pow_right (by norm_num) (by omega)))
  rw [this, Bool.xor_false]

theorem xor_low_bits (a h k : Nat) (hh : h < 2 ^ k) :
    (a ^^^ h) % 2 ^ k = (a % 2 ^ k) ^^^ h := by
  apply Nat.eq_of_testBit_eq
  intro j
  rw [Nat.testBit_mod_two_pow, Nat.testBit_xor, Nat.testBit_xor, Nat.testBit_mod_two_pow]
  by_cases hj : j < k
  · simp [hj]
  · have : h.testBit j = false :=
      Nat.testBit_lt_two_pow (lt_of_lt_of_le hh (Nat.pow_le_pow_right (by norm_num) (by omega)))
    simp [hj, this]

theorem values_single {P : Point} {vs : List Int} (h : values [P] = .ok vs) :
    ∃ x y : Int, P = ⟨some x, some y⟩ ∧ vs = [x, y] := by
  cases P with
  | mk X Y =>
    cases X with
    | none => exact Res.noConfusion h
    | some x =>
      cases Y with
      | none => exact Res.noConfusion h
      | some y => exact ⟨x, y, rfl, (Res.ok.inj h).symm⟩

theorem distribute_ok_U (E : Curve) (sha3 : Hasher) (d : Dealer) (secret : Int)
    (shares : List Share) (threshold : Int) (poly : Polynomial) (rnd : List Nat)
    (box : DistributionSharesBox)
    (h : d.distribute E sha3 secret shares threshold poly rnd = .ok box) :
    ∃ (a0 x y : Int), poly.coefficients.head? = some a0
      ∧ E.ScalarBaseMult (Bytes a0) = .ok ⟨some x, some y⟩
      ∧ box.U = Int.xor secret (SetBytes (Hash sha3 [x, y])) := by
  simp only [Dealer.distribute] at h
  split_ifs at h with hneg
  obtain ⟨Cs, _, h1⟩ := bind_eq_ok h
  obtain ⟨shares1, _, h2⟩ := bind_eq_ok h1
  cases hc : poly.coefficients with
  | nil => rw [hc] at h2; exact Res.noConfusion h2
  | cons a0 as =>
    rw [hc] at h2
    simp only at h2
    obtain ⟨sG, hsG, h3⟩ := bind_eq_ok h2
    obtain ⟨vs, hvs, h4⟩ := bind_eq_ok h3
    obtain ⟨x, y, hP, hv⟩ := values_single hvs
    rw [← Res.ok.inj h4, hv]
    rw [hP] at hsG
    exact ⟨a0, x, y, rfl, hsG, rfl⟩

/-- C17. XOR mask width: the box of `distribute` has `U = secret xor SetBytes(hash)` for
the 32-byte hash of `a_0 · G`; for a non-negative secret the bits of `U` from position
256 on are those of the secret (`U div 2^256 = secret div 2^256`), and
`U mod 2^256 = (secret mod 2^256) xor hash`. -/
theorem C17_xor_mask_width (E : Curve) (sha3 : Hasher) (hsha : sha3.Laws) (d : Dealer)
    (secret : Int) (hs : 0 ≤ secret) (shares : List Share) (threshold : Int)
    (poly : Polynomial) (rnd : List Nat) (box : DistributionSharesBox)
    (hbox : d.distribute E sha3 secret shares threshold poly rnd = .ok box) :
    ∃ (a0 x y : Int), poly.coefficients.head? = some a0
      ∧ E.ScalarBaseMult (Bytes a0) = .ok ⟨some x, some y⟩
      ∧ box.U = Int.xor secret (SetBytes (Hash sha3 [x, y]))
      ∧ box.U / 2 ^ 256 = secret / 2 ^ 256
      ∧ box.U % 2 ^ 256 = Int.xor (secret % 2 ^ 256) (SetBytes (Hash sha3 [x, y])) := by
  obtain ⟨a0, x, y, ha0, hsG, hU⟩ :=
    distribute_ok_U E sha3 d secret shares threshold poly rnd box hbox
  refine ⟨a0, x, y, ha0, hsG, hU, ?_, ?_⟩
  · obtain ⟨s, rfl⟩ := Int.eq_ofNat_of_zero_le hs
    rw [hU]
    have hlt := setBytes_digest_lt hsha ([x, y].flatMap Bytes)
    show ((s ^^^ SetBytes (Hash sha3 _) : Nat) : Int) / 2 ^ 256 = (s : Int) / 2 ^ 256
    have := xor_high_bits s _ 256 hlt
    exact_mod_cast this
  · obtain ⟨s, rfl⟩ := Int.eq_ofNat_of_zero_le hs
    rw [hU]
    have hlt := setBytes_digest_lt hsha ([x, y].flatMap Bytes)
    have h1 : ((s : Int) % 2 ^ 256) = ((s % 2 ^ 256 : Nat) : Int) := by push_cast; rfl
    rw [h1]
    show ((s ^^^ SetBytes (Hash sha3 _) : Nat) : Int) % 2 ^ 256
      = ((s % 2 ^ 256 ^^^ SetBytes (Hash sha3 _) : Nat) : Int)
    have := xor_low_bits s _ 256 hlt
    exact_mod_cast this

theorem C17_xor_mask_width_witness :
    ∃ box, (NewDealer modelKey).distribute modelCurve modelHasher (2 ^ 300 + 5)
        (initShares 0 modelPks) ((2 : Nat) : Int) ⟨[1, 2]⟩ [10, 11, 12] = .ok box
      ∧ box.U / 2 ^ 256 = (2 ^ 300 + 5) / 2 ^ 256 := by
  obtain ⟨box, hbox, _⟩ := distribute_verifies modelLaws modelHasher (NewDealer modelKey)
    (2 ^ 300 + 5) 2 3 (by decide) (by decide) modelPks rfl modelPks_onCurve [1, 2] rfl
    (by decide) [10, 11, 12] (by decide) (by decide)
  obtain ⟨a0, x, y, _, _, _, h, _⟩ := C17_xor_mask_width modelCurve modelHasher
    modelHasher_laws (NewDealer modelKey) (2 ^ 300 + 5) (by norm_num) (initShares 0 modelPks)
    ((2 : Nat) : Int) ⟨[1, 2]⟩ [10, 11, 12] box hbox
  exact ⟨box, hbox, h⟩

/-! ## Lagrange coefficients and reconstruction -/

/-- The loop of `lagrangeCoefficient` computes the two products over the keys `j ≠ i`. -/
theorem lagrange_fold (i : Int) : ∀ (bigjs : List Int) (a b : Int),
    bigjs.foldl (lagrangeStep i) (a, b)
      = (a * (bigjs.filter (fun j => j ≠ i)).prod,
         b * ((bigjs.filter (fun j => j ≠ i)).map (fun j => j - i)).prod) := by
  intro bigjs
  induction bigjs with
  | nil => intro a b; simp
  | cons j rest ih =>
    intro a b
    by_cases hj : j = i
    · simp [lagrangeStep, hj, ih]
    · simp [lagrangeStep, hj, ih, mul_assoc]

theorem lagrange_perm (E : Curve) (i : Int) {l1 l2 : List Int} (h : l1.Perm l2) :
    lagrangeCoefficient E i l1 = lagrangeCoefficient E i l2 := by
  have hf : (l1.filter (fun j => j ≠ i)).Perm (l2.filter (fun j => j ≠ i)) := h.filter _
  unfold lagrangeCoefficient
  rw [lagrange_fold, lagrange_fold, hf.prod_eq, (hf.map (fun j => j - i)).prod_eq]

theorem lagrange_not_error (E : Curve) (i : Int) (bigjs : List Int) (e : String) :
    lagrangeCoefficient E i bigjs ≠ .error e := by
  unfold lagrangeCoefficient
  intro h
  dsimp only at h
  split at h <;> exact Res.noConfusion h

theorem lagrange_range {E : Curve} (L : E.Laws) (i : Int) (bigjs : List Int) (lam : Int)
    (h : lagrangeCoefficient E i bigjs = .ok lam) : 0 ≤ lam ∧ lam < E.N := by
  unfold lagrangeCoefficient at h
  dsimp only at h
  split at h
  · exact Res.noConfusion h
  · rw [← Res.ok.inj h]
    exact ⟨Int.emod_nonneg _ (ne_of_gt (order_pos L)), Int.emod_lt_of_pos _ (order_pos L)⟩

theorem reconstructLoop_keys (E : Curve) {k1 k2 : List Int} (h : k1.Perm k2) :
    ∀ (shares : List DecryptedShare) (sG : Point),
      reconstructLoop E k1 shares sG = reconstructLoop E k2 shares sG := by
  intro shares
  induction shares with
  | nil => intro sG; rfl
  | cons ds rest ih =>
    intro sG
    simp only [reconstructLoop, lagrange_perm E ds.Position h, ih]

/-- Once the accumulator has nil coordinates the loop of `ReconstructSecret` panics or
ends with nil coordinates. -/
theorem reconstructLoop_nil {E : Curve} (L : E.Laws) (bigjs : List Int) :
    ∀ l : List DecryptedShare, (∀ ds ∈ l, L.OnCurve ds.S) →
      reconstructLoop E bigjs l nilPoint = .panic
        ∨ reconstructLoop E bigjs l nilPoint = .ok nilPoint := by
  intro l
  induction l with
  | nil => intro _; exact Or.inr rfl
  | cons ds rest ih =>
    intro hon
    obtain ⟨s, hs⟩ := hon ds (by simp)
    have ih1 := ih (fun d hd => hon d (by simp [hd]))
    simp only [reconstructLoop]
    cases hl : lagrangeCoefficient E ds.Position bigjs with
    | ok lam =>
      obtain ⟨h0, hN⟩ := lagrange_range L _ _ _ hl
      simp only [bind_ok, ← hs]
      by_cases hz : lam = 0
      · rw [scalarMult_nil L s lam (Or.inl hz)]
        simp only [bind_ok]
        rcases L.add_nil_left nilPoint with h | h <;> rw [h]
        · exact Or.inl rfl
        · exact ih1
      · rw [scalarMult_enc L s lam (by omega) hN]
        simp only [bind_ok]
        rcases L.add_nil_left (L.enc (lam • s)) with h | h <;> rw [h]
        · exact Or.inl rfl
        · exact ih1
    | error e => exact absurd hl (lagrange_not_error E _ _ e)
    | panic => exact Or.inl rfl

/-- With a share whose Lagrange coefficient is zero or undefined the loop of
`ReconstructSecret` panics or ends with nil coordinates. -/
theorem reconstructLoop_bad {E : Curve} (L : E.Laws) (bigjs : List Int) :
    ∀ l : List DecryptedShare, (∀ ds ∈ l, L.OnCurve ds.S) →
      (∃ ds ∈ l, ∀ lam, lagrangeCoefficient E ds.Position bigjs = .ok lam → lam = 0) →
      ∀ acc : L.Grp, reconstructLoop E bigjs l (L.enc acc) = .panic
        ∨ reconstructLoop E bigjs l (L.enc acc) = .ok nilPoint := by
  intro l
  induction l with
  | nil => intro _ hbad; obtain ⟨ds, hds, _⟩ := hbad; simp at hds
  | cons ds rest ih =>
    intro hon hbad acc
    obtain ⟨s, hs⟩ := hon ds (by simp)
    have hon1 : ∀ d ∈ rest, L.OnCurve d.S := fun d hd => hon d (by simp [hd])
    simp only [reconstructLoop]
    cases hl : lagrangeCoefficient E ds.Position bigjs with
    | ok lam =>
      obtain ⟨h0, hN⟩ := lagrange_range L _ _ _ hl
      simp only [bind_ok, ← hs]
      by_cases hz : lam = 0
      · rw [scalarMult_nil L s lam (Or.inl hz)]
        simp only [bind_ok]
        rcases L.add_nil_right (L.enc acc) with h | h <;> rw [h]
        · exact Or.inl rfl
        · exact reconstructLoop_nil L bigjs rest hon1
      · rw [scalarMult_enc L s lam (by omega) hN, bind_ok, add_enc, bind_ok]
        obtain ⟨d, hd, hdz⟩ := hbad
        rcases List.mem_cons.1 hd with rfl | hd1
        · exact absurd (hdz lam hl) hz
        · exact ih hon1 ⟨d, hd1, hdz⟩ _
    | error e => exact absurd hl (lagrange_not_error E _ _ e)
    | panic => exact Or.inl rfl

/-- With non-zero Lagrange coefficients the loop of `ReconstructSecret` adds group
elements, in any order. -/
theorem reconstructLoop_perm {E : Curve} (L : E.Laws) (bigjs : List Int)
    {l1 l2 : List DecryptedShare} (h : l1.Perm l2) :
    (∀ ds ∈ l1, L.OnCurve ds.S) →
    (∀ ds ∈ l1, ∃ lam, lagrangeCoefficient E ds.Position bigjs = .ok lam ∧ lam ≠ 0) →
    ∀ acc : L.Grp,
      reconstructLoop E bigjs l1 (L.enc acc) = reconstructLoop E bigjs l2 (L.enc acc) := by
  induction h with
  | nil => intro _ _ acc; rfl
  | cons x _ ih =>
    intro hon hgood acc
    obtain ⟨sx, hsx⟩ := hon x (by simp)
    obtain ⟨lx, hlx, hx0⟩ := hgood x (by simp)
    obtain ⟨h0, hN⟩ := lagrange_range L _ _ _ hlx
    have hsm := scalarMult_enc L sx lx (by omega) hN
    simp only [reconstructLoop, hlx, bind_ok, ← hsx, hsm, add_enc]
    exact ih (fun ds hds => hon ds (by simp [hds])) (fun ds hds => hgood ds (by simp [hds])) _
  | swap x y l =>
    intro hon hgood acc
    obtain ⟨sx, hsx⟩ := hon x (by simp)
    obtain ⟨sy, hsy⟩ := hon y (by simp)
    obtain ⟨lx, hlx, hx0⟩ := hgood x (by simp)
    obtain ⟨ly, hly, hy0⟩ := hgood y (by simp)
    obtain ⟨h0x, hNx⟩ := lagrange_range L _ _ _ hlx
    obtain ⟨h0y, hNy⟩ := lagrange_range L _ _ _ hly
    have hsmx := scalarMult_enc L sx lx (by omega) hNx
    have hsmy := scalarMult_enc L sy ly (by omega) hNy
    simp only [reconstructLoop, hlx, hly, bind_ok, ← hsx, ← hsy, hsmx, hsmy, add_enc]
    rw [add_right_comm]
  | trans h1 _ ih1 ih2 =>
    intro hon hgood acc
    rw [ih1 hon hgood acc]
    exact ih2 (fun ds hds => hon ds (h1.mem_iff.2 hds))
      (fun ds hds => hgood ds (h1.mem_iff.2 hds)) acc

/-- C16. Reconstruction is order-independent: for every list of decrypted shares whose
`S` are points of the curve, every permutation of the list and every `U`,
`ReconstructSecret` returns the same on the list and on its permutation. -/
theorem C16_reconstruct_order_independent (E : Curve) (L : E.Laws) (sha3 : Hasher)
    (l1 l2 : List DecryptedShare) (hperm : l1.Perm l2) (hon : ∀ ds ∈ l1, L.OnCurve ds.S)
    (u : Int) : ReconstructSecret E sha3 l1 u = ReconstructSecret E sha3 l2 u := by
  have hk : ((l1.map (fun ds => ds.Position)).dedup).Perm
      ((l2.map (fun ds => ds.Position)).dedup) := (hperm.map _).dedup
  unfold ReconstructSecret
  rw [reconstructLoop_keys E hk l1, ← enc_zero L]
  by_cases hgood : ∀ ds ∈ l1, ∃ lam,
      lagrangeCoefficient E ds.Position (l2.map (fun ds => ds.Position)).dedup = .ok lam
        ∧ lam ≠ 0
  · rw [reconstructLoop_perm L _ hperm hon hgood 0]
  · have hbad : ∃ ds ∈ l1, ∀ lam,
        lagrangeCoefficient E ds.Position (l2.map (fun ds => ds.Position)).dedup = .ok lam
          → lam = 0 := by
      by_contra hc
      apply hgood
      intro ds hds
      by_contra hn
      apply hc
      refine ⟨ds, hds, fun lam hl => ?_⟩
      by_contra hz
      exact hn ⟨lam, hl, hz⟩
    have hdead : ∀ r : Res Point, (r = .panic ∨ r = .ok nilPoint) →
        (r.bind fun sG => (values [sG]).bind fun vs =>
          Res.ok (Int.xor u (SetBytes (Hash sha3 vs)))) = .panic := by
      intro r hr
      rcases hr with h | h <;> rw [h] <;> rfl
    obtain ⟨d, hd, hdz⟩ := hbad
    rw [hdead _ (reconstructLoop_bad L _ l1 hon ⟨d, hd, hdz⟩ 0),
      hdead _ (reconstructLoop_bad L _ l2 (fun ds hds => hon ds (hperm.mem_iff.2 hds))
        ⟨d, hperm.mem_iff.1 hd, hdz⟩ 0)]

theorem C16_reconstruct_order_independent_witness :
    ReconstructSecret modelCurve modelHasher [modelDs1, modelDs2] 99
      = ReconstructSecret modelCurve modelHasher [modelDs2, modelDs1] 99 :=
  C16_reconstruct_order_independent modelCurve modelLaws modelHasher [modelDs1, modelDs2]
    [modelDs2, modelDs1] (List.Perm.swap modelDs2 modelDs1 [])
    (by
      intro ds hds
      simp only [List.mem_cons, List.mem_singleton, List.not_mem_nil, or_false] at hds
      rcases hds with rfl | rfl
      · exact ⟨modelLaws.g, enc_g modelLaws⟩
      · exact ⟨modelLaws.h, enc_h modelLaws⟩)
    99

end Pvss

/-! ## Lagrange interpolation at zero -/

open Polynomial in
theorem lagrange_at_zero {F : Type} [Field F] [DecidableEq F] (J : List F) (hJ : J.Nodup)
    (f : Polynomial F) (hf : f.degree < J.length) :
    (J.map (fun i => ((J.filter (fun j => j ≠ i)).map (fun j => j * (j - i)⁻¹)).prod
      * f.eval i)).sum = f.eval 0 := by
  have hcard : f.degree < J.toFinset.card := by rwa [List.toFinset_card_of_nodup hJ]
  have h := Lagrange.eq_interpolate (s := J.toFinset) (v := id) (Set.injOn_id _) hcard
  have h0 := congrArg (Polynomial.eval 0) h
  rw [Lagrange.interpolate_apply, Polynomial.eval_finset_sum] at h0
  rw [h0, List.sum_toFinset _ hJ]
  congr 1
  apply List.map_congr_left
  intro i hi
  rw [Polynomial.eval_mul, Polynomial.eval_C, mul_comm]
  congr 1
  rw [Lagrange.basis, Polynomial.eval_prod]
  have he : J.toFinset.erase i = (J.filter (fun j => j ≠ i)).toFinset := by
    ext x
    simp [and_comm]
  rw [he, List.prod_toFinset _ (hJ.filter _)]
  congr 1
  apply List.map_congr_left
  intro j hj
  have hji : j ≠ i := by simpa using (List.mem_filter.1 hj).2
  simp only [Lagrange.basisDivisor, id, Polynomial.eval_mul, Polynomial.eval_C,
    Polynomial.eval_sub, Polynomial.eval_X]
  have h1 : j - i ≠ 0 := sub_ne_zero.2 hji
  have h2 : i - j ≠ 0 := sub_ne_zero.2 (Ne.symm hji)
  field_simp
  ring

open Polynomial in
theorem horner_degree {F : Type} [Field F] : ∀ cs : List F,
    (cs.foldr (fun a q => C a + X * q) (0 : Polynomial F)).degree < cs.length := by
  intro cs
  induction cs with
  | nil => simp
  | cons a rest ih =>
    rw [Polynomial.degree_lt_iff_coeff_zero] at ih ⊢
    intro m hm
    simp only [List.length_cons] at hm
    obtain ⟨k, rfl⟩ : ∃ k, m = k + 1 := ⟨m - 1, by omega⟩
    simp only [List.foldr_cons, Polynomial.coeff_add, Polynomial.coeff_C_succ,
      Polynomial.coeff_X_mul, zero_add]
    exact ih k (by omega)

open Polynomial in
theorem horner_eval {F : Type} [Field F] (x : Int) : ∀ cs : List Int,
    ((Pvss.polySum x 0 cs : Int) : F)
      = ((cs.map (fun a : Int => (a : F))).foldr (fun a q => C a + X * q)
          (0 : Polynomial F)).eval (x : F) := by
  intro cs
  induction cs with
  | nil => simp [Pvss.polySum]
  | cons a rest ih =>
    simp only [Pvss.polySum, Pvss.polySum_succ, List.map_cons, List.foldr_cons, Polynomial.eval_add,
      Polynomial.eval_C, Polynomial.eval_mul, Polynomial.eval_X, ← ih]
    push_cast
    ring

namespace Pvss

theorem prod_div_list {F : Type} [Field F] (i : F) : ∀ l : List F,
    l.prod * ((l.map (fun j => j - i)).prod)⁻¹ = (l.map (fun j => j * (j - i)⁻¹)).prod := by
  intro l
  induction l with
  | nil => simp
  | cons a rest ih =>
    simp only [List.prod_cons, List.map_cons, ← ih, mul_inv]
    ring

/-- The value `lagrangeCoefficient` returns, as an element of the field `ZMod q`. -/
theorem lagrange_value {E : Curve} (L : E.Laws) (i : Int) (J : List Int)
    (hden : ∀ j ∈ J, j ≠ i → ¬ (E.N : Int) ∣ (j - i)) :
    ∃ lam : Int, lagrangeCoefficient E i J = .ok lam ∧ 0 ≤ lam ∧ lam < E.N
      ∧ (lam : ZMod E.N)
        = ((J.filter (fun j => j ≠ i)).map
            (fun j : Int => (j : ZMod E.N) * ((j : ZMod E.N) - (i : ZMod E.N))⁻¹)).prod := by
  haveI : Fact (Nat.Prime E.N) := ⟨L.prime⟩
  have hN := order_pos L
  have hcast : (((((J.filter (fun j => j ≠ i)).map (fun j => j - i)).prod : Int)) : ZMod E.N)
      = (((J.filter (fun j => j ≠ i)).map (fun j : Int => (j : ZMod E.N))).map
          (fun x => x - (i : ZMod E.N))).prod := by
    rw [Int.cast_list_prod, List.map_map, List.map_map]
    congr 1
    apply List.map_congr_left
    intro j _
    simp
  have hne : (((((J.filter (fun j => j ≠ i)).map (fun j => j - i)).prod : Int)) : ZMod E.N)
      ≠ 0 := by
    rw [Int.cast_list_prod]
    apply List.prod_ne_zero
    intro h0
    rw [List.mem_map] at h0
    obtain ⟨x, hx, hx0⟩ := h0
    rw [List.mem_map] at hx
    obtain ⟨j, hj, rfl⟩ := hx
    have hj1 := (List.mem_filter.1 hj)
    have hji : j ≠ i := by simpa using hj1.2
    exact hden j hj1.1 hji ((ZMod.intCast_zmod_eq_zero_iff_dvd _ _).1 hx0)
  have hndvd : ¬ (E.N : Int) ∣ ((J.filter (fun j => j ≠ i)).map (fun j => j - i)).prod :=
    fun h => hne ((ZMod.intCast_zmod_eq_zero_iff_dvd _ _).2 h)
  obtain ⟨inv, hinv, _, _, hmod⟩ := modInverse_spec L _ hndvd
  have hinvF : (inv : ZMod E.N)
      = ((((J.filter (fun j => j ≠ i)).map (fun j => j - i)).prod : Int) : ZMod E.N)⁻¹ := by
    apply eq_inv_of_mul_eq_one_left
    have := (ZMod.intCast_eq_intCast_iff _ _ _).2 hmod
    rw [Int.cast_mul, Int.cast_one] at this
    exact this
  refine ⟨(J.filter (fun j => j ≠ i)).prod % E.N * inv % E.N, ?_,
    Int.emod_nonneg _ (ne_of_gt hN), Int.emod_lt_of_pos _ hN, ?_⟩
  · simp only [lagrangeCoefficient, lagrange_fold, one_mul, hinv]
  · rw [ZMod.intCast_mod, Int.cast_mul, ZMod.intCast_mod, hinvF, hcast, Int.cast_list_prod,
      prod_div_list, List.map_map]
    rfl

theorem not_dvd_sub_of_range {E : Curve} (L : E.Laws) (i j : Int)
    (hi : 1 ≤ i ∧ i < 2 ^ 63) (hj : 1 ≤ j ∧ j < 2 ^ 63) (hne : j ≠ i) :
    ¬ (E.N : Int) ∣ (j - i) := by
  intro h
  have hl : (2 : Int) ^ 64 ≤ (E.N : Int) := by exact_mod_cast L.large
  have h0 : j - i = 0 := Int.eq_zero_of_abs_lt_dvd h (by rw [abs_lt]; constructor <;> omega)
  exact hne (by omega)

/-- The integers that `lagrangeCoefficient` returns for distinct positions in
`[1, 2^63)` interpolate at zero every polynomial with at most as many coefficients. -/
theorem lagrange_interpolates {E : Curve} (L : E.Laws) (J : List Int) (hJ : J.Nodup)
    (hJr : ∀ j ∈ J, 1 ≤ j ∧ j < 2 ^ 63) (cs : List Int) (hlen : cs.length ≤ J.length) :
    ∃ lam : Int → Int, (∀ i ∈ J, lagrangeCoefficient E i J = .ok (lam i) ∧ 0 ≤ lam i
        ∧ lam i < E.N)
      ∧ (J.map (fun i => lam i * (polySum i 0 cs % E.N))).sum
          ≡ polySum 0 0 cs [ZMOD (E.N : Int)] := by
  haveI : Fact (Nat.Prime E.N) := ⟨L.prime⟩
  have H : ∀ i : Int, i ∈ J → ∃ lam : Int, lagrangeCoefficient E i J = .ok lam ∧ 0 ≤ lam
      ∧ lam < E.N ∧ (lam : ZMod E.N) = ((J.filter (fun j => j ≠ i)).map
          (fun j : Int => (j : ZMod E.N) * ((j : ZMod E.N) - (i : ZMod E.N))⁻¹)).prod :=
    fun i hi => lagrange_value L i J
      (fun j hj hne => not_dvd_sub_of_range L i j (hJr i hi) (hJr j hj) hne)
  choose! lam hlam using H
  refine ⟨lam, fun i hi => ⟨(hlam i hi).1, (hlam i hi).2.1, (hlam i hi).2.2.1⟩, ?_⟩
  have hinj : ∀ a ∈ J, ∀ b ∈ J, ((a : Int) : ZMod E.N) = (b : ZMod E.N) → a = b := by
    intro a ha b hb hab
    by_contra hne
    have h1 := not_dvd_sub_of_range L b a (hJr b hb) (hJr a ha) hne
    apply h1
    rw [← ZMod.intCast_zmod_eq_zero_iff_dvd]
    push_cast
    rw [hab, sub_self]
  have hnodup : (J.map (fun j : Int => (j : ZMod E.N))).Nodup :=
    List.Nodup.map_on (fun a ha b hb hab => hinj a ha b hb hab) hJ
  have hdeg := horner_degree (cs.map (fun a : Int => (a : ZMod E.N)))
  have hdeg2 : ((cs.map (fun a : Int => (a : ZMod E.N))).foldr
      (fun a q => Polynomial.C a + Polynomial.X * q) 0).degree
        < ((J.map (fun j : Int => (j : ZMod E.N))).length : WithBot ℕ) := by
    refine lt_of_lt_of_le hdeg ?_
    rw [List.length_map, List.length_map]
    exact_mod_cast hlen
  have hz := lagrange_at_zero (J.map (fun j : Int => (j : ZMod E.N))) hnodup _ hdeg2
  rw [← ZMod.intCast_eq_intCast_iff, Int.cast_list_sum, List.map_map]
  have h0 := horner_eval (F := ZMod E.N) 0 cs
  rw [Int.cast_zero] at h0
  rw [h0, ← hz, List.map_map]
  congr 1
  apply List.map_congr_left
  intro i hi
  simp only [Function.comp]
  rw [Int.cast_mul, ZMod.intCast_mod, horner_eval (F := ZMod E.N) i cs, (hlam i hi).2.2.2]
  congr 2
  rw [List.filter_map, List.map_map]
  congr 1
  apply List.filter_congr
  intro j hj
  simp only [Function.comp, ne_eq, decide_not, Bool.not_eq_eq_eq_not, Bool.not_not,
    decide_eq_decide]
  constructor
  · intro h; rw [h]
  · intro h; exact hinj j hj i hi h

/-- A Lagrange coefficient is not zero when no other position is a multiple of `q`. -/
theorem lagrange_ne_zero {E : Curve} (L : E.Laws) (i : Int) (J : List Int)
    (hden : ∀ j ∈ J, j ≠ i → ¬ (E.N : Int) ∣ (j - i))
    (hnum : ∀ j ∈ J, j ≠ i → ¬ (E.N : Int) ∣ j) (lam : Int)
    (h : lagrangeCoefficient E i J = .ok lam) : lam ≠ 0 := by
  haveI : Fact (Nat.Prime E.N) := ⟨L.prime⟩
  obtain ⟨l2, hl2, _, _, hprod⟩ := lagrange_value L i J hden
  have heq : lam = l2 := Res.ok.inj (h.symm.trans hl2)
  subst heq
  intro h0
  rw [h0, Int.cast_zero] at hprod
  have hne : ((J.filter (fun j => j ≠ i)).map
      (fun j : Int => (j : ZMod E.N) * ((j : ZMod E.N) - (i : ZMod E.N))⁻¹)).prod ≠ 0 := by
    apply List.prod_ne_zero
    intro hmem
    rw [List.mem_map] at hmem
    obtain ⟨j, hj, hj0⟩ := hmem
    have hj1 := List.mem_filter.1 hj
    have hji : j ≠ i := by simpa using hj1.2
    rcases mul_eq_zero.1 hj0 with h1 | h1
    · exact hnum j hj1.1 hji ((ZMod.intCast_zmod_eq_zero_iff_dvd _ _).1 h1)
    · rw [inv_eq_zero, ← Int.cast_sub] at h1
      exact hden j hj1.1 hji ((ZMod.intCast_zmod_eq_zero_iff_dvd _ _).1 h1)
  exact hne hprod.symm

/-! ## Lagrange coefficients: value and invertibility -/

/-- C21. Lagrange coefficients interpolate at zero: for pairwise distinct positions `J`
in `1..n` with `|J| ≥ t` and a polynomial `P` with `t` coefficients, every
`lagrangeCoefficient(i, J)` with `i` in `J` returns a value `λ_i` in `[0, q)` that is, in
`Z_q`, the product over `j ∈ J`, `j ≠ i` of `j · (j - i)⁻¹`, and
`Σ_{i ∈ J} λ_i · P(i) ≡ P(0) (mod q)`. -/
theorem C21_lagrange_interpolates_at_zero (E : Curve) (L : E.Laws) (t n : Nat)
    (hn : n < 2 ^ 63) (J : List Int) (hJ : J.Nodup) (hJr : ∀ j ∈ J, 1 ≤ j ∧ j ≤ n)
    (hJt : t ≤ J.length) (cs : List Int) (hlen : cs.length = t) :
    ∃ lam : Int → Int,
      (∀ i ∈ J, lagrangeCoefficient E i J = .ok (lam i) ∧ 0 ≤ lam i ∧ lam i < E.N
        ∧ (lam i : ZMod E.N) = ((J.filter (fun j => j ≠ i)).map
            (fun j : Int => (j : ZMod E.N) * ((j : ZMod E.N) - (i : ZMod E.N))⁻¹)).prod)
      ∧ (J.map (fun i => lam i * (polySum i 0 cs % E.N))).sum
          ≡ polySum 0 0 cs [ZMOD (E.N : Int)] := by
  have hn2 : (n : Int) < 2 ^ 63 := by exact_mod_cast hn
  have hr : ∀ j ∈ J, 1 ≤ j ∧ j < 2 ^ 63 := fun j hj => ⟨(hJr j hj).1, by
    have := (hJr j hj).2
    omega⟩
  obtain ⟨lam, h1, h2⟩ := lagrange_interpolates L J hJ hr cs (by omega)
  refine ⟨lam, fun i hi => ?_, h2⟩
  obtain ⟨l2, hl2, _, _, hprod⟩ := lagrange_value L i J
    (fun j hj hne => not_dvd_sub_of_range L i j (hr i hi) (hr j hj) hne)
  obtain ⟨hok, h0, hlt⟩ := h1 i hi
  have heq : lam i = l2 := Res.ok.inj (hok.symm.trans hl2)
  exact ⟨hok, h0, hlt, heq ▸ hprod⟩

theorem C21_lagrange_interpolates_at_zero_witness :
    ∃ lam : Int → Int,
      (∀ i ∈ [(1 : Int), 3], lagrangeCoefficient modelCurve i [1, 3] = .ok (lam i)
        ∧ 0 ≤ lam i ∧ lam i < modelCurve.N
        ∧ (lam i : ZMod modelCurve.N) = (([(1 : Int), 3].filter (fun j => j ≠ i)).map
            (fun j : Int => (j : ZMod modelCurve.N)
              * ((j : ZMod modelCurve.N) - (i : ZMod modelCurve.N))⁻¹)).prod)
      ∧ ([(1 : Int), 3].map (fun i => lam i * (polySum i 0 [5, 7] % modelCurve.N))).sum
          ≡ polySum 0 0 [5, 7] [ZMOD (modelCurve.N : Int)] :=
  C21_lagrange_interpolates_at_zero modelCurve modelLaws 2 3 (by decide) [1, 3] (by decide)
    (by decide) (by decide) [5, 7] rfl


/-- Two distinct 64-bit machine integers differ by less than `2^64 ≤ q`. -/
theorem not_dvd_sub_of_int64 {E : Curve} (L : E.Laws) (i j : Int)
    (hi : -2 ^ 63 ≤ i ∧ i < 2 ^ 63) (hj : -2 ^ 63 ≤ j ∧ j < 2 ^ 63) (hne : j ≠ i) :
    ¬ (E.N : Int) ∣ (j - i) := by
  intro h
  have hl : (2 : Int) ^ 64 ≤ (E.N : Int) := by exact_mod_cast L.large
  have h0 : j - i = 0 := Int.eq_zero_of_abs_lt_dvd h (by rw [abs_lt]; constructor <;> omega)
  exact hne (by omega)

/-- A prime modulus divides the denominator only if it divides one of its factors. -/
theorem denominator_not_dvd {E : Curve} (L : E.Laws) (i : Int) (J : List Int)
    (hden : ∀ j ∈ J, j ≠ i → ¬ (E.N : Int) ∣ (j - i)) :
    ¬ (E.N : Int) ∣ (J.foldl (lagrangeStep i) (1, 1)).2 := by
  rw [lagrange_fold]
  intro h
  simp only [one_mul] at h
  obtain ⟨x, hx, hdvd⟩ := (Prime.dvd_prod_iff (Nat.prime_iff_prime_int.1 L.prime)).1 h
  rw [List.mem_map] at hx
  obtain ⟨j, hj, rfl⟩ := hx
  have hj1 := List.mem_filter.1 hj
  exact hden j hj1.1 (by simpa using hj1.2) hdvd

/-- C22. The Lagrange denominator is always invertible: for the position map that
`ReconstructSecret` builds from decrypted shares whose positions are 64-bit machine
integers (zero, negative and repeated positions included) and every machine integer `i`,
the denominator that `lagrangeCoefficient` accumulates is not divisible by the prime `q`,
`ModInverse` returns an inverse and `lagrangeCoefficient` returns a value. -/
theorem C22_lagrange_denominator_invertible (E : Curve) (L : E.Laws)
    (decShares : List DecryptedShare)
    (hpos : ∀ ds ∈ decShares, -2 ^ 63 ≤ ds.Position ∧ ds.Position < 2 ^ 63) :
    ∀ i : Int, -2 ^ 63 ≤ i ∧ i < 2 ^ 63 →
      ¬ (E.N : Int) ∣
          ((decShares.map (fun ds => ds.Position)).dedup.foldl (lagrangeStep i) (1, 1)).2
        ∧ (∃ inv, ModInverse
            ((decShares.map (fun ds => ds.Position)).dedup.foldl (lagrangeStep i) (1, 1)).2
            E.N = some inv)
        ∧ ∃ lam, lagrangeCoefficient E i (decShares.map (fun ds => ds.Position)).dedup
            = .ok lam := by
  have hJ : ∀ j ∈ (decShares.map (fun ds => ds.Position)).dedup,
      -2 ^ 63 ≤ j ∧ j < 2 ^ 63 := by
    intro j hj
    obtain ⟨ds, hds, rfl⟩ := List.mem_map.1 (List.mem_dedup.1 hj)
    exact hpos ds hds
  intro i hi
  have hnd := denominator_not_dvd L i _
    (fun j hj hne => not_dvd_sub_of_int64 L i j hi (hJ j hj) hne)
  obtain ⟨inv, hinv, _⟩ := modInverse_spec L _ hnd
  refine ⟨hnd, ⟨inv, hinv⟩,
    ⟨((decShares.map (fun ds => ds.Position)).dedup.foldl (lagrangeStep i) (1, 1)).1 % E.N
      * inv % E.N, ?_⟩⟩
  simp only [lagrangeCoefficient, hinv]

theorem C22_lagrange_denominator_invertible_witness :
    ¬ (modelCurve.N : Int) ∣
        (([modelDs1, { modelDs2 with Position := -7 }, { modelDs1 with Position := 0 },
            { modelDs2 with Position := -7 }].map
          (fun ds => ds.Position)).dedup.foldl (lagrangeStep 0) (1, 1)).2
      ∧ (∃ inv, ModInverse
          (([modelDs1, { modelDs2 with Position := -7 }, { modelDs1 with Position := 0 },
              { modelDs2 with Position := -7 }].map
            (fun ds => ds.Position)).dedup.foldl (lagrangeStep 0) (1, 1)).2
          modelCurve.N = some inv)
      ∧ ∃ lam, lagrangeCoefficient modelCurve 0
          ([modelDs1, { modelDs2 with Position := -7 }, { modelDs1 with Position := 0 },
            { modelDs2 with Position := -7 }].map (fun ds => ds.Position)).dedup
          = .ok lam :=
  C22_lagrange_denominator_invertible modelCurve modelLaws
    [modelDs1, { modelDs2 with Position := -7 }, { modelDs1 with Position := 0 },
      { modelDs2 with Position := -7 }] (by decide) 0 (by decide)

/-! ## Special soundness of the verification equations -/

theorem enc_add_congr {E : Curve} (L : E.Laws) {u v : L.Grp} (h : L.enc u = L.enc v)
    (z : L.Grp) : L.enc (u + z) = L.enc (v + z) := by
  have h1 := add_enc L u z
  rw [h, add_enc L v z] at h1
  exact (Res.ok.inj h1).symm

theorem enc_zsmul_congr {E : Curve} (L : E.Laws) {u v : L.Grp} (h : L.enc u = L.enc v)
    (k : Int) (hk : 1 ≤ k ∧ k < E.N) : L.enc (k • u) = L.enc (k • v) := by
  have h1 := scalarMult_enc L u k hk.1 hk.2
  rw [h, scalarMult_enc L v k hk.1 hk.2] at h1
  exact (Res.ok.inj h1).symm

/-- A recomputed commitment with coordinates is the group element `r · g + c · h`. -/
theorem recomputed_point {E : Curve} (L : E.Laws) (g h : L.Grp) (c r : Int)
    (hc : 0 ≤ c) (hr : 0 ≤ r) (x y : Int)
    (heq : recomputed E (L.enc g) (L.enc h) c r = .ok ⟨some x, some y⟩) :
    L.enc (r • g + c • h) = ⟨some x, some y⟩ := by
  rcases recomputed_cases L g h c r hc hr with h1 | h1 | h1
  · rw [h1] at heq
    exact Res.ok.inj heq
  · rw [h1] at heq
    exact Res.noConfusion heq
  · rw [h1] at heq
    have := Res.ok.inj heq
    simp [nilPoint] at this

/-- One verification equation shared by two transcripts with distinct challenges
determines the second point as a multiple of the first. -/
theorem extract_exponent {E : Curve} (L : E.Laws) (g h : L.Grp) (c r c' r' inv : Int)
    (hc : 0 ≤ c) (hr : 0 ≤ r) (hc' : 0 ≤ c') (hr' : 0 ≤ r')
    (hinv : 1 ≤ inv ∧ inv < E.N)
    (hmod : inv * (c' - c) ≡ 1 [ZMOD (E.N : Int)]) (x y : Int)
    (heq : recomputed E (L.enc g) (L.enc h) c r = .ok ⟨some x, some y⟩)
    (heq' : recomputed E (L.enc g) (L.enc h) c' r' = .ok ⟨some x, some y⟩) :
    L.enc h = L.enc (((r - r') * inv % E.N) • g) := by
  have hN := order_pos L
  have hp : L.enc (r • g + c • h) = L.enc (r' • g + c' • h) :=
    (recomputed_point L g h c r hc hr x y heq).trans
      (recomputed_point L g h c' r' hc' hr' x y heq').symm
  have h1 := enc_add_congr L hp (-(r' • g) - c • h)
  have e1 : r • g + c • h + (-(r' • g) - c • h) = (r - r') • g := by
    rw [sub_zsmul]; abel
  have e2 : r' • g + c' • h + (-(r' • g) - c • h) = (c' - c) • h := by
    rw [sub_zsmul]; abel
  rw [e1, e2] at h1
  have h2 := enc_zsmul_congr L h1 inv hinv
  rw [← mul_zsmul, ← mul_zsmul, zsmul_congr L h hmod, one_zsmul] at h2
  rw [← h2]
  refine congrArg L.enc (zsmul_congr L g ?_)
  rw [mul_comm]
  exact (Int.mod_modEq _ _).symm

/-- C24. Special soundness of the verification equations: for points `P1`, `Q1`, `P2`,
`Q2` of the curve (in the roles of `G1`, `H1`, `G2`, `H2`) and scalars `(c, r)`,
`(c', r')` with `c ≢ c' (mod q)`, if the commitments that `DLEQVerify` recomputes coincide
for the two transcripts, then `c' - c` has an inverse modulo `q`, and `Q1 = a · P1` and
`Q2 = a · P2` for the single scalar `a = (r - r') · (c' - c)⁻¹ mod q`; for `a ≠ 0` these
are the points that `ScalarMult` returns. -/
theorem C24_special_soundness (E : Curve) (L : E.Laws) (P1 Q1 P2 Q2 : Point)
    (hP1 : L.OnCurve P1) (hQ1 : L.OnCurve Q1) (hP2 : L.OnCurve P2) (hQ2 : L.OnCurve Q2)
    (c r c' r' : Int) (hc : 0 ≤ c) (hr : 0 ≤ r) (hc' : 0 ≤ c') (hr' : 0 ≤ r')
    (hne : ¬ c ≡ c' [ZMOD (E.N : Int)]) (x1 y1 x2 y2 : Int)
    (h1 : recomputed E P1 Q1 c r = .ok ⟨some x1, some y1⟩)
    (h1' : recomputed E P1 Q1 c' r' = .ok ⟨some x1, some y1⟩)
    (h2 : recomputed E P2 Q2 c r = .ok ⟨some x2, some y2⟩)
    (h2' : recomputed E P2 Q2 c' r' = .ok ⟨some x2, some y2⟩) :
    ∃ inv : Int, ModInverse (c' - c) E.N = some inv
      ∧ 0 ≤ (r - r') * inv % E.N ∧ (r - r') * inv % E.N < E.N
      ∧ (∀ g1 : L.Grp, L.enc g1 = P1 → Q1 = L.enc (((r - r') * inv % E.N) • g1))
      ∧ (∀ g2 : L.Grp, L.enc g2 = P2 → Q2 = L.enc (((r - r') * inv % E.N) • g2))
      ∧ ((r - r') * inv % E.N ≠ 0 →
          E.ScalarMult P1 (Bytes ((r - r') * inv % E.N)) = .ok Q1
          ∧ E.ScalarMult P2 (Bytes ((r - r') * inv % E.N)) = .ok Q2) := by
  obtain ⟨k1, rfl⟩ := hQ1
  obtain ⟨k2, rfl⟩ := hQ2
  have hN := order_pos L
  have hnd : ¬ (E.N : Int) ∣ (c' - c) := fun h => hne (Int.modEq_iff_dvd.2 h)
  obtain ⟨inv, hinv, hinv1, hinvN, hmod⟩ := modInverse_spec L _ hnd
  have ha0 := Int.emod_nonneg ((r - r') * inv) (ne_of_gt hN)
  have haN := Int.emod_lt_of_pos ((r - r') * inv) hN
  have hA : ∀ g1 : L.Grp, L.enc g1 = P1 →
      L.enc k1 = L.enc (((r - r') * inv % E.N) • g1) := by
    intro g1 hg1
    subst hg1
    exact extract_exponent L g1 k1 c r c' r' inv hc hr hc' hr' ⟨hinv1, hinvN⟩ hmod x1 y1 h1 h1'
  have hB : ∀ g2 : L.Grp, L.enc g2 = P2 →
      L.enc k2 = L.enc (((r - r') * inv % E.N) • g2) := by
    intro g2 hg2
    subst hg2
    exact extract_exponent L g2 k2 c r c' r' inv hc hr hc' hr' ⟨hinv1, hinvN⟩ hmod x2 y2 h2 h2'
  refine ⟨inv, hinv, ha0, haN, hA, hB, ?_⟩
  intro hane
  obtain ⟨g1, hg1⟩ := hP1
  obtain ⟨g2, hg2⟩ := hP2
  rw [hA g1 hg1, hB g2 hg2, ← hg1, ← hg2]
  exact ⟨scalarMult_enc L g1 _ (by omega) haN, scalarMult_enc L g2 _ (by omega) haN⟩

/-- Two transcripts for the statement `(g, alpha · g)` recompute the same commitment when
`r + c · alpha ≡ r' + c' · alpha (mod q)`. -/
theorem transcripts_agree {E : Curve} (L : E.Laws) (g : L.Grp) (alpha c r c' r' : Int)
    (hc' : 1 ≤ c' ∧ c' < E.N) (hr' : 1 ≤ r' ∧ r' < E.N)
    (h : r + c * alpha ≡ r' + c' * alpha [ZMOD (E.N : Int)]) :
    recomputed E (L.enc g) (L.enc (alpha • g)) c' r'
      = .ok (L.enc (r • g + c • alpha • g)) := by
  rw [recomputed_ok L g (alpha • g) c' r' hc' hr', ← mul_zsmul, ← mul_zsmul, ← add_zsmul,
    ← add_zsmul]
  exact congrArg Res.ok (congrArg L.enc (zsmul_congr L g h.symm))

theorem C24_special_soundness_witness :
    ∃ inv : Int, ModInverse (3 - 1) modelCurve.N = some inv
      ∧ modelLaws.enc ((5 : Int) • modelLaws.g)
        = modelLaws.enc (((2 - 221360928884514619385) * inv % modelCurve.N) • modelLaws.g)
      ∧ modelLaws.enc ((5 : Int) • modelLaws.h)
        = modelLaws.enc (((2 - 221360928884514619385) * inv % modelCurve.N)
            • modelLaws.h) := by
  obtain ⟨inv, hinv, _, _, hA, hB, _⟩ :=
    C24_special_soundness modelCurve modelLaws (modelLaws.enc modelLaws.g)
      (modelLaws.enc ((5 : Int) • modelLaws.g)) (modelLaws.enc modelLaws.h)
      (modelLaws.enc ((5 : Int) • modelLaws.h)) ⟨_, rfl⟩ ⟨_, rfl⟩ ⟨_, rfl⟩ ⟨_, rfl⟩
      1 2 3 221360928884514619385 (by decide) (by decide) (by decide) (by decide)
      (by decide) _ _ _ _
      (recomputed_ok modelLaws modelLaws.g ((5 : Int) • modelLaws.g) 1 2 (by decide)
        (by decide))
      (transcripts_agree modelLaws modelLaws.g 5 1 2 3 221360928884514619385 (by decide)
        (by decide) (by decide))
      (recomputed_ok modelLaws modelLaws.h ((5 : Int) • modelLaws.h) 1 2 (by decide)
        (by decide))
      (transcripts_agree modelLaws modelLaws.h 5 1 2 3 221360928884514619385 (by decide)
        (by decide) (by decide))
  exact ⟨inv, hinv, hA _ rfl, hB _ rfl⟩

/-! ## Reconstruction correctness -/

theorem reconstruct_sum {E : Curve} (L : E.Laws) (J : List Int) (lam val : Int → Int) :
    ∀ (M : List DecryptedShare),
      (∀ ds ∈ M, lagrangeCoefficient E ds.Position J = .ok (lam ds.Position)
        ∧ lam ds.Position ≠ 0 ∧ ds.S = L.enc (val ds.Position • L.g)) →
      ∀ acc : Int, reconstructLoop E J M (L.enc (acc • L.g))
        = .ok (L.enc ((acc + ((M.map (fun ds => ds.Position)).map
            (fun i => lam i * val i)).sum) • L.g)) := by
  intro M
  induction M with
  | nil => intro _ acc; simp [reconstructLoop]
  | cons ds rest ih =>
    intro h acc
    obtain ⟨h1, h2, h3⟩ := h ds (by simp)
    obtain ⟨h0, hN⟩ := lagrange_range L _ _ _ h1
    have hsm := scalarMult_enc L (val ds.Position • L.g) (lam ds.Position) (by omega) hN
    simp only [reconstructLoop, h1, h3, bind_ok, hsm, add_enc]
    rw [← mul_zsmul, ← add_zsmul, ih (fun d hd => h d (by simp [hd])) _]
    simp only [List.map_cons, List.sum_cons, add_assoc]

theorem xor_cancel (secret : Int) (hs : 0 ≤ secret) (h : Nat) :
    Int.xor (Int.xor secret h) h = secret := by
  obtain ⟨a, rfl⟩ := Int.eq_ofNat_of_zero_le hs
  show (((a ^^^ h) ^^^ h : Nat) : Int) = (a : Int)
  rw [Nat.xor_assoc, Nat.xor_self, Nat.xor_zero]

/-- Decryption by the key a share is addressed to gives the share's value on `G`. -/
theorem decrypt_share {E : Curve} (L : E.Laws) (sha3 : Hasher) (k : PrivateKey)
    (hx : 1 ≤ k.D ∧ k.D < E.N)
    (hpk : E.ScalarMult (G1 E) (Bytes k.D) = .ok ⟨some k.X, some k.Y⟩)
    (share : Share) (hPK : share.PK = ⟨k.X, k.Y⟩) (v : Int) (hv : 1 ≤ v ∧ v < E.N)
    (k1 : L.Grp) (hk1 : share.PK.point = L.enc k1) (hS : share.S = some (L.enc (v • k1)))
    (rnd : List Nat) (ds : DecryptedShare)
    (hds : (NewDealer k).extractSecretShare E sha3 share rnd = .ok ds) :
    ds.Position = share.Position ∧ ds.S = L.enc (v • L.g) := by
  have hPK1 := publicKey_enc L k hx hpk
  have hkk : L.enc k1 = L.enc (k.D • L.g) := by
    rw [← hk1, hPK]
    exact hPK1
  have hS2 : share.S = some (L.enc (v • (k.D • L.g))) := by
    rw [hS, enc_zsmul_congr L hkk v hv]
  obtain ⟨inv, _, _, hmod, _, hpos, hS1, _⟩ :=
    extract_exact L sha3 (NewDealer k) hx hPK1 share _ hS2 rnd ds hds
  refine ⟨hpos, ?_⟩
  rw [hS1, ← mul_zsmul, ← mul_zsmul]
  refine congrArg L.enc (zsmul_congr L L.g ?_)
  have h3 := Int.ModEq.mul_left v hmod
  rw [mul_one] at h3
  refine Int.ModEq.trans ?_ h3
  have h2 : inv * v * k.D = v * (inv * k.D) := by ring
  show inv * v * k.D ≡ v * (inv * k.D) [ZMOD (E.N : Int)]
  rw [h2]

/-- Reconstruction from decrypted shares of an honest box. -/
theorem reconstruct_honest {E : Curve} (L : E.Laws) (sha3 : Hasher) (d : Dealer)
    (secret : Int) (hsec : 0 ≤ secret) (t n : Nat) (ht : 1 ≤ t ∧ t ≤ n) (hn : n < 2 ^ 63)
    (keys : List PrivateKey) (hkeys : keys.length = n)
    (hrange : ∀ k ∈ keys, 1 ≤ k.D ∧ k.D < E.N)
    (hpub : ∀ k ∈ keys, E.ScalarMult (G1 E) (Bytes k.D) = .ok ⟨some k.X, some k.Y⟩)
    (cs : List Int) (hlen : cs.length = t) (hcs : ∀ a ∈ cs, 0 ≤ a ∧ a < E.N)
    (ws : List Nat) (hws : n ≤ ws.length) (box : DistributionSharesBox)
    (hbox : d.distribute E sha3 secret
      (initShares 0 (keys.map (fun k => (⟨k.X, k.Y⟩ : PublicKey)))) t ⟨cs⟩ ws = .ok box)
    (decs : List DecryptedShare)
    (hdecs : ∀ ds ∈ decs, ∃ k ∈ keys, ∃ share ∈ box.Shares, ∃ rnd : List Nat,
      share.PK = ⟨k.X, k.Y⟩
        ∧ (NewDealer k).extractSecretShare E sha3 share rnd = .ok ds)
    (hnodup : (decs.map (fun ds => ds.Position)).Nodup) (hk : t ≤ decs.length) :
    ReconstructSecret E sha3 decs box.U = .ok secret := by
  have hN := order_pos L
  cases cs with
  | nil => simp at hlen; omega
  | cons a0 as =>
    have hon : ∀ s ∈ initShares 0 (keys.map (fun k => (⟨k.X, k.Y⟩ : PublicKey))),
        L.OnCurve s.PK.point := by
      intro s hs
      have := initShares_pk _ 0 s hs
      rw [List.mem_map] at this
      obtain ⟨k, hk1, hk2⟩ := this
      refine ⟨k.D • L.g, ?_⟩
      rw [← hk2]
      exact (publicKey_enc L k (hrange k hk1) (hpub k hk1)).symm
    obtain ⟨ha0, hgood, _, hU, hfor⟩ := distribute_inv L sha3 d secret t (by omega) a0 as hcs
      _ ws hon (by rw [initShares_length, List.length_map, hkeys]; exact hws) box hbox
    have hval : ∀ ds ∈ decs, (1 ≤ ds.Position ∧ ds.Position < 2 ^ 63)
        ∧ ds.S = L.enc ((polySum ds.Position 0 (a0 :: as) % E.N) • L.g) := by
      intro ds hds
      obtain ⟨k, hk1, share, hsh, rnd, hPK, hext⟩ := hdecs ds hds
      obtain ⟨sw, hsw, hpk0, hpos0, k1, c, r, hk1e, hS0, _⟩ := forall2_mem_right hfor share hsh
      have hg := hgood sw hsw
      have hr := initShares_position_range _ 0 sw.1 (List.of_mem_zip hsw).1
      rw [List.length_map, hkeys] at hr
      have hp0 := Int.emod_nonneg (polySum sw.1.Position 0 (a0 :: as)) (ne_of_gt hN)
      have hpN := Int.emod_lt_of_pos (polySum sw.1.Position 0 (a0 :: as)) hN
      have hg1 : polySum sw.1.Position 0 (a0 :: as) % E.N ≠ 0 := hg.1
      obtain ⟨hp, hS⟩ := decrypt_share L sha3 k (hrange k hk1) (hpub k hk1) share hPK _
        ⟨by omega, hpN⟩ k1 (by rw [hpk0]; exact hk1e) hS0 rnd ds hext
      rw [hp, hpos0]
      refine ⟨?_, hS⟩
      push_cast at hr
      constructor <;> omega
    have hJr : ∀ j ∈ decs.map (fun ds => ds.Position), 1 ≤ j ∧ j < 2 ^ 63 := by
      intro j hj
      rw [List.mem_map] at hj
      obtain ⟨ds, hds, rfl⟩ := hj
      exact (hval ds hds).1
    obtain ⟨lam, hlam, hsum⟩ := lagrange_interpolates L (decs.map (fun ds => ds.Position))
      hnodup hJr (a0 :: as) (by rw [List.length_map, hlen]; exact hk)
    have hl : (2 : Int) ^ 64 ≤ (E.N : Int) := by exact_mod_cast L.large
    have hlam0 : ∀ ds ∈ decs, lam ds.Position ≠ 0 := by
      intro ds hds
      have hi := hJr _ (List.mem_map_of_mem _ hds)
      exact lagrange_ne_zero L ds.Position _
        (fun j hj hne => not_dvd_sub_of_range L _ j hi (hJr j hj) hne)
        (fun j hj _ => not_dvd_of_range (hJr j hj).1 (by have := (hJr j hj).2; omega))
        _ (hlam _ (List.mem_map_of_mem _ hds)).1
    have hloop := reconstruct_sum L (decs.map (fun ds => ds.Position)) lam
      (fun i => polySum i 0 (a0 :: as) % E.N) decs
      (fun ds hds => ⟨(hlam _ (List.mem_map_of_mem _ hds)).1, hlam0 ds hds,
        (hval ds hds).2⟩) 0
    rw [zero_smul, enc_zero L] at hloop
    have hpoint : L.enc ((0 + ((decs.map (fun ds => ds.Position)).map
        (fun i => lam i * (polySum i 0 (a0 :: as) % E.N))).sum) • L.g)
        = L.enc (a0 • L.g) := by
      refine congrArg L.enc (zsmul_congr L L.g ?_)
      rw [zero_add]
      refine hsum.trans ?_
      simp [polySum, polySum_succ]
    rw [hpoint] at hloop
    simp only [ReconstructSecret, hnodup.dedup, hloop, bind_ok, values_enc1, hU]
    rw [xor_cancel secret hsec]

/-- C1. Reconstruction correctness: for `1 ≤ t ≤ n`, a non-negative secret, a polynomial
with `t` coefficients in `[0, q)`, any nonces and recipient private keys `x_1..x_n` in
`[1, q)` with `pk_i = x_i · G`, let `box` be the result of `distribute` for positions
`1..n`. For every list of `k ≥ t` decrypted shares with pairwise distinct positions,
each the result of `extractSecretShare` by a recipient on a share of the box addressed
to its key, `ReconstructSecret(list, box.U)` returns the secret. -/
theorem C1_reconstruction_correct (E : Curve) (L : E.Laws) (sha3 : Hasher) (d : Dealer)
    (secret : Int) (hsec : 0 ≤ secret) (t n : Nat) (ht : 1 ≤ t ∧ t ≤ n) (hn : n < 2 ^ 63)
    (keys : List PrivateKey) (hkeys : keys.length = n)
    (hrange : ∀ k ∈ keys, 1 ≤ k.D ∧ k.D < E.N)
    (hpub : ∀ k ∈ keys, E.ScalarMult (G1 E) (Bytes k.D) = .ok ⟨some k.X, some k.Y⟩)
    (cs : List Int) (hlen : cs.length = t) (hcs : ∀ a ∈ cs, 0 ≤ a ∧ a < E.N)
    (ws : List Nat) (hws : n ≤ ws.length) (box : DistributionSharesBox)
    (hbox : d.distribute E sha3 secret
      (initShares 0 (keys.map (fun k => (⟨k.X, k.Y⟩ : PublicKey)))) t ⟨cs⟩ ws = .ok box)
    (decs : List DecryptedShare)
    (hdecs : ∀ ds ∈ decs, ∃ k ∈ keys, ∃ share ∈ box.Shares, ∃ rnd : List Nat,
      share.PK = ⟨k.X, k.Y⟩
        ∧ (NewDealer k).extractSecretShare E sha3 share rnd = .ok ds)
    (hnodup : (decs.map (fun ds => ds.Position)).Nodup) (hk : t ≤ decs.length) :
    ReconstructSecret E sha3 decs box.U = .ok secret :=
  reconstruct_honest L sha3 d secret hsec t n ht hn keys hkeys hrange hpub cs hlen hcs ws hws
    box hbox decs hdecs hnodup hk

theorem modelKeys_pk : ∀ k ∈ [modelKey, modelKey4, modelKey5],
    modelCurve.ScalarMult (G1 modelCurve) (Bytes k.D) = .ok ⟨some k.X, some k.Y⟩ := by
  intro k hk
  simp only [List.mem_cons, List.mem_singleton, List.not_mem_nil, or_false] at hk
  rcases hk with rfl | rfl | rfl
  · exact modelKey_pk
  · rw [← enc_g modelLaws, scalarMult_enc modelLaws _ modelKey4.D (by decide) (by decide)]
    exact congrArg Res.ok (by decide)
  · rw [← enc_g modelLaws, scalarMult_enc modelLaws _ modelKey5.D (by decide) (by decide)]
    exact congrArg Res.ok (by decide)

/-- The honest run on the model with `t = 2` and the three model keys: the box of
`distribute` and the share that each recipient decrypts. -/
theorem model_run :
    ∃ (box : DistributionSharesBox) (s1 s2 s3 : Share) (d1 d2 d3 : DecryptedShare),
      (NewDealer modelKey).distribute modelCurve modelHasher 42
        (initShares 0 ([modelKey, modelKey4, modelKey5].map
          (fun k => (⟨k.X, k.Y⟩ : PublicKey)))) ((2 : Nat) : Int) ⟨[1, 2]⟩ [10, 11, 12]
        = .ok box
      ∧ box.Shares = [s1, s2, s3]
      ∧ (s1.PK = ⟨3, 3⟩ ∧ s2.PK = ⟨4, 4⟩ ∧ s3.PK = ⟨5, 5⟩)
      ∧ (NewDealer modelKey).extractSecretShare modelCurve modelHasher s1 [7] = .ok d1
      ∧ (NewDealer modelKey4).extractSecretShare modelCurve modelHasher s2 [8] = .ok d2
      ∧ (NewDealer modelKey5).extractSecretShare modelCurve modelHasher s3 [9] = .ok d3
      ∧ d1.Position = 1 ∧ d2.Position = 2 ∧ d3.Position = 3 := by
  obtain ⟨box, _, hbox, hfor⟩ := model_distributeSecret
  generalize hsh : box.Shares = shares at hfor
  cases hfor with
  | cons hd1 t1 =>
    cases t1 with
    | cons hd2 t2 =>
      cases t2 with
      | cons hd3 t3 =>
        cases t3
        obtain ⟨hpk1, hpos1, k1, _, _, _, hS1, _⟩ := hd1
        obtain ⟨hpk2, hpos2, k2, _, _, _, hS2, _⟩ := hd2
        obtain ⟨hpk3, hpos3, k3, _, _, _, hS3, _⟩ := hd3
        obtain ⟨d1, _, he1, _, _, hp1, _⟩ := (extract_cases modelLaws modelHasher
          (NewDealer modelKey) (by decide) _ _ hS1).2.2 7 [] (by decide)
        obtain ⟨d2, _, he2, _, _, hp2, _⟩ := (extract_cases modelLaws modelHasher
          (NewDealer modelKey4) (by decide) _ _ hS2).2.2 8 [] (by decide)
        obtain ⟨d3, _, he3, _, _, hp3, _⟩ := (extract_cases modelLaws modelHasher
          (NewDealer modelKey5) (by decide) _ _ hS3).2.2 9 [] (by decide)
        exact ⟨box, _, _, _, d1, d2, d3, hbox, hsh, ⟨hpk1, hpk2, hpk3⟩, he1, he2, he3,
          hp1.trans hpos1, hp2.trans hpos2, hp3.trans hpos3⟩

theorem C1_reconstruction_correct_witness :
    ∃ (box : DistributionSharesBox) (s1 s2 s3 : Share) (d1 d2 d3 : DecryptedShare),
      (NewDealer modelKey).distribute modelCurve modelHasher 42
        (initShares 0 ([modelKey, modelKey4, modelKey5].map
          (fun k => (⟨k.X, k.Y⟩ : PublicKey)))) ((2 : Nat) : Int) ⟨[1, 2]⟩ [10, 11, 12]
        = .ok box
      ∧ box.Shares = [s1, s2, s3]
      ∧ (NewDealer modelKey).extractSecretShare modelCurve modelHasher s1 [7] = .ok d1
      ∧ (NewDealer modelKey4).extractSecretShare modelCurve modelHasher s2 [8] = .ok d2
      ∧ (NewDealer modelKey5).extractSecretShare modelCurve modelHasher s3 [9] = .ok d3
      ∧ ReconstructSecret modelCurve modelHasher [d1, d3] box.U = .ok 42
      ∧ ReconstructSecret modelCurve modelHasher [d3, d1, d2] box.U = .ok 42 := by
  obtain ⟨box, s1, s2, s3, d1, d2, d3, hbox, hsh, ⟨hpk1, hpk2, hpk3⟩, he1, he2, he3, hp1,
    hp2, hp3⟩ := model_run
  have hrange : ∀ k ∈ [modelKey, modelKey4, modelKey5],
      1 ≤ k.D ∧ k.D < modelCurve.N := by decide
  have hm1 : ∃ k ∈ [modelKey, modelKey4, modelKey5], ∃ share ∈ box.Shares,
      ∃ rnd : List Nat, share.PK = ⟨k.X, k.Y⟩
        ∧ (NewDealer k).extractSecretShare modelCurve modelHasher share rnd = .ok d1 :=
    ⟨modelKey, by simp, s1, by simp [hsh], [7], hpk1, he1⟩
  have hm2 : ∃ k ∈ [modelKey, modelKey4, modelKey5], ∃ share ∈ box.Shares,
      ∃ rnd : List Nat, share.PK = ⟨k.X, k.Y⟩
        ∧ (NewDealer k).extractSecretShare modelCurve modelHasher share rnd = .ok d2 :=
    ⟨modelKey4, by simp, s2, by simp [hsh], [8], hpk2, he2⟩
  have hm3 : ∃ k ∈ [modelKey, modelKey4, modelKey5], ∃ share ∈ box.Shares,
      ∃ rnd : List Nat, share.PK = ⟨k.X, k.Y⟩
        ∧ (NewDealer k).extractSecretShare modelCurve modelHasher share rnd = .ok d3 :=
    ⟨modelKey5, by simp, s3, by simp [hsh], [9], hpk3, he3⟩
  refine ⟨box, s1, s2, s3, d1, d2, d3, hbox, hsh, he1, he2, he3, ?_, ?_⟩
  · exact C1_reconstruction_correct modelCurve modelLaws modelHasher (NewDealer modelKey) 42
      (by decide) 2 3 (by decide) (by decide) [modelKey, modelKey4, modelKey5] rfl hrange
      modelKeys_pk [1, 2] rfl (by decide) [10, 11, 12] (by decide) box hbox [d1, d3]
      (by
        intro ds hds
        simp only [List.mem_cons, List.mem_singleton, List.not_mem_nil, or_false] at hds
        rcases hds with rfl | rfl
        · exact hm1
        · exact hm3)
      (by simp [hp1, hp3]) (Nat.le_refl 2)
  · exact C1_reconstruction_correct modelCurve modelLaws modelHasher (NewDealer modelKey) 42
      (by decide) 2 3 (by decide) (by decide) [modelKey, modelKey4, modelKey5] rfl hrange
      modelKeys_pk [1, 2] rfl (by decide) [10, 11, 12] (by decide) box hbox [d3, d1, d2]
      (by
        intro ds hds
        simp only [List.mem_cons, List.mem_singleton, List.not_mem_nil, or_false] at hds
        rcases hds with rfl | rfl | rfl
        · exact hm3
        · exact hm1
        · exact hm2)
      (by simp [hp1, hp2, hp3]) (Nat.le_succ 2)

end Pvss
